import Mathlib

/-!
# gr: generic resource pools (gr.h, gr.c)

A shallow embedding of `src/include/gr.h` and `src/src/gr.c`.

* Pointers are natural numbers, `0` is `NULL`.  Pool structures
  (`struct genresource`) live in a heap `Nat → Option genresource`; reading a
  pool through `NULL` or through a freed pointer makes the operation fail
  (`none`).  `gr_init` takes the next unused address `brk + 1`.
* The `ptrs` table of a pool is kept inside its pool cell (it is owned by that
  pool alone and freed together with it).
* The `int` fields `num` and `max` are natural numbers, in exact arithmetic.
  The values returned through function pointers are integers; the `int`
  accumulator `ret_val` of `gr_clear` and `gr_finish` holds, after each `+=`,
  the 32-bit two's complement value of the sum (`wrap_int`).
* Function pointers (`free_func`, `iter_return_p`) are natural numbers, `0` is
  `NULL`.  What a call through a function pointer returns is given by an
  `Oracle`, which may depend on all the external calls made before.
* Every external action (a release function call, `free`, a predicate call, a
  line printed by `gr_stats`) is appended to the `trace` of the state.
* `goto`/`while` loops and the recursion over `chain` take a fuel argument; an
  operation that runs out of fuel returns `none`.
* Allocation (`calloc`) of pools and tables always succeeds and never reuses an
  address.  A read of `ptrs[i]` beyond the table gives a null slot and a write
  beyond it is dropped; on pools with `num ≤ max` slots in a table of `max`
  slots (`LinkOk`), the only ones the operations create, neither happens.
-/

namespace Gr

/-- The slot type `struct resource_t`: a handle `data` and a release function `ff`. -/
structure resource_t where
  data : Nat
  ff : Nat
deriving DecidableEq, Repr

/-- The pool type `struct genresource`. -/
structure genresource where
  ptrs : List resource_t
  num : Nat
  max : Nat
  next : Nat
  chain : Nat
deriving DecidableEq, Repr

/-- The iterator type `struct iterator_context`. -/
structure iterator_context where
  gr : Nat
  cur : Nat
  f : Nat
deriving DecidableEq, Repr

/-- External actions, in the order the code performs them. -/
inductive Event where
  /-- The call `(*ff)(data)` made by `gr_clear` returned `ret` -/
  | call (ff data : Nat) (ret : Int)
  /-- The call `free(data)` made by `gr_clear` (entry without release function) -/
  | free_data (data : Nat)
  /-- The call `free(gr->ptrs)` made by `gr_destroy` -/
  | free_ptrs (gr : Nat)
  /-- The call `free(gr)` made by `gr_destroy` -/
  | free_gr (gr : Nat)
  /-- The call `(*f)(data)` made by `gr_iter_next` returned `ret` -/
  | test (f data : Nat) (ret : Int)
  /-- the line `n=%d m=%d ...` of `gr_printstats` -/
  | stats (num max : Nat)
  /-- the separator line of `gr_stats` -/
  | line
deriving DecidableEq, Repr

/-- Result of calling the function at address `f` on `data`, after the external
actions in the given trace. -/
abbrev Oracle := Nat → Nat → List Event → Int

/-- Program state: the heap of pools, the allocation mark, the two statics of
`gr.c` (`gr_List`, `destroy_chains_on_clear`) and the trace. -/
structure State where
  heap : Nat → Option genresource
  brk : Nat
  gr_List : Nat
  destroy_chains_on_clear : Int
  trace : List Event

/-- Write (or free, with `none`) the pool cell at address `a`. -/
def store (s : State) (a : Nat) (v : Option genresource) : State :=
  { s with heap := fun b => if b = a then v else s.heap b }

/-- A field assignment `gr->field = ...` on the pool at address `a`. -/
def modify (s : State) (a : Nat) (f : genresource → genresource) : State :=
  store s a ((s.heap a).map f)

/-- The state at program start: nothing allocated, `gr_List = NULL`,
`destroy_chains_on_clear = 1`. -/
def init_state : State :=
  { heap := fun _ => none, brk := 0, gr_List := 0, destroy_chains_on_clear := 1, trace := [] }

/-- Function `gr_init` (gr.c:139-149). -/
def gr_init (s : State) (max : Nat) : Nat × State :=
  let max := if max = 0 then 32 else max
  let gr := s.brk + 1
  (gr, { store s gr (some { ptrs := List.replicate max ⟨0, 0⟩, num := 0, max := max,
                            next := 0, chain := 0 })
         with brk := gr })

/-- Function `gr_track` (gr.c:110-128); one unit of fuel per pass through `recurse:`. -/
def gr_track : Nat → State → Nat → Nat → Nat → Option (Int × State)
  | 0, _, _, _, _ => none
  | fuel + 1, s, gr, ptr, ff =>
    match s.heap gr with
    | none => none
    | some g =>
      if g.num = g.max then
        let s1 :=
          if g.chain = 0 then
            let r := gr_init s (2 * g.max)
            modify r.2 gr (fun c => { c with chain := r.1 })
          else s
        match s1.heap gr with
        | none => none
        | some g1 => gr_track fuel s1 g1.chain ptr ff
      else
        some (1, store s gr (some { g with ptrs := g.ptrs.set g.num ⟨ptr, ff⟩,
                                           num := g.num + 1 }))

/-- Function `gr_malloc` (gr.c:80-100); `r` is what `calloc(1, size)` returned. -/
def gr_malloc (fuel : Nat) (s : State) (gr : Nat) (r : Nat) : Option (Nat × State) :=
  match s.heap gr with
  | none => none
  | some _ =>
    if r = 0 then some (r, s)
    else
      match gr_track fuel s gr r 0 with
      | none => none
      | some (t, s1) =>
        if t = 0 then some (0, { s1 with trace := s1.trace ++ [Event.free_data r] })
        else some (r, s1)

/-- The value an `int` variable holds after it is assigned `x`: the 32-bit
two's complement value congruent to `x`. -/
def wrap_int (x : Int) : Int := (x + 2147483648) % 4294967296 - 2147483648

/-- The `for` loop of `gr_clear` (gr.c:61-69): `k` iterations are left, `i` is
the loop index; `ret_val += ...` is an addition of `int`s. -/
def clear_loop (ext : Oracle) : Nat → Nat → List resource_t → Int → List Event →
    List resource_t × Int × List Event
  | 0, _, ptrs, ret_val, tr => (ptrs, ret_val, tr)
  | k + 1, i, ptrs, ret_val, tr =>
    let e := ptrs.getD i ⟨0, 0⟩
    if e.data ≠ 0 then
      if e.ff ≠ 0 then
        let r := ext e.ff e.data tr
        clear_loop ext k (i + 1) (ptrs.set i { e with data := 0 }) (wrap_int (ret_val + r))
          (tr ++ [Event.call e.ff e.data r])
      else
        clear_loop ext k (i + 1) (ptrs.set i { e with data := 0 }) ret_val
          (tr ++ [Event.free_data e.data])
    else clear_loop ext k (i + 1) ptrs ret_val tr

mutual
/-- Function `gr_destroy` (gr.c:23-32). -/
def gr_destroy (ext : Oracle) : Nat → State → Nat → Option (Int × State)
  | 0, _, _ => none
  | fuel + 1, s, gr =>
    if gr = 0 then some (0, s)
    else
      match gr_clear ext fuel s gr with
      | none => none
      | some (ret_val, s1) =>
        match s1.heap gr with
        | none => none
        | some _ =>
          some (ret_val, { store s1 gr none with
                           trace := s1.trace ++ [Event.free_ptrs gr, Event.free_gr gr] })
/-- Function `gr_clear` (gr.c:40-75); `ret_val += ...` is an addition of `int`s. -/
def gr_clear (ext : Oracle) : Nat → State → Nat → Option (Int × State)
  | 0, _, _ => none
  | fuel + 1, s, gr =>
    match s.heap gr with
    | none => none
    | some g =>
      let r1 : Option (Int × State) :=
        if g.chain ≠ 0 then
          if s.destroy_chains_on_clear ≠ 0 then
            match gr_destroy ext fuel s g.chain with
            | none => none
            | some (r, s1) =>
              some (wrap_int (0 + r), modify s1 gr (fun c => { c with chain := 0 }))
          else
            match gr_clear ext fuel s g.chain with
            | none => none
            | some (r, s1) => some (wrap_int (0 + r), s1)
        else some (0, s)
      match r1 with
      | none => none
      | some (ret0, s1) =>
        match s1.heap gr with
        | none => none
        | some g1 =>
          let r := clear_loop ext g1.num 0 g1.ptrs ret0 s1.trace
          some (r.2.1, { store s1 gr (some { g1 with ptrs := r.1, num := 0 })
                         with trace := r.2.2 })
end

/-- Function `gr_get` (gr.c:156-166). -/
def gr_get (s : State) (max : Nat) : Nat × State :=
  let r := gr_init s max
  let s1 := modify r.2 r.1 (fun c => { c with next := r.2.gr_List })
  (r.1, { s1 with gr_List := r.1 })

/-- The `while (cur)` loop of `gr_finish` (gr.c:186-190); `ret_val += ...` is an
addition of `int`s. -/
def finish_loop (ext : Oracle) : Nat → State → Nat → Int → Option (Int × State)
  | 0, _, _, _ => none
  | fuel + 1, s, cur, ret_val =>
    if cur = 0 then some (ret_val, s)
    else
      match s.heap cur with
      | none => none
      | some g =>
        match gr_destroy ext fuel s cur with
        | none => none
        | some (r, s1) => finish_loop ext fuel s1 g.next (wrap_int (ret_val + r))

/-- Function `gr_finish` (gr.c:172-193). -/
def gr_finish (ext : Oracle) (fuel : Nat) (s : State) : Option (Int × State) :=
  let save := s.destroy_chains_on_clear
  let s1 := { s with destroy_chains_on_clear := 1 }
  let cur := s1.gr_List
  let s2 := { s1 with gr_List := 0 }
  match finish_loop ext fuel s2 cur 0 with
  | none => none
  | some (ret_val, s3) => some (ret_val, { s3 with destroy_chains_on_clear := save })

/-- Function `gr_printstats` (gr.c:10-17). -/
def gr_printstats : Nat → State → Nat → Option State
  | 0, _, _ => none
  | fuel + 1, s, gr =>
    match s.heap gr with
    | none => none
    | some g =>
      let s1 := { s with trace := s.trace ++ [Event.stats g.num g.max] }
      if g.chain ≠ 0 then gr_printstats fuel s1 g.chain else some s1

/-- The `while (cur)` loop of `gr_stats` (gr.c:201-205). -/
def stats_loop : Nat → State → Nat → Option State
  | 0, _, _ => none
  | fuel + 1, s, cur =>
    if cur = 0 then some s
    else
      match gr_printstats fuel s cur with
      | none => none
      | some s1 =>
        match s1.heap cur with
        | none => none
        | some g => stats_loop fuel { s1 with trace := s1.trace ++ [Event.line] } g.next

/-- Function `gr_stats` (gr.c:195-206). -/
def gr_stats (fuel : Nat) (s : State) (gr : Nat) : Option State :=
  stats_loop fuel s (if gr = 0 then s.gr_List else gr)

/-- Function `gr_iter_start` (gr.c:217-230); the iterator is held by the caller. -/
def gr_iter_start (gr : Nat) (f : Nat) : iterator_context :=
  { gr := gr, cur := 0, f := f }

/-- Function `gr_iter_next` (gr.c:236-268); one unit of fuel per pass through the
`while` test or through `recurse:`.  The second component of the result is the
iterator after the call, `none` once it has been freed. -/
def gr_iter_next (ext : Oracle) : Nat → State → iterator_context →
    Option (Nat × Option iterator_context × State)
  | 0, _, _ => none
  | fuel + 1, s, iter =>
    if iter.gr = 0 then some (0, none, s)
    else
      match s.heap iter.gr with
      | none => none
      | some g =>
        if iter.cur < g.num then
          let d := (g.ptrs.getD iter.cur ⟨0, 0⟩).data
          if iter.f ≠ 0 then
            let r := ext iter.f d s.trace
            let s1 := { s with trace := s.trace ++ [Event.test iter.f d r] }
            if r ≠ 0 then some (d, some { iter with cur := iter.cur + 1 }, s1)
            else gr_iter_next ext fuel s1 { iter with cur := iter.cur + 1 }
          else some (d, some { iter with cur := iter.cur + 1 }, s)
        else gr_iter_next ext fuel s { iter with gr := g.chain, cur := 0 }

/-- The loop `while (foo = gr_iter_next(iter))` of `iterate` (example3.c:61-64),
collecting the handles it is given; `n` is the fuel of each `gr_iter_next`
call.  The result also has the iterator as the last call left it (`none`: it
has been freed). -/
def iter_drain (ext : Oracle) (n : Nat) : Nat → State → iterator_context →
    Option (List Nat × Option iterator_context × State)
  | 0, _, _ => none
  | fuel + 1, s, iter =>
    match gr_iter_next ext n s iter with
    | none => none
    | some (foo, it, s1) =>
      if foo ≠ 0 then
        match it with
        | none => none
        | some iter1 =>
          match iter_drain ext n fuel s1 iter1 with
          | none => none
          | some (l, it2, s2) => some (foo :: l, it2, s2)
      else some ([], it, s1)

/-- Function `iterate` (example3.c:54-67): the number of handles the iterator yields. -/
def iterate (ext : Oracle) (fuel : Nat) (s : State) (gr : Nat) (f : Nat) :
    Option (Nat × State) :=
  (iter_drain ext fuel fuel s (gr_iter_start gr f)).map (fun r => (r.1.length, r.2.2))

/-- A caller tracking the entries `es` one after the other into pool `gr`
(the inner loop of `main`, example3.c:101-106). -/
def track_all (fuel : Nat) : State → Nat → List resource_t → Option State
  | s, _, [] => some s
  | s, gr, e :: es =>
    match gr_track fuel s gr e.data e.ff with
    | none => none
    | some (_, s1) => track_all fuel s1 gr es

/-! ## Views of the heap used to state the properties -/

/-- The pool at address `a` and its chain are the links `ls` (address and cell),
the last one having a null `chain`. -/
def Chain (h : Nat → Option genresource) : Nat → List (Nat × genresource) → Prop
  | a, [] => a = 0
  | a, x :: ls => a = x.1 ∧ a ≠ 0 ∧ h a = some x.2 ∧ Chain h x.2.chain ls

/-- The used slots `ptrs[0 .. num-1]` of a link. -/
def used (g : genresource) : List resource_t := g.ptrs.take g.num

/-- The used slots of all links, in chain order. -/
def entries : List (Nat × genresource) → List resource_t
  | [] => []
  | x :: ls => used x.2 ++ entries ls

/-- The addresses of the links. -/
def addrs (ls : List (Nat × genresource)) : List Nat := ls.map Prod.fst

/-- A link whose count is within its capacity and whose table has `max` slots. -/
def LinkOk (g : genresource) : Prop := g.num ≤ g.max ∧ g.ptrs.length = g.max

/-- A well-formed pool of the state `s`: a non-null address, a finite chain,
every link allocated below the allocation mark and well-formed. -/
def Pool (s : State) (a : Nat) (ls : List (Nat × genresource)) : Prop :=
  Chain s.heap a ls ∧ ls ≠ [] ∧ ∀ x ∈ ls, x.1 ≤ s.brk ∧ LinkOk x.2

/-- The cell `gr_init` creates. -/
def fresh_link (max : Nat) : genresource :=
  { ptrs := List.replicate (if max = 0 then 32 else max) ⟨0, 0⟩, num := 0,
    max := if max = 0 then 32 else max, next := 0, chain := 0 }

/-- The cell after `ptrs[num] = e; num++`. -/
def put (e : resource_t) (g : genresource) : genresource :=
  { g with ptrs := g.ptrs.set g.num e, num := g.num + 1 }

/-- What `gr_track` does to the list of links of a pool, `fresh` being the
address of the link it may create. -/
def trackL (fresh : Nat) (e : resource_t) : List (Nat × genresource) → List (Nat × genresource)
  | [] => []
  | x :: ls =>
    if x.2.num = x.2.max then
      if ls.isEmpty then
        [(x.1, { x.2 with chain := fresh }), (fresh, put e (fresh_link (2 * x.2.max)))]
      else x :: trackL fresh e ls
    else (x.1, put e x.2) :: ls

/-- Every link in front of a non-empty link is full. -/
def Packed : List (Nat × genresource) → Prop
  | [] => True
  | x :: ls => (x.2.num = x.2.max ∨ ∀ y ∈ ls, y.2.num = 0) ∧ Packed ls

/-- The table after the `for` loop of `gr_clear` has run over its first `k`
slots: their handles are null. -/
def wipe : Nat → List resource_t → List resource_t
  | 0, l => l
  | _ + 1, [] => []
  | k + 1, e :: l => { e with data := 0 } :: wipe k l

/-- The cell after the `for` loop and `num = 0` of `gr_clear`. -/
def cleared (g : genresource) : genresource :=
  { g with ptrs := wipe g.num g.ptrs, num := 0 }

/-- The links of a pool after `gr_clear`, for the given value of
`destroy_chains_on_clear`. -/
def clearL (flag : Int) (ls : List (Nat × genresource)) : List (Nat × genresource) :=
  if flag ≠ 0 then (ls.take 1).map (fun y => (y.1, { cleared y.2 with chain := 0 }))
  else ls.map (fun y => (y.1, cleared y.2))

/-- The value a release function call returned (0 for the other events). -/
def ret_of : Event → Int
  | Event.call _ _ r => r
  | _ => 0

/-- The sum of the values returned by the release function calls of a trace. -/
def sum_rets (evs : List Event) : Int := (evs.map ret_of).sum

/-- The release action of an event: the handle it is performed on, and the
release function called on it (`none` for the default deallocation `free`). -/
def release_of : Event → Option (Nat × Option Nat)
  | Event.call f d _ => some (d, some f)
  | Event.free_data d => some (d, none)
  | _ => none

/-- The release actions of a trace, in order. -/
def released (evs : List Event) : List (Nat × Option Nat) := evs.filterMap release_of

/-- The release action `gr_clear` owes to an entry: its release function on its
handle if it has one, the default deallocation of the handle otherwise. -/
def action (e : resource_t) : Nat × Option Nat :=
  (e.data, if e.ff ≠ 0 then some e.ff else none)

/-- Every release function call of `evs` is made through a non-null function
pointer on a non-null handle and records what the oracle answers after the
events before it (`tr` being the trace before `evs`). -/
def Answers (ext : Oracle) : List Event → List Event → Prop
  | _, [] => True
  | tr, ev :: evs =>
    (∀ f d r, ev = Event.call f d r → f ≠ 0 ∧ d ≠ 0 ∧ r = ext f d tr) ∧
      Answers ext (tr ++ [ev]) evs

/-- The pool address of a `free(gr)` event. -/
def freed_of : Event → Option Nat
  | Event.free_gr a => some a
  | _ => none

/-- The pool structures freed in a trace, in order. -/
def freed_pools (evs : List Event) : List Nat := evs.filterMap freed_of

/-- The table address of a `free(gr->ptrs)` event. -/
def freed_table_of : Event → Option Nat
  | Event.free_ptrs a => some a
  | _ => none

/-- The pools whose tables are freed in a trace, in order. -/
def freed_tables (evs : List Event) : List Nat := evs.filterMap freed_table_of

/-- The non-null used entries of a link: what `gr_clear` releases in it. -/
def live (g : genresource) : List resource_t := (used g).filter (fun e => e.data ≠ 0)

/-- The entries `gr_clear` releases, in the order it releases them: the chain
first, then the pool's own entries. -/
def relL : List (Nat × genresource) → List resource_t
  | [] => []
  | x :: ls => relL ls ++ live x.2

/-- The part of `gr_clear` after the chain has been dealt with (gr.c:59-74):
the `for` loop over the pool's own entries and `num = 0`. -/
def clear_own (ext : Oracle) (gr : Nat) (ret0 : Int) (s1 : State) : Option (Int × State) :=
  match s1.heap gr with
  | none => none
  | some g1 =>
    let r := clear_loop ext g1.num 0 g1.ptrs ret0 s1.trace
    some (r.2.1, { store s1 gr (some { g1 with ptrs := r.1, num := 0 }) with trace := r.2.2 })

/-- The counts and capacities of a chain that holds `k` entries and whose first
link has capacity `c`: every link but the last is full, each link has twice the
capacity of the one before, and a link after the first is never empty. -/
def Shape : Nat → Nat → List (Nat × genresource) → Prop
  | _, _, [] => False
  | c, k, x :: ls =>
    x.2.max = c ∧
      (if ls.isEmpty then x.2.num = k ∧ k ≤ c
       else x.2.num = c ∧ c < k ∧ Shape (2 * c) (k - c) ls)

/-- A state with one pool at address 1 (capacity 2, full) whose chain link at
address 2 (capacity 4) holds three entries. -/
def demo_state : State :=
  { heap := fun b =>
      if b = 1 then
        some { ptrs := [⟨11, 0⟩, ⟨12, 7⟩], num := 2, max := 2, next := 0, chain := 2 }
      else if b = 2 then
        some { ptrs := [⟨13, 8⟩, ⟨14, 0⟩, ⟨15, 7⟩, ⟨0, 0⟩], num := 3, max := 4, next := 0,
               chain := 0 }
      else none,
    brk := 2, gr_List := 0, destroy_chains_on_clear := 1, trace := [] }

/-- The links of the pool of `demo_state`. -/
def demo_links : List (Nat × genresource) :=
  [(1, { ptrs := [⟨11, 0⟩, ⟨12, 7⟩], num := 2, max := 2, next := 0, chain := 2 }),
   (2, { ptrs := [⟨13, 8⟩, ⟨14, 0⟩, ⟨15, 7⟩, ⟨0, 0⟩], num := 3, max := 4, next := 0,
         chain := 0 })]

/-- An oracle for `demo_state`: the function at address 7 returns 0, every
other function returns 1. -/
def demo_ext : Oracle := fun f _ _ => if f = 7 then 0 else 1

/-- The handles an iterator at slot `cur` of the first link of `ls` has not
passed yet. -/
def rest_handles (cur : Nat) : List (Nat × genresource) → List Nat
  | [] => []
  | x :: l => ((used x.2).drop cur).map (fun e => e.data) ++ (entries l).map (fun e => e.data)

/-- An iterator position `(gr, cur)` inside a well-formed chain `ls` that
starts at `gr`. -/
def IterAt (h : Nat → Option genresource) (gr cur : Nat) (ls : List (Nat × genresource)) :
    Prop :=
  Chain h gr ls ∧ (∀ x ∈ ls, LinkOk x.2) ∧ ∀ x, ls.head? = some x → cur ≤ x.2.num

/-- A state with one pool at address 1 (capacity 2) and its chain link at
address 2, holding the handles 1, 2, 3, 4. -/
def iter_state : State :=
  { heap := fun b =>
      if b = 1 then
        some { ptrs := [⟨1, 0⟩, ⟨2, 0⟩], num := 2, max := 2, next := 0, chain := 2 }
      else if b = 2 then
        some { ptrs := [⟨3, 0⟩, ⟨4, 0⟩, ⟨0, 0⟩, ⟨0, 0⟩], num := 2, max := 4, next := 0,
               chain := 0 }
      else none,
    brk := 2, gr_List := 0, destroy_chains_on_clear := 1, trace := [] }

/-- The links of the pool of `iter_state`. -/
def iter_links : List (Nat × genresource) :=
  [(1, { ptrs := [⟨1, 0⟩, ⟨2, 0⟩], num := 2, max := 2, next := 0, chain := 2 }),
   (2, { ptrs := [⟨3, 0⟩, ⟨4, 0⟩, ⟨0, 0⟩, ⟨0, 0⟩], num := 2, max := 4, next := 0,
         chain := 0 })]

/-- The predicate "is even" on integer handles. -/
def is_even (d : Nat) : Int := if d % 2 = 0 then 1 else 0

/-- An oracle in which every function pointer is `is_even`. -/
def even_ext : Oracle := fun _ d _ => is_even d

/-- The number of release function calls of a trace that reported failure
(returned non-zero). -/
def failures (evs : List Event) : Nat := (evs.filter (fun ev => decide (ret_of ev ≠ 0))).length

/-- The state `demo_state` under the alternate policy
(`destroy_chains_on_clear = 0`). -/
def keep_state : State := { demo_state with destroy_chains_on_clear := 0 }

/-- An oracle whose release functions answer 0 (function 7) and 2 (the others). -/
def two_ext : Oracle := fun f _ _ => if f = 7 then 0 else 2

/-- A state with one pool (capacity 4) holding three entries with the release
functions 7, 8 and 7. -/
def three_state : State :=
  { heap := fun b =>
      if b = 1 then
        some { ptrs := [⟨21, 7⟩, ⟨22, 8⟩, ⟨23, 7⟩, ⟨0, 0⟩], num := 3, max := 4, next := 0,
               chain := 0 }
      else none,
    brk := 1, gr_List := 0, destroy_chains_on_clear := 1, trace := [] }

/-- The links of the pool of `three_state`. -/
def three_links : List (Nat × genresource) :=
  [(1, { ptrs := [⟨21, 7⟩, ⟨22, 8⟩, ⟨23, 7⟩, ⟨0, 0⟩], num := 3, max := 4, next := 0,
         chain := 0 })]

/-- A caller acquiring pools one after the other with `gr_get`, each pool being
filled with its entries by `gr_track` right after it is acquired; `script`
gives the capacity and the entries of each pool. -/
def acquire_all (fuel : Nat) : State → List (Nat × List resource_t) → Option State
  | s, [] => some s
  | s, p :: script =>
    match track_all fuel (gr_get s p.1).2 (gr_get s p.1).1 p.2 with
    | none => none
    | some s1 => acquire_all fuel s1 script

/-- The registry list that starts at address `a` consists of the pools whose
chains are `cs`, linked by their `next` fields in this order. -/
def RegList (h : Nat → Option genresource) : Nat → List (List (Nat × genresource)) → Prop
  | a, [] => a = 0
  | _, [] :: _ => False
  | a, (x :: l) :: cs => Chain h a (x :: l) ∧ RegList h x.2.next cs

/-- All the links of a list of chains. -/
def all_links : List (List (Nat × genresource)) → List (Nat × genresource)
  | [] => []
  | c :: cs => c ++ all_links cs

/-- A well-formed registry: `gr_List` leads through the pools with chains `cs`,
no link belongs to two places, and every link lies below the allocation mark. -/
def Registry (s : State) (cs : List (List (Nat × genresource))) : Prop :=
  RegList s.heap s.gr_List cs ∧ (addrs (all_links cs)).Nodup ∧ ∀ x ∈ all_links cs, x.1 ≤ s.brk

/-- The concatenation of the parts of a trace. -/
def flat : List (List Event) → List Event
  | [] => []
  | p :: ps => p ++ flat ps

/-- The part `p` of the trace of `gr_finish` is what destroying the pool with
chain `c` adds: the release actions on its entries, and the frees of the
tables and structures of all its links (the chain links first, last one first,
then the pool itself). -/
def DestroyedBy (c : List (Nat × genresource)) (p : List Event) : Prop :=
  released p = (relL c).map action ∧
    freed_pools p = (addrs c.tail).reverse ++ addrs (c.take 1) ∧
    freed_tables p = (addrs c.tail).reverse ++ addrs (c.take 1)

/-- What no operation does to the heap: the allocation mark never decreases, a
freed address below it is never allocated again, and a pool that stays
allocated keeps its capacity `max` and its registry link `next`. -/
def Stable (s s1 : State) : Prop :=
  s.brk ≤ s1.brk ∧ (∀ a, a ≤ s.brk → s.heap a = none → s1.heap a = none) ∧
    ∀ a g g1, a ≤ s.brk → s.heap a = some g → s1.heap a = some g1 →
      g1.max = g.max ∧ g1.next = g.next

/-- A step that is `Stable` and writes neither `destroy_chains_on_clear` nor
`gr_List`. -/
def Quiet (s s1 : State) : Prop :=
  Stable s s1 ∧ s1.destroy_chains_on_clear = s.destroy_chains_on_clear ∧
    s1.gr_List = s.gr_List

/-- What `gr_stats` prints for the pools with chains `cs`: for each pool the
line of each of its links, in chain order, then the separator line. -/
def report : List (List (Nat × genresource)) → List Event
  | [] => []
  | c :: cs => c.map (fun y => Event.stats y.2.num y.2.max) ++ Event.line :: report cs

/-- The (count, capacity) record of a printed line. -/
def record_of : Event → Option (Nat × Nat)
  | Event.stats n m => some (n, m)
  | _ => none

/-- The (count, capacity) records printed in a trace, in order. -/
def records (evs : List Event) : List (Nat × Nat) := evs.filterMap record_of

/-- A state with two registered pools: the pool at address 2 (1/2, acquired
last) is the head of the registry and the pool at address 1 (2/4) follows it. -/
def stats_state : State :=
  { heap := fun b =>
      if b = 1 then
        some { ptrs := [⟨31, 0⟩, ⟨32, 0⟩, ⟨0, 0⟩, ⟨0, 0⟩], num := 2, max := 4, next := 0,
               chain := 0 }
      else if b = 2 then
        some { ptrs := [⟨33, 0⟩, ⟨0, 0⟩], num := 1, max := 2, next := 1, chain := 0 }
      else none,
    brk := 2, gr_List := 2, destroy_chains_on_clear := 1, trace := [] }

/-- The pools of `stats_state`, in registry order. -/
def stats_pools : List (List (Nat × genresource)) :=
  [[(2, { ptrs := [⟨33, 0⟩, ⟨0, 0⟩], num := 1, max := 2, next := 1, chain := 0 })],
   [(1, { ptrs := [⟨31, 0⟩, ⟨32, 0⟩, ⟨0, 0⟩, ⟨0, 0⟩], num := 2, max := 4, next := 0,
          chain := 0 })]]

/-- The operations of the public interface (gr.h), with their arguments. -/
inductive Op where
  | init (max : Nat)
  | get (max : Nat)
  | track (gr ptr ff : Nat)
  | malloc (gr r : Nat)
  | clear (gr : Nat)
  | destroy (gr : Nat)
  | finish
  | stats (gr : Nat)
  | iter_start (gr f : Nat)
  | iter_next (it : iterator_context)

/-- The state after one operation of the public interface (`none` if the
operation reads freed memory or runs out of fuel). -/
def step (ext : Oracle) (fuel : Nat) (s : State) : Op → Option State
  | Op.init max => some (gr_init s max).2
  | Op.get max => some (gr_get s max).2
  | Op.track gr ptr ff => (gr_track fuel s gr ptr ff).map (fun p => p.2)
  | Op.malloc gr r => (gr_malloc fuel s gr r).map (fun p => p.2)
  | Op.clear gr => (gr_clear ext fuel s gr).map (fun p => p.2)
  | Op.destroy gr => (gr_destroy ext fuel s gr).map (fun p => p.2)
  | Op.finish => (gr_finish ext fuel s).map (fun p => p.2)
  | Op.stats gr => gr_stats fuel s gr
  | Op.iter_start _ _ => some s
  | Op.iter_next it => (gr_iter_next ext fuel s it).map (fun p => p.2.2)

/-- The states reachable from the initial state by operations of the public
interface, with any arguments, any oracle and any fuel. -/
inductive Reachable : State → Prop where
  | start : Reachable init_state
  | next (s s1 : State) (ext : Oracle) (fuel : Nat) (op : Op) :
      Reachable s → step ext fuel s op = some s1 → Reachable s1

/-- An oracle whose functions all return `INT_MAX`. -/
def big_ext : Oracle := fun _ _ _ => 2147483647

/-- An oracle whose release functions all report failure with the value -1. -/
def neg_ext : Oracle := fun _ _ _ => -1

/-- An oracle whose release functions all report failure: function 7 with the
value 1, the others with the value -2. -/
def cancel_ext : Oracle := fun f _ _ => if f = 7 then 1 else -2

/-- Every link that has a chain successor has a successor of twice its
capacity. -/
def Doubling : List (Nat × genresource) → Prop
  | [] => True
  | x :: ls => (∀ y, ls.head? = some y → y.2.max = 2 * x.2.max) ∧ Doubling ls

/-- The predicate `0 ≤ num ≤ max` and `max > 0` on every link, and `Doubling`. -/
def Sound (ls : List (Nat × genresource)) : Prop :=
  (∀ x ∈ ls, x.2.num ≤ x.2.max ∧ 0 < x.2.max) ∧ Doubling ls

/-- The operations that fill and empty one pool. -/
inductive PoolOp where
  | track (ptr ff : Nat)
  | malloc (r : Nat)
  | clear

/-- One operation on the pool `gr`. -/
def pool_step (ext : Oracle) (fuel : Nat) (s : State) (gr : Nat) : PoolOp → Option State
  | PoolOp.track ptr ff => step ext fuel s (Op.track gr ptr ff)
  | PoolOp.malloc r => step ext fuel s (Op.malloc gr r)
  | PoolOp.clear => step ext fuel s (Op.clear gr)

/-- A caller performing the operations `ops` on the pool `gr`, in order. -/
def pool_run (ext : Oracle) (fuel : Nat) : State → Nat → List PoolOp → Option State
  | s, _, [] => some s
  | s, gr, op :: ops =>
    match pool_step ext fuel s gr op with
    | none => none
    | some s1 => pool_run ext fuel s1 gr ops

/-- The events of a predicate `f` inspecting the handles `ds` one after the
other, with the answers `rs`. -/
def test_events (f : Nat) (ds : List Nat) (rs : List Int) : List Event :=
  List.zipWith (fun d r => Event.test f d r) ds rs

/-- A state with one pool at address 1 (capacity 2) that tracks the null
handle and then the handle 5: what `gr_init(2)`, `gr_track(pool, NULL, NULL)`
and `gr_track(pool, 5, NULL)` build. -/
def null_state : State :=
  { heap := fun b =>
      if b = 1 then
        some { ptrs := [⟨0, 0⟩, ⟨5, 0⟩], num := 2, max := 2, next := 0, chain := 0 }
      else none,
    brk := 1, gr_List := 0, destroy_chains_on_clear := 1, trace := [] }

/-- An oracle whose predicates accept every handle. -/
def yes_ext : Oracle := fun _ _ _ => 1

/-- An oracle whose predicates change their answer with every call: they
accept when the number of events so far is odd. -/
def turn_ext : Oracle := fun _ _ tr => (tr.length : Int) % 2

/-! ## Lemmas -/

theorem trackL_length (fresh : Nat) (e : resource_t) :
    ∀ ls : List (Nat × genresource), ls.length ≤ (trackL fresh e ls).length := by
  intro ls
  induction ls with
  | nil => simp [trackL]
  | cons x ls ih =>
    simp only [trackL]
    split
    · split
      · simp_all
      · simp only [List.length_cons]; omega
    · simp

theorem store_heap (s : State) (a : Nat) (v : Option genresource) (b : Nat) :
    (store s a v).heap b = if b = a then v else s.heap b := rfl

theorem chain_frame {h h1 : Nat → Option genresource} :
    ∀ (ls : List (Nat × genresource)) (a : Nat), Chain h a ls →
      (∀ b ∈ addrs ls, h1 b = h b) → Chain h1 a ls := by
  intro ls
  induction ls with
  | nil => intro a hc _; exact hc
  | cons x ls ih =>
    intro a hc hf
    obtain ⟨h1a, h2a, h3a, h4a⟩ := hc
    refine ⟨h1a, h2a, ?_, ih _ h4a (fun b hb => hf b (by simp [addrs] at hb ⊢; exact Or.inr hb))⟩
    rw [hf a (by simp [addrs, h1a])]; exact h3a

theorem chain_functional {h : Nat → Option genresource} :
    ∀ (l1 l2 : List (Nat × genresource)) (a : Nat), Chain h a l1 → Chain h a l2 → l1 = l2 := by
  intro l1
  induction l1 with
  | nil =>
    intro l2 a h1 h2
    cases l2 with
    | nil => rfl
    | cons y l2 => exact absurd h1 h2.2.1
  | cons x l1 ih =>
    intro l2 a h1 h2
    cases l2 with
    | nil => exact absurd h2 h1.2.1
    | cons y l2 =>
      obtain ⟨a1, _, a3, a4⟩ := h1
      obtain ⟨b1, _, b3, b4⟩ := h2
      have hxy : x.2 = y.2 := by rw [a3] at b3; exact Option.some.inj b3
      have hx : x = y := Prod.ext (by rw [← a1, ← b1]) hxy
      subst hx
      rw [ih l2 _ a4 b4]

theorem chain_from_member {h : Nat → Option genresource} :
    ∀ (ls : List (Nat × genresource)) (a : Nat), Chain h a ls → ∀ b ∈ addrs ls,
      ∃ l1, Chain h b l1 ∧ l1.length ≤ ls.length := by
  intro ls
  induction ls with
  | nil => intro a _ b hb; simp [addrs] at hb
  | cons x ls ih =>
    intro a hc b hb
    simp only [addrs, List.map_cons, List.mem_cons] at hb
    rcases hb with hb | hb
    · exact ⟨x :: ls, by rw [hb, ← hc.1]; exact hc, le_refl _⟩
    · obtain ⟨l1, hl1, hlen⟩ := ih _ hc.2.2.2 b hb
      exact ⟨l1, hl1, by simp; omega⟩

theorem chain_head_fresh {h : Nat → Option genresource} {a : Nat} {x : Nat × genresource}
    {ls : List (Nat × genresource)} (hc : Chain h a (x :: ls)) : a ∉ addrs ls := by
  intro hmem
  obtain ⟨l1, hl1, hlen⟩ := chain_from_member ls _ hc.2.2.2 a hmem
  have := chain_functional _ _ a hc hl1
  rw [← this] at hlen
  simp at hlen

theorem chain_nodup {h : Nat → Option genresource} :
    ∀ (ls : List (Nat × genresource)) (a : Nat), Chain h a ls → (addrs ls).Nodup := by
  intro ls
  induction ls with
  | nil => intro a _; simp [addrs]
  | cons x ls ih =>
    intro a hc
    have h1 := chain_head_fresh hc
    have h2 := ih _ hc.2.2.2
    simp only [addrs, List.map_cons, List.nodup_cons]
    rw [← hc.1]
    exact ⟨h1, h2⟩

theorem trackL_put (fresh : Nat) (e : resource_t) (x : Nat × genresource)
    (ls : List (Nat × genresource)) (h : x.2.num ≠ x.2.max) :
    trackL fresh e (x :: ls) = (x.1, put e x.2) :: ls := by
  simp [trackL, h]

theorem trackL_new (fresh : Nat) (e : resource_t) (x : Nat × genresource)
    (h : x.2.num = x.2.max) :
    trackL fresh e [x] =
      [(x.1, { x.2 with chain := fresh }), (fresh, put e (fresh_link (2 * x.2.max)))] := by
  simp [trackL, h]

theorem trackL_next (fresh : Nat) (e : resource_t) (x y : Nat × genresource)
    (ls : List (Nat × genresource)) (h : x.2.num = x.2.max) :
    trackL fresh e (x :: y :: ls) = x :: trackL fresh e (y :: ls) := by
  rw [trackL]; simp [h]

theorem trackL_addrs (fresh : Nat) (e : resource_t) :
    ∀ (ls : List (Nat × genresource)), ls ≠ [] →
      addrs (trackL fresh e ls) = addrs ls ∨ addrs (trackL fresh e ls) = addrs ls ++ [fresh] := by
  intro ls
  induction ls with
  | nil => intro h; exact absurd rfl h
  | cons x ls ih =>
    intro _
    by_cases hfull : x.2.num = x.2.max
    · cases ls with
      | nil => right; rw [trackL_new _ _ _ hfull]; simp [addrs]
      | cons y ls1 =>
        rw [trackL_next _ _ _ _ _ hfull]
        rcases ih (by simp) with h | h
        · left; simp only [addrs, List.map_cons] at h ⊢; rw [h]
        · right; simp only [addrs, List.map_cons] at h ⊢; rw [h]; simp
    · left; rw [trackL_put _ _ _ _ hfull]; simp [addrs]

theorem fresh_link_not_full (max : Nat) : (fresh_link max).num ≠ (fresh_link max).max := by
  simp only [fresh_link]; split <;> omega

theorem gr_track_put (n : Nat) (s : State) (gr ptr ff : Nat) (g : genresource)
    (h : s.heap gr = some g) (hn : g.num ≠ g.max) :
    gr_track (n + 1) s gr ptr ff = some (1, store s gr (some (put ⟨ptr, ff⟩ g))) := by
  simp [gr_track, h, hn, put]

theorem gr_track_next (n : Nat) (s : State) (gr ptr ff : Nat) (g : genresource)
    (h : s.heap gr = some g) (hn : g.num = g.max) (hc : g.chain ≠ 0) :
    gr_track (n + 1) s gr ptr ff = gr_track n s g.chain ptr ff := by
  simp [gr_track, h, hn, hc]

theorem gr_track_new (n : Nat) (s : State) (gr ptr ff : Nat) (g : genresource)
    (h : s.heap gr = some g) (hn : g.num = g.max) (hc : g.chain = 0) (hgr : gr ≠ s.brk + 1) :
    gr_track (n + 1) s gr ptr ff =
      gr_track n (store { store s (s.brk + 1) (some (fresh_link (2 * g.max))) with brk := s.brk + 1 }
        gr (some { g with chain := s.brk + 1 })) (s.brk + 1) ptr ff := by
  rw [gr_track]
  simp only [h]
  rw [if_pos hn]
  simp only [hc, if_true, gr_init, modify, store_heap, hgr, if_false]
  rw [h]
  rfl

theorem gr_track_chain (e : resource_t) :
    ∀ (ls : List (Nat × genresource)) (s : State) (a fuel : Nat),
      Chain s.heap a ls → ls ≠ [] → (∀ x ∈ ls, x.1 ≤ s.brk) → ls.length < fuel →
      ∃ s1, gr_track fuel s a e.data e.ff = some (1, s1) ∧
        Chain s1.heap a (trackL (s.brk + 1) e ls) ∧
        (∀ b, b ∉ addrs (trackL (s.brk + 1) e ls) → s1.heap b = s.heap b) ∧
        s1.brk = s.brk + ((trackL (s.brk + 1) e ls).length - ls.length) ∧
        s1.gr_List = s.gr_List ∧ s1.destroy_chains_on_clear = s.destroy_chains_on_clear ∧
        s1.trace = s.trace := by
  intro ls
  induction ls with
  | nil => intro s a fuel _ h; exact absurd rfl h
  | cons x ls ih =>
    intro s a fuel hc _ hb hf
    obtain ⟨n, rfl⟩ : ∃ n, fuel = n + 1 := ⟨fuel - 1, by simp at hf; omega⟩
    have hfresh := chain_head_fresh hc
    obtain ⟨ha, ha0, hha, htl⟩ := hc
    subst ha
    have hale : x.1 ≤ s.brk := hb x (by simp)
    have hne : x.1 ≠ s.brk + 1 := by omega
    by_cases hfull : x.2.num = x.2.max
    · cases ls with
      | nil =>
        have hch : x.2.chain = 0 := htl
        obtain ⟨m, rfl⟩ : ∃ m, n = m + 1 := ⟨n - 1, by simp at hf; omega⟩
        rw [gr_track_new _ _ _ _ _ _ hha hfull hch hne,
          gr_track_put _ _ _ _ _ (fresh_link (2 * x.2.max)) (by simp [store_heap, Ne.symm hne])
            (fresh_link_not_full _), trackL_new _ _ _ hfull]
        refine ⟨_, rfl, ?_, ?_, ?_, rfl, rfl, rfl⟩
        · simp [Chain, store_heap, hne, Ne.symm hne, ha0, fresh_link, put]
        · intro b hbn
          simp [addrs] at hbn
          simp [store_heap, hbn.1, hbn.2]
        · simp [store]
      | cons y ls1 =>
        have hch : x.2.chain ≠ 0 := htl.1 ▸ htl.2.1
        obtain ⟨s1, h1, h2, h3, h4, h5, h6, h7⟩ :=
          ih s x.2.chain n htl (by simp) (fun z hz => hb z (List.mem_cons_of_mem _ hz))
            (by simp at hf ⊢; omega)
        have hxn : x.1 ∉ addrs (trackL (s.brk + 1) e (y :: ls1)) := by
          intro hmem
          rcases trackL_addrs (s.brk + 1) e (y :: ls1) (by simp) with h | h
          · rw [h] at hmem; exact hfresh hmem
          · rw [h] at hmem
            simp at hmem
            rcases hmem with hmem | hmem
            · exact hfresh hmem
            · omega
        rw [gr_track_next _ _ _ _ _ _ hha hfull hch, trackL_next _ _ _ _ _ hfull]
        refine ⟨s1, h1, ?_, ?_, ?_, h5, h6, h7⟩
        · refine ⟨rfl, ha0, ?_, h2⟩
          rw [h3 _ hxn]; exact hha
        · intro b hbn
          simp only [addrs, List.map_cons, List.mem_cons, not_or] at hbn
          exact h3 b hbn.2
        · rw [h4]
          have := trackL_length (s.brk + 1) e (y :: ls1)
          simp only [List.length_cons] at this ⊢
          omega
    · rw [gr_track_put _ _ _ _ _ _ hha hfull, trackL_put _ _ _ _ hfull]
      refine ⟨_, rfl, ?_, ?_, ?_, rfl, rfl, rfl⟩
      · refine ⟨rfl, ha0, by simp [store_heap], ?_⟩
        refine chain_frame ls _ htl (fun b hbm => ?_)
        have : b ≠ x.1 := fun hbx => hfresh (hbx ▸ hbm)
        simp [store_heap, this]
      · intro b hbn
        simp only [addrs, List.map_cons, List.mem_cons, not_or] at hbn
        simp [store_heap, hbn.1]
      · simp [store]

theorem trackL_ne_nil (fresh : Nat) (e : resource_t) (ls : List (Nat × genresource))
    (h : ls ≠ []) : trackL fresh e ls ≠ [] := by
  intro h0
  have := trackL_length fresh e ls
  rw [h0] at this
  cases ls with
  | nil => exact h rfl
  | cons x l => simp at this

theorem trackL_bound (e : resource_t) (b : Nat) (ls : List (Nat × genresource)) (h : ls ≠ [])
    (hb : ∀ x ∈ ls, x.1 ≤ b) :
    ∀ x ∈ trackL (b + 1) e ls, x.1 ≤ b + ((trackL (b + 1) e ls).length - ls.length) := by
  intro x hx
  have hx1 : x.1 ∈ addrs (trackL (b + 1) e ls) := List.mem_map_of_mem _ hx
  have hlen : (addrs (trackL (b + 1) e ls)).length = (trackL (b + 1) e ls).length := by
    simp [addrs]
  have hall : ∀ y ∈ addrs ls, y ≤ b := by
    intro y hy
    simp only [addrs, List.mem_map] at hy
    obtain ⟨z, hz, rfl⟩ := hy
    exact hb z hz
  rcases trackL_addrs (b + 1) e ls h with h1 | h1
  · rw [h1] at hx1
    have := hall _ hx1
    omega
  · rw [h1] at hx1 hlen
    simp [addrs] at hlen
    simp only [List.mem_append, List.mem_singleton] at hx1
    rcases hx1 with h2 | h2
    · have := hall _ h2; omega
    · omega

/-- Tracking a list of entries one by one keeps any property of the list of
links that each single `trackL` step keeps. -/
theorem track_all_chain (I : List (Nat × genresource) → List resource_t → Prop)
    (hstep : ∀ fresh e ls done, ls ≠ [] → I ls done → I (trackL fresh e ls) (done ++ [e])) :
    ∀ (items : List resource_t) (s : State) (a : Nat) (ls : List (Nat × genresource))
      (done : List resource_t) (fuel : Nat),
      Chain s.heap a ls → ls ≠ [] → (∀ x ∈ ls, x.1 ≤ s.brk) → I ls done →
      ls.length + items.length < fuel →
      ∃ s1 ls1, track_all fuel s a items = some s1 ∧ Chain s1.heap a ls1 ∧ ls1 ≠ [] ∧
        (∀ x ∈ ls1, x.1 ≤ s1.brk) ∧ I ls1 (done ++ items) ∧
        ls1.length ≤ ls.length + items.length ∧
        s.brk ≤ s1.brk ∧ (∀ b, b ≤ s.brk → b ∉ addrs ls → s1.heap b = s.heap b) ∧
        (∀ b, s1.brk < b → s1.heap b = s.heap b) ∧
        s1.gr_List = s.gr_List ∧ s1.destroy_chains_on_clear = s.destroy_chains_on_clear ∧
        s1.trace = s.trace ∧ (∀ b ∈ addrs ls1, b ∈ addrs ls ∨ s.brk < b) := by
  intro items
  induction items with
  | nil =>
    intro s a ls done fuel hc hne hb hI _
    exact ⟨s, ls, rfl, hc, hne, hb, by simpa using hI, by simp, le_refl _, fun _ _ _ => rfl,
      fun _ _ => rfl, rfl, rfl, rfl, fun _ hb => Or.inl hb⟩
  | cons e items ih =>
    intro s a ls done fuel hc hne hb hI hf
    obtain ⟨s1, h1, h2, h3, h4, h5, h6, h7⟩ :=
      gr_track_chain e ls s a fuel hc hne hb (by simp at hf; omega)
    have hlen := trackL_length (s.brk + 1) e ls
    have hbnd := trackL_bound e s.brk ls hne hb
    have hlen1 : (trackL (s.brk + 1) e ls).length ≤ ls.length + 1 := by
      have e1 : (addrs (trackL (s.brk + 1) e ls)).length = (trackL (s.brk + 1) e ls).length := by
        simp [addrs]
      have e2 : (addrs ls).length = ls.length := by simp [addrs]
      rcases trackL_addrs (s.brk + 1) e ls hne with h | h
      · rw [h] at e1; omega
      · rw [h] at e1; simp at e1; omega
    obtain ⟨s2, ls2, g1, g2, g3, g4, g5, g6, g7, g8, g9, g10, g11, g12, g13⟩ :=
      ih s1 a (trackL (s.brk + 1) e ls) (done ++ [e]) fuel h2 (trackL_ne_nil _ _ _ hne)
        (by rw [h4]; exact hbnd) (hstep _ _ _ _ hne hI) (by simp at hf ⊢; omega)
    have hsub : ∀ b, b ≤ s.brk → b ∉ addrs ls → b ∉ addrs (trackL (s.brk + 1) e ls) := by
      intro b hb1 hb2 hmem
      rcases trackL_addrs (s.brk + 1) e ls hne with h | h
      · rw [h] at hmem; exact hb2 hmem
      · rw [h] at hmem
        simp only [List.mem_append, List.mem_singleton] at hmem
        rcases hmem with h | h
        · exact hb2 h
        · omega
    refine ⟨s2, ls2, ?_, g2, g3, g4, by simpa using g5, by simp at g6 ⊢; omega, by omega,
      ?_, ?_, by rw [g10, h5], by rw [g11, h6], by rw [g12, h7], ?_⟩
    · simp [track_all, h1, g1]
    · intro b hb1 hb2
      rw [g8 b (by omega) (hsub b hb1 hb2), h3 b (hsub b hb1 hb2)]
    · intro b hb1
      rw [g9 b hb1]
      apply h3
      intro hmem
      have : b ≤ s1.brk := by
        simp only [addrs, List.mem_map] at hmem
        obtain ⟨z, hz, rfl⟩ := hmem
        rw [h4]; exact hbnd z hz
      omega
    · intro b hb1
      rcases g13 b hb1 with h | h
      · rcases trackL_addrs (s.brk + 1) e ls hne with h8 | h8
        · rw [h8] at h; exact Or.inl h
        · rw [h8] at h
          simp only [List.mem_append, List.mem_singleton] at h
          rcases h with h | h
          · exact Or.inl h
          · exact Or.inr (by omega)
      · exact Or.inr (by omega)

theorem take_set_succ {α : Type} (e : α) :
    ∀ (l : List α) (n : Nat), n < l.length → (l.set n e).take (n + 1) = l.take n ++ [e] := by
  intro l
  induction l with
  | nil => intro n h; simp at h
  | cons x l ih =>
    intro n h
    cases n with
    | zero => simp
    | succ n => simp at h; simp [ih n h]

theorem used_put (e : resource_t) (g : genresource) (h : g.num < g.ptrs.length) :
    used (put e g) = used g ++ [e] := by
  simp only [used, put]
  exact take_set_succ e _ _ h

theorem used_put_fresh (e : resource_t) (max : Nat) : used (put e (fresh_link max)) = [e] := by
  have h : (fresh_link max).num < (fresh_link max).ptrs.length := by
    simp only [fresh_link, List.length_replicate]; split <;> omega
  rw [used_put e _ h]
  simp [used, fresh_link]

theorem linkOk_put (e : resource_t) (g : genresource) (h : LinkOk g) (hn : g.num ≠ g.max) :
    LinkOk (put e g) := by
  obtain ⟨h1, h2⟩ := h
  refine ⟨?_, ?_⟩
  · simp only [put]; omega
  · simp only [put, List.length_set]; exact h2

theorem linkOk_fresh (max : Nat) : LinkOk (fresh_link max) := by
  simp [LinkOk, fresh_link]

theorem entries_empty : ∀ ls : List (Nat × genresource), (∀ y ∈ ls, y.2.num = 0) →
    entries ls = [] := by
  intro ls
  induction ls with
  | nil => intro _; rfl
  | cons x ls ih =>
    intro h
    simp only [entries]
    rw [ih (fun y hy => h y (List.mem_cons_of_mem _ hy))]
    simp [used, h x (List.mem_cons_self _ _)]

theorem packed_of_empty : ∀ ls : List (Nat × genresource), (∀ y ∈ ls, y.2.num = 0) →
    Packed ls := by
  intro ls
  induction ls with
  | nil => intro _; trivial
  | cons x ls ih =>
    intro h
    exact ⟨Or.inr (fun y hy => h y (List.mem_cons_of_mem _ hy)),
      ih (fun y hy => h y (List.mem_cons_of_mem _ hy))⟩

/-- On a well-formed packed chain `trackL` appends the entry to the entries and
keeps the chain well-formed and packed. -/
theorem trackL_entries (fresh : Nat) (e : resource_t) :
    ∀ ls : List (Nat × genresource), ls ≠ [] → (∀ x ∈ ls, LinkOk x.2) → Packed ls →
      entries (trackL fresh e ls) = entries ls ++ [e] ∧
      (∀ x ∈ trackL fresh e ls, LinkOk x.2) ∧ Packed (trackL fresh e ls) := by
  intro ls
  induction ls with
  | nil => intro h; exact absurd rfl h
  | cons x ls ih =>
    intro _ hok hp
    have hx : LinkOk x.2 := hok x (List.mem_cons_self _ _)
    by_cases hfull : x.2.num = x.2.max
    · cases ls with
      | nil =>
        rw [trackL_new _ _ _ hfull]
        refine ⟨?_, ?_, ?_⟩
        · simp only [entries, used_put_fresh]
          simp [used]
        · intro y hy
          simp only [List.mem_cons, List.mem_singleton, List.not_mem_nil, or_false] at hy
          rcases hy with rfl | rfl
          · exact hx
          · exact linkOk_put _ _ (linkOk_fresh _) (fresh_link_not_full _)
        · exact ⟨Or.inl hfull, Or.inr (by simp), trivial⟩
      | cons y ls1 =>
        rw [trackL_next _ _ _ _ _ hfull]
        obtain ⟨h1, h2, h3⟩ := ih (by simp) (fun z hz => hok z (List.mem_cons_of_mem _ hz)) hp.2
        refine ⟨?_, ?_, ?_⟩
        · simp only [entries] at h1 ⊢
          rw [h1]; simp
        · intro z hz
          simp only [List.mem_cons] at hz
          rcases hz with rfl | hz
          · exact hx
          · exact h2 z hz
        · exact ⟨Or.inl hfull, h3⟩
    · rw [trackL_put _ _ _ _ hfull]
      have hemp : ∀ y ∈ ls, y.2.num = 0 := by
        rcases hp.1 with h | h
        · exact absurd h hfull
        · exact h
      have hlt : x.2.num < x.2.ptrs.length := by
        obtain ⟨h1, h2⟩ := hx; omega
      refine ⟨?_, ?_, ?_⟩
      · simp only [entries]
        rw [used_put e _ hlt, entries_empty ls hemp]
        simp
      · intro z hz
        simp only [List.mem_cons] at hz
        rcases hz with rfl | hz
        · exact linkOk_put _ _ hx hfull
        · exact hok z (List.mem_cons_of_mem _ hz)
      · exact ⟨Or.inr hemp, hp.2⟩

theorem sum_rets_append (a b : List Event) : sum_rets (a ++ b) = sum_rets a + sum_rets b := by
  simp [sum_rets]

theorem wrap_int_idem (x : Int) : wrap_int (wrap_int x) = wrap_int x := by
  unfold wrap_int; omega

theorem wrap_int_add_left (a b : Int) : wrap_int (wrap_int a + b) = wrap_int (a + b) := by
  unfold wrap_int; omega

theorem wrap_int_add_right (a b : Int) : wrap_int (a + wrap_int b) = wrap_int (a + b) := by
  unfold wrap_int; omega

theorem wrap_int_of_range (x : Int) (h1 : -2147483648 ≤ x) (h2 : x < 2147483648) :
    wrap_int x = x := by
  unfold wrap_int; omega

theorem wrap_int_range (x : Int) : -2147483648 ≤ wrap_int x ∧ wrap_int x < 2147483648 := by
  unfold wrap_int; omega

theorem wrap_int_zero : wrap_int 0 = 0 := by decide

theorem wrap_int_acc (a x y : Int) :
    wrap_int (wrap_int (a + wrap_int x) + y) = wrap_int (a + (x + y)) := by
  unfold wrap_int; omega

theorem wrap_int_sum (xs : List Int) :
    wrap_int ((xs.map wrap_int).sum) = wrap_int xs.sum := by
  induction xs with
  | nil => rfl
  | cons x xs ih =>
    simp only [List.map_cons, List.sum_cons]
    rw [← wrap_int_add_right, ih, wrap_int_add_right]
    unfold wrap_int; omega

theorem released_append (a b : List Event) : released (a ++ b) = released a ++ released b := by
  simp [released]

theorem freed_pools_append (a b : List Event) :
    freed_pools (a ++ b) = freed_pools a ++ freed_pools b := by
  simp [freed_pools]

theorem freed_tables_append (a b : List Event) :
    freed_tables (a ++ b) = freed_tables a ++ freed_tables b := by
  simp [freed_tables]

theorem answers_append (ext : Oracle) :
    ∀ (a b tr : List Event),
      Answers ext tr (a ++ b) ↔ Answers ext tr a ∧ Answers ext (tr ++ a) b := by
  intro a
  induction a with
  | nil => intro b tr; simp [Answers]
  | cons ev a ih =>
    intro b tr
    constructor
    · intro h
      have h1 : Answers ext tr (ev :: (a ++ b)) := h
      have h2 := (ih b (tr ++ [ev])).mp h1.2
      exact ⟨⟨h1.1, h2.1⟩, by simpa using h2.2⟩
    · intro h
      have h1 : Answers ext tr (ev :: a) := h.1
      exact ⟨h1.1, (ih b (tr ++ [ev])).mpr ⟨h1.2, by simpa using h.2⟩⟩

theorem clear_loop_beyond (ext : Oracle) :
    ∀ (k i : Nat) (ptrs : List resource_t) (ret : Int) (tr : List Event),
      ptrs.length ≤ i → clear_loop ext k i ptrs ret tr = (ptrs, ret, tr) := by
  intro k
  induction k with
  | zero => intro i ptrs ret tr _; rfl
  | succ k ih =>
    intro i ptrs ret tr h
    have hd : ptrs.getD i ⟨0, 0⟩ = ⟨0, 0⟩ := by
      rw [List.getD_eq_getElem?_getD, List.getElem?_eq_none h]; rfl
    simp only [clear_loop, hd, ne_eq, not_true, if_false]
    exact ih (i + 1) ptrs ret tr (by omega)

theorem getD_append_len {α : Type} :
    ∀ (pre : List α) (e : α) (rest : List α) (d : α), (pre ++ e :: rest).getD pre.length d = e := by
  intro pre
  induction pre with
  | nil => intro e rest d; rfl
  | cons x pre ih => intro e rest d; exact ih e rest d

theorem set_append_len {α : Type} :
    ∀ (pre : List α) (e : α) (rest : List α) (v : α),
      (pre ++ e :: rest).set pre.length v = (pre ++ [v]) ++ rest := by
  intro pre
  induction pre with
  | nil => intro e rest v; rfl
  | cons x pre ih => intro e rest v; simp [ih e rest v]

theorem wipe_nil (k : Nat) : wipe k [] = [] := by
  cases k <;> rfl

/-- What the `for` loop of `gr_clear` computes. -/
theorem clear_loop_spec (ext : Oracle) :
    ∀ (k : Nat) (pre rest : List resource_t) (ret : Int) (tr : List Event),
      wrap_int ret = ret →
      ∃ evs, clear_loop ext k pre.length (pre ++ rest) ret tr =
          (pre ++ wipe k rest, wrap_int (ret + sum_rets evs), tr ++ evs) ∧
        released evs = ((rest.take k).filter (fun e => e.data ≠ 0)).map action ∧
        freed_pools evs = [] ∧ freed_tables evs = [] ∧ Answers ext tr evs := by
  intro k
  induction k with
  | zero =>
    intro pre rest ret tr hret
    exact ⟨[], by simp [clear_loop, wipe, sum_rets, hret], rfl, rfl, rfl, trivial⟩
  | succ k ih =>
    intro pre rest ret tr hret
    cases rest with
    | nil =>
      refine ⟨[], ?_, by simp [released], rfl, rfl, trivial⟩
      rw [clear_loop_beyond ext _ _ _ _ _ (by simp)]
      simp [wipe_nil, sum_rets, hret]
    | cons e rest =>
      have hd : (pre ++ e :: rest).getD pre.length ⟨0, 0⟩ = e := getD_append_len pre e rest _
      have hset : ∀ v : resource_t, (pre ++ e :: rest).set pre.length v = (pre ++ [v]) ++ rest :=
        fun v => set_append_len pre e rest v
      have hlen : ∀ v : resource_t, pre.length + 1 = (pre ++ [v]).length := by intro v; simp
      by_cases hdata : e.data = 0
      · obtain ⟨evs, h1, h2, h3, h4, h5⟩ := ih (pre ++ [e]) rest ret tr hret
        refine ⟨evs, ?_, ?_, h3, h4, h5⟩
        · simp only [clear_loop, hd, hdata, ne_eq, not_true, if_false]
          have he : e = { e with data := 0 } := by cases e; simp_all
          rw [hlen e]
          have : pre ++ e :: rest = (pre ++ [e]) ++ rest := by simp
          rw [this, h1]
          simp only [wipe, List.append_assoc, List.singleton_append]
          rw [← he]
        · rw [h2]; simp [List.take, hdata]
      · by_cases hff : e.ff = 0
        · obtain ⟨evs, h1, h2, h3, h4, h5⟩ :=
            ih (pre ++ [{ e with data := 0 }]) rest ret (tr ++ [Event.free_data e.data]) hret
          refine ⟨Event.free_data e.data :: evs, ?_, ?_, ?_, ?_, ⟨(by intro f d r h; cases h), h5⟩⟩
          · rw [clear_loop]
            simp only [hd]
            rw [if_pos hdata, if_neg (not_not.mpr hff), hset, hlen { e with data := 0 }, h1]
            simp [wipe, sum_rets, ret_of]
          · simp only [released, List.filterMap_cons, release_of] at h2 ⊢
            rw [h2]
            simp [List.take, hdata, action, hff]
          · simpa [freed_pools, freed_of] using h3
          · simpa [freed_tables, freed_table_of] using h4
        · obtain ⟨evs, h1, h2, h3, h4, h5⟩ :=
            ih (pre ++ [{ e with data := 0 }]) rest (wrap_int (ret + ext e.ff e.data tr))
              (tr ++ [Event.call e.ff e.data (ext e.ff e.data tr)]) (wrap_int_idem _)
          refine ⟨Event.call e.ff e.data (ext e.ff e.data tr) :: evs, ?_, ?_, ?_, ?_,
            ⟨by intro f d r h; cases h; exact ⟨hff, hdata, rfl⟩, h5⟩⟩
          · rw [clear_loop]
            simp only [hd]
            rw [if_pos hdata, if_pos hff, hset, hlen { e with data := 0 }, h1]
            have hsum : sum_rets (Event.call e.ff e.data (ext e.ff e.data tr) :: evs) =
                ext e.ff e.data tr + sum_rets evs := by simp [sum_rets, ret_of]
            rw [hsum, wrap_int_add_left, add_assoc]
            simp [wipe]
          · simp only [released, List.filterMap_cons, release_of] at h2 ⊢
            rw [h2]
            simp [List.take, hdata, action, hff]
          · simpa [freed_pools, freed_of] using h3
          · simpa [freed_tables, freed_table_of] using h4

theorem gr_clear_last (ext : Oracle) (n : Nat) (s : State) (gr : Nat) (g : genresource)
    (h : s.heap gr = some g) (hc : g.chain = 0) :
    gr_clear ext (n + 1) s gr = clear_own ext gr 0 s := by
  rw [gr_clear]
  simp only [h, hc, ne_eq, not_true, if_false, clear_own]

theorem gr_clear_destroying (ext : Oracle) (n : Nat) (s s1 : State) (gr : Nat) (g : genresource)
    (r : Int) (h : s.heap gr = some g) (hc : g.chain ≠ 0) (hflag : s.destroy_chains_on_clear ≠ 0)
    (hd : gr_destroy ext n s g.chain = some (r, s1)) :
    gr_clear ext (n + 1) s gr =
      clear_own ext gr (wrap_int (0 + r)) (modify s1 gr (fun c => { c with chain := 0 })) := by
  rw [gr_clear]
  simp only [h, hc, hflag, ne_eq, not_false_eq_true, if_true, hd, clear_own]

theorem gr_clear_clearing (ext : Oracle) (n : Nat) (s s1 : State) (gr : Nat) (g : genresource)
    (r : Int) (h : s.heap gr = some g) (hc : g.chain ≠ 0) (hflag : s.destroy_chains_on_clear = 0)
    (hd : gr_clear ext n s g.chain = some (r, s1)) :
    gr_clear ext (n + 1) s gr = clear_own ext gr (wrap_int (0 + r)) s1 := by
  rw [gr_clear]
  simp only [h, hc, hflag, ne_eq, not_false_eq_true, not_true, if_true, if_false, hd, clear_own]

theorem gr_destroy_null (ext : Oracle) (n : Nat) (s : State) :
    gr_destroy ext (n + 1) s 0 = some (0, s) := by
  simp [gr_destroy]

theorem gr_destroy_step (ext : Oracle) (n : Nat) (s s1 : State) (gr : Nat) (g : genresource)
    (r : Int) (hgr : gr ≠ 0) (hc : gr_clear ext n s gr = some (r, s1)) (h : s1.heap gr = some g) :
    gr_destroy ext (n + 1) s gr =
      some (r, { store s1 gr none with
                 trace := s1.trace ++ [Event.free_ptrs gr, Event.free_gr gr] }) := by
  rw [gr_destroy]
  simp only [hgr, if_false, hc, h]

theorem clear_own_spec (ext : Oracle) (gr : Nat) (ret0 : Int) (s1 : State) (g1 : genresource)
    (h : s1.heap gr = some g1) (hret : wrap_int ret0 = ret0) :
    ∃ evs, clear_own ext gr ret0 s1 =
        some (wrap_int (ret0 + sum_rets evs),
          { store s1 gr (some (cleared g1)) with trace := s1.trace ++ evs }) ∧
      released evs = (live g1).map action ∧ freed_pools evs = [] ∧ freed_tables evs = [] ∧
      Answers ext s1.trace evs := by
  obtain ⟨evs, h1, h2, h3, h4, h5⟩ := clear_loop_spec ext g1.num [] g1.ptrs ret0 s1.trace hret
  refine ⟨evs, ?_, h2, h3, h4, h5⟩
  simp only [List.length_nil, List.nil_append] at h1
  simp only [clear_own, h, h1, cleared]

theorem addrs_clearL_tail (ls : List (Nat × genresource)) :
    addrs (ls.map (fun y => (y.1, cleared y.2))) = addrs ls := by
  simp [addrs, Function.comp]

/-- What `gr_clear` does on a pool with a finite chain: it returns, for enough
fuel, and describes the trace it adds and the heap it leaves. -/
theorem gr_clear_chain (ext : Oracle) :
    ∀ (ls : List (Nat × genresource)) (x : Nat × genresource) (s : State) (a fuel : Nat),
      Chain s.heap a (x :: ls) → 2 * (ls.length + 1) ≤ fuel →
      ∃ r s1 evs, gr_clear ext fuel s a = some (r, s1) ∧
        s1.trace = s.trace ++ evs ∧ r = wrap_int (sum_rets evs) ∧
        released evs = (relL (x :: ls)).map action ∧
        freed_pools evs = (if s.destroy_chains_on_clear ≠ 0 then (addrs ls).reverse else []) ∧
        freed_tables evs = (if s.destroy_chains_on_clear ≠ 0 then (addrs ls).reverse else []) ∧
        Chain s1.heap a (clearL s.destroy_chains_on_clear (x :: ls)) ∧
        (∀ b ∈ addrs ls, s.destroy_chains_on_clear ≠ 0 → s1.heap b = none) ∧
        (∀ b, b ∉ addrs (x :: ls) → s1.heap b = s.heap b) ∧
        s1.brk = s.brk ∧ s1.gr_List = s.gr_List ∧
        s1.destroy_chains_on_clear = s.destroy_chains_on_clear ∧ Answers ext s.trace evs := by
  intro ls
  induction ls with
  | nil =>
    intro x s a fuel hc hf
    obtain ⟨n, rfl⟩ : ∃ n, fuel = n + 1 := ⟨fuel - 1, by simp at hf; omega⟩
    obtain ⟨ha, ha0, hha, htl⟩ := hc
    subst ha
    have hch : x.2.chain = 0 := htl
    obtain ⟨evs, e1, e2, e3, e4, e5⟩ := clear_own_spec ext x.1 0 s x.2 hha wrap_int_zero
    rw [gr_clear_last ext n s x.1 x.2 hha hch, e1]
    refine ⟨_, _, evs, rfl, rfl, by simp, by simpa [relL] using e2, by simpa [addrs] using e3,
      by simpa [addrs] using e4, ?_, by simp [addrs], ?_, rfl, rfl, rfl, e5⟩
    · have hcl : ({ cleared x.2 with chain := 0 } : genresource) = cleared x.2 := by
        simp [cleared, hch]
      simp only [clearL, List.take, List.map, hcl, ite_self]
      exact ⟨rfl, ha0, by simp [store_heap], by simp [Chain, cleared, hch]⟩
    · intro b hb
      simp only [addrs, List.map_cons, List.map_nil, List.mem_singleton] at hb
      simp [store_heap, hb]
  | cons y ls ih =>
    intro x s a fuel hc hf
    obtain ⟨n, rfl⟩ : ∃ n, fuel = n + 1 := ⟨fuel - 1, by simp at hf; omega⟩
    have hfresh := chain_head_fresh hc
    obtain ⟨ha, ha0, hha, htl⟩ := hc
    subst ha
    have hy : x.2.chain = y.1 := htl.1
    have hch : x.2.chain ≠ 0 := htl.2.1
    have hxy : x.1 ≠ y.1 := fun e => hfresh (by simp [addrs, e])
    by_cases hflag : s.destroy_chains_on_clear = 0
    · obtain ⟨r0, s0, evs0, c1, c2, c3, c4, c5, c5t, c6, c7, c8, c9, c10, c11, c12⟩ :=
        ih y s x.2.chain n htl (by simp at hf ⊢; omega)
      have hxa : s0.heap x.1 = some x.2 := by
        rw [c8 x.1 hfresh]; exact hha
      obtain ⟨evs, e1, e2, e3, e4, e5⟩ :=
        clear_own_spec ext x.1 (wrap_int (0 + r0)) s0 x.2 hxa (wrap_int_idem _)
      rw [gr_clear_clearing ext n s s0 x.1 x.2 r0 hha hch hflag c1, e1]
      refine ⟨_, _, evs0 ++ evs, rfl, by simp [c2],
        by rw [sum_rets_append, c3, wrap_int_add_left, zero_add, wrap_int_add_left], ?_, ?_, ?_, ?_,
        ?_, ?_, c9, c10, c11, (answers_append ext _ _ _).mpr ⟨c12, by rw [← c2]; exact e5⟩⟩
      · rw [released_append, c4, e2]; simp [relL]
      · rw [freed_pools_append, c5, e3]; simp [hflag]
      · rw [freed_tables_append, c5t, e4]; simp [hflag]
      · simp only [hflag, clearL, ne_eq, not_true, if_false, List.map_cons] at c6 ⊢
        refine ⟨rfl, ha0, by simp [store_heap], ?_⟩
        refine chain_frame _ _ c6 (fun b hb => ?_)
        have hb1 : b ∈ addrs (y :: ls) := by
          rw [← addrs_clearL_tail (y :: ls)]; simpa using hb
        have : b ≠ x.1 := fun e => hfresh (e ▸ hb1)
        simp [store_heap, this]
      · intro b _ h0; exact absurd hflag h0
      · intro b hb
        simp only [addrs, List.map_cons, List.mem_cons, not_or] at hb
        have hb2 : b ∉ addrs (y :: ls) := by
          simp only [addrs, List.map_cons, List.mem_cons, not_or]; exact hb.2
        simp only [store_heap, hb.1, if_false]
        exact c8 b hb2
    · obtain ⟨m, rfl⟩ : ∃ m, n = m + 1 := ⟨n - 1, by simp at hf; omega⟩
      obtain ⟨r0, s0, evs0, c1, c2, c3, c4, c5, c5t, c6, c7, c8, c9, c10, c11, c12⟩ :=
        ih y s x.2.chain m htl (by simp at hf ⊢; omega)
      have hy0 : ∃ g, s0.heap x.2.chain = some g := by
        simp only [clearL, hflag, ne_eq, not_false_eq_true, if_true, List.take, List.map] at c6
        exact ⟨_, c6.2.2.1⟩
      obtain ⟨gy, hgy⟩ := hy0
      have hd := gr_destroy_step ext m s s0 x.2.chain gy r0 hch c1 hgy
      have hxa : (modify { store s0 x.2.chain none with
            trace := s0.trace ++ [Event.free_ptrs x.2.chain, Event.free_gr x.2.chain] } x.1
            (fun c => { c with chain := 0 })).heap x.1 = some { x.2 with chain := 0 } := by
        have : s0.heap x.1 = some x.2 := by
          rw [c8 x.1 hfresh]; exact hha
        simp [modify, store_heap, store, hy, hxy, this]
      obtain ⟨evs, e1, e2, e3, e4, e5⟩ :=
        clear_own_spec ext x.1 (wrap_int (0 + r0)) _ _ hxa (wrap_int_idem _)
      rw [gr_clear_destroying ext (m + 1) s _ x.1 x.2 r0 hha hch hflag hd, e1]
      refine ⟨_, _, evs0 ++ [Event.free_ptrs x.2.chain, Event.free_gr x.2.chain] ++ evs, rfl,
        by simp [c2, modify, store], ?_, ?_, ?_, ?_, ?_, ?_, ?_, c9, c10, c11, ?_⟩
      · rw [sum_rets_append, sum_rets_append, c3, wrap_int_add_left, zero_add, wrap_int_add_left]
        simp [sum_rets, ret_of]
      · rw [released_append, released_append, c4, e2]
        simp [released, release_of, relL, live, used, cleared]
      · rw [freed_pools_append, freed_pools_append, c5, e3]
        simp [hflag, freed_pools, freed_of, addrs, hy, c11 ▸ hflag]
      · rw [freed_tables_append, freed_tables_append, c5t, e4]
        simp [hflag, freed_tables, freed_table_of, addrs, hy, c11 ▸ hflag]
      · simp only [hflag, clearL, ne_eq, not_false_eq_true, if_true, List.take, List.map]
        refine ⟨rfl, ha0, by simp [store_heap, cleared], by simp [Chain, cleared]⟩
      · intro b hb _
        simp only [addrs, List.map_cons, List.mem_cons] at hb
        have hbx : b ≠ x.1 := by
          intro e; apply hfresh; rw [← e]
          simpa only [addrs, List.map_cons, List.mem_cons] using hb
        rcases hb with hb | hb
        · subst hb
          simp [store_heap, modify, store, hxy.symm, hy]
        · have := c7 b hb hflag
          simp [store_heap, modify, store, hbx, this]
      · intro b hb
        simp only [addrs, List.map_cons, List.mem_cons, not_or] at hb
        have hb2 : b ∉ addrs (y :: ls) := by
          simp only [addrs, List.map_cons, List.mem_cons, not_or]; exact hb.2
        have := c8 b hb2
        simp [store_heap, modify, store, hb.1, hb.2.1, hy, this]
      · refine (answers_append ext _ _ _).mpr ⟨(answers_append ext _ _ _).mpr ⟨c12, ?_⟩, ?_⟩
        · exact ⟨(by intro f d r h; cases h), (by intro f d r h; cases h), trivial⟩
        · have : s.trace ++ (evs0 ++ [Event.free_ptrs x.2.chain, Event.free_gr x.2.chain]) =
              s0.trace ++ [Event.free_ptrs x.2.chain, Event.free_gr x.2.chain] := by
            rw [c2]; simp
          rw [this]; exact e5

theorem wipe_length : ∀ (k : Nat) (l : List resource_t), (wipe k l).length = l.length := by
  intro k
  induction k with
  | zero => intro l; rfl
  | succ k ih =>
    intro l
    cases l with
    | nil => rfl
    | cons e l => simp [wipe, ih l]

theorem linkOk_cleared (g : genresource) (h : LinkOk g) : LinkOk (cleared g) := by
  obtain ⟨_, h2⟩ := h
  exact ⟨Nat.zero_le _, by simp [cleared, wipe_length, h2]⟩

theorem clearL_empty (flag : Int) (ls : List (Nat × genresource)) :
    ∀ y ∈ clearL flag ls, y.2.num = 0 := by
  intro y hy
  simp only [clearL] at hy
  split at hy
  · simp only [List.mem_map] at hy
    obtain ⟨z, _, rfl⟩ := hy
    rfl
  · simp only [List.mem_map] at hy
    obtain ⟨z, _, rfl⟩ := hy
    rfl

theorem clearL_ok (flag : Int) (ls : List (Nat × genresource)) (b : Nat)
    (h : ∀ x ∈ ls, x.1 ≤ b ∧ LinkOk x.2) : ∀ x ∈ clearL flag ls, x.1 ≤ b ∧ LinkOk x.2 := by
  intro y hy
  simp only [clearL] at hy
  split at hy
  · simp only [List.mem_map] at hy
    obtain ⟨z, hz, rfl⟩ := hy
    have := h z (List.mem_of_mem_take hz)
    exact ⟨this.1, (linkOk_cleared _ this.2).1, (linkOk_cleared _ this.2).2⟩
  · simp only [List.mem_map] at hy
    obtain ⟨z, hz, rfl⟩ := hy
    have := h z hz
    exact ⟨this.1, linkOk_cleared _ this.2⟩

theorem clearL_ne_nil (flag : Int) (ls : List (Nat × genresource)) (h : ls ≠ []) :
    clearL flag ls ≠ [] := by
  cases ls with
  | nil => exact absurd rfl h
  | cons x ls => simp only [clearL]; split <;> simp

theorem clearL_length (flag : Int) (ls : List (Nat × genresource)) :
    (clearL flag ls).length ≤ ls.length := by
  simp only [clearL]; split <;> simp [List.length_take]

/-- A pool that has just been created by `gr_init`. -/
theorem gr_init_pool (s : State) (C : Nat) :
    Pool (gr_init s C).2 (gr_init s C).1 [((gr_init s C).1, fresh_link C)] := by
  refine ⟨⟨rfl, by simp [gr_init], by simp [gr_init, store_heap, fresh_link], rfl⟩, by simp, ?_⟩
  intro x hx
  simp only [List.mem_singleton] at hx
  subst hx
  exact ⟨by simp [gr_init], linkOk_fresh C⟩

/-- Tracking into a well-formed pool none of whose links holds an entry. -/
theorem track_all_from_empty (items : List resource_t) (s : State) (a : Nat)
    (ls : List (Nat × genresource)) (fuel : Nat) (hp : Pool s a ls)
    (hemp : ∀ y ∈ ls, y.2.num = 0) (hf : ls.length + items.length < fuel) :
    ∃ s1 ls1, track_all fuel s a items = some s1 ∧ Pool s1 a ls1 ∧ Packed ls1 ∧
      entries ls1 = items := by
  obtain ⟨s1, ls1, h1, h2, h3, h4, h5, _⟩ :=
    track_all_chain
      (fun l done => (∀ x ∈ l, LinkOk x.2) ∧ Packed l ∧ entries l = done)
      (fun fresh e l done hne hI => by
        obtain ⟨i1, i2, i3⟩ := hI
        obtain ⟨t1, t2, t3⟩ := trackL_entries fresh e l hne i1 i2
        exact ⟨t2, t3, by rw [t1, i3]⟩)
      items s a ls [] fuel hp.1 hp.2.1 (fun x hx => (hp.2.2 x hx).1)
      ⟨fun x hx => (hp.2.2 x hx).2, packed_of_empty ls hemp, entries_empty ls hemp⟩ hf
  exact ⟨s1, ls1, h1, ⟨h2, h3, fun x hx => ⟨h4 x hx, h5.1 x hx⟩⟩, h5.2.1, by simpa using h5.2.2⟩

/-- C1: `K` calls of `gr_track` on a pool that `gr_init(C)` has just created, or
that `gr_clear` has just cleared (under either clear-chain policy), all return,
and afterwards the used slots of the links of the pool, concatenated in chain
order, are exactly the tracked (handle, release function) pairs in insertion
order. -/
theorem gr_track_keeps_every_entry (items : List resource_t) :
    (∀ (s : State) (C fuel : Nat), items.length + 1 < fuel →
      ∃ s1 ls, track_all fuel (gr_init s C).2 (gr_init s C).1 items = some s1 ∧
        Chain s1.heap (gr_init s C).1 ls ∧ entries ls = items) ∧
    (∀ (ext : Oracle) (s : State) (gr : Nat) (ls : List (Nat × genresource)) (n fuel : Nat),
      Pool s gr ls → 2 * ls.length ≤ n → ls.length + items.length < fuel →
      ∃ r s0, gr_clear ext n s gr = some (r, s0) ∧
        ∃ s1 ls1, track_all fuel s0 gr items = some s1 ∧
          Chain s1.heap gr ls1 ∧ entries ls1 = items) := by
  constructor
  · intro s C fuel hf
    obtain ⟨s1, ls1, h1, h2, _, h4⟩ :=
      track_all_from_empty items _ _ _ fuel (gr_init_pool s C)
        (by intro y hy; simp only [List.mem_singleton] at hy; subst hy; rfl)
        (by simpa [Nat.add_comm] using hf)
    exact ⟨s1, ls1, h1, h2.1, h4⟩
  · intro ext s gr ls n fuel hp hn hf
    obtain ⟨hc, hne, hok⟩ := hp
    cases ls with
    | nil => exact absurd rfl hne
    | cons x l =>
      obtain ⟨r, s0, evs, c1, _, _, _, _, _, c6, _, _, c9, _, _⟩ :=
        gr_clear_chain ext l x s gr n hc (by simpa using hn)
      have hlen := clearL_length s.destroy_chains_on_clear (x :: l)
      obtain ⟨s1, ls1, h1, h2, _, h4⟩ :=
        track_all_from_empty items s0 gr (clearL s.destroy_chains_on_clear (x :: l)) fuel
          ⟨c6, clearL_ne_nil _ _ (by simp), by rw [c9]; exact clearL_ok _ _ _ hok⟩
          (clearL_empty _ _) (by omega)
      exact ⟨r, s0, c1, s1, ls1, h1, h2.1, h4⟩

theorem demo_pool : Pool demo_state 1 demo_links := by
  refine ⟨⟨rfl, by decide, rfl, rfl, by decide, rfl, rfl⟩, by simp [demo_links], ?_⟩
  intro x hx
  simp only [demo_links, List.mem_cons, List.mem_singleton, List.not_mem_nil, or_false] at hx
  rcases hx with rfl | rfl
  · exact ⟨by decide, by decide, rfl⟩
  · exact ⟨by decide, by decide, rfl⟩

theorem shape_single (c k : Nat) (x : Nat × genresource) :
    Shape c k [x] ↔ x.2.max = c ∧ x.2.num = k ∧ k ≤ c := by
  simp [Shape]

theorem shape_cons (c k : Nat) (x : Nat × genresource) (ls : List (Nat × genresource))
    (h : ls ≠ []) :
    Shape c k (x :: ls) ↔ x.2.max = c ∧ x.2.num = c ∧ c < k ∧ Shape (2 * c) (k - c) ls := by
  cases ls with
  | nil => exact absurd rfl h
  | cons y l => simp [Shape]

theorem trackL_shape (fresh : Nat) (e : resource_t) :
    ∀ (ls : List (Nat × genresource)) (c k : Nat), 1 ≤ c → Shape c k ls →
      Shape c (k + 1) (trackL fresh e ls) := by
  intro ls
  induction ls with
  | nil => intro c k _ h; exact h.elim
  | cons x ls ih =>
    intro c k hc h
    cases ls with
    | nil =>
      rw [shape_single] at h
      obtain ⟨h1, h2, h3⟩ := h
      by_cases hfull : x.2.num = x.2.max
      · rw [trackL_new _ _ _ hfull, shape_cons _ _ _ _ (by simp), shape_single]
        have hk : k = c := by omega
        have h2c : ¬ (2 * x.2.max = 0) := by omega
        refine ⟨h1, by simp only; omega, by omega, ?_, ?_, ?_⟩
        · simp only [put, fresh_link, h2c, if_false]; omega
        · simp only [put, fresh_link]; omega
        · omega
      · rw [trackL_put _ _ _ _ hfull, shape_single]
        exact ⟨h1, by simp only [put]; omega, by omega⟩
    | cons y l =>
      rw [shape_cons _ _ _ _ (by simp)] at h
      obtain ⟨h1, h2, h3, h4⟩ := h
      have hfull : x.2.num = x.2.max := by omega
      rw [trackL_next _ _ _ _ _ hfull, shape_cons _ _ _ _ (trackL_ne_nil _ _ _ (by simp))]
      refine ⟨h1, h2, by omega, ?_⟩
      have := ih (2 * c) (k - c) (by omega) h4
      have e1 : k + 1 - c = k - c + 1 := by omega
      rw [e1]; exact this

theorem pow_pred_succ (c i : Nat) : c * (2 ^ (i + 1) - 1) = c + 2 * c * (2 ^ i - 1) := by
  obtain ⟨t, ht⟩ : ∃ t, 2 ^ i = t + 1 := ⟨2 ^ i - 1, by have := Nat.one_le_two_pow (n := i); omega⟩
  rw [pow_succ, ht]
  have : (t + 1) * 2 - 1 = 2 * t + 1 := by omega
  rw [this]
  simp only [Nat.add_sub_cancel]
  ring

/-- The counts and capacities a `Shape` describes, link by link. -/
theorem shape_links :
    ∀ (ls : List (Nat × genresource)) (c k : Nat), Shape c k ls →
      1 ≤ ls.length ∧ k ≤ c * (2 ^ ls.length - 1) ∧
      (2 ≤ ls.length → c * (2 ^ (ls.length - 1) - 1) < k) ∧
      ∀ (i : Nat) (x : Nat × genresource), ls[i]? = some x →
        x.2.max = c * 2 ^ i ∧ (i + 1 < ls.length → x.2.num = x.2.max) ∧
        (i + 1 = ls.length → x.2.num = k - c * (2 ^ i - 1)) := by
  intro ls
  induction ls with
  | nil => intro c k h; exact h.elim
  | cons x ls ih =>
    intro c k h
    cases ls with
    | nil =>
      rw [shape_single] at h
      obtain ⟨h1, h2, h3⟩ := h
      refine ⟨by simp, by simpa using h3, by simp, ?_⟩
      intro i z hz
      cases i with
      | zero =>
        simp only [List.getElem?_cons_zero, Option.some.injEq] at hz
        subst hz
        simp [h1, h2]
      | succ i => simp at hz
    | cons y l =>
      rw [shape_cons _ _ _ _ (by simp)] at h
      obtain ⟨h1, h2, h3, h4⟩ := h
      obtain ⟨g1, g2, g3, g4⟩ := ih (2 * c) (k - c) h4
      have hp := pow_pred_succ c (y :: l).length
      have hlen : (x :: y :: l).length = (y :: l).length + 1 := rfl
      refine ⟨by simp, ?_, ?_, ?_⟩
      · rw [hlen, hp]; omega
      · intro _
        rw [hlen, Nat.add_sub_cancel]
        by_cases h2l : 2 ≤ (y :: l).length
        · have := g3 h2l
          obtain ⟨t, ht⟩ : ∃ t, (y :: l).length = t + 1 := ⟨(y :: l).length - 1, by omega⟩
          rw [ht, Nat.add_sub_cancel] at this
          rw [ht, pow_pred_succ]
          omega
        · have h1l : (y :: l).length = 1 := by omega
          rw [h1l]; simp; omega
      · intro i z hz
        cases i with
        | zero =>
          simp only [List.getElem?_cons_zero, Option.some.injEq] at hz
          subst hz
          refine ⟨by simp [h1], fun _ => by omega, fun hl => by simp at hl⟩
        | succ i =>
          simp only [List.getElem?_cons_succ] at hz
          obtain ⟨f1, f2, f3⟩ := g4 i z hz
          refine ⟨by rw [f1, pow_succ]; ring, fun hl => f2 (by simpa using hl), fun hl => ?_⟩
          rw [f3 (by simpa using hl), pow_pred_succ]
          omega

/-- C1 at concrete inputs: three entries into `gr_init(2)` from the initial
state, and three entries into the pool of `demo_state` after it has been
cleared. -/
theorem gr_track_keeps_every_entry_witness :
    (∃ s1 ls, track_all 5 (gr_init init_state 2).2 (gr_init init_state 2).1
        [⟨1, 0⟩, ⟨2, 0⟩, ⟨3, 7⟩] = some s1 ∧
      Chain s1.heap (gr_init init_state 2).1 ls ∧ entries ls = [⟨1, 0⟩, ⟨2, 0⟩, ⟨3, 7⟩]) ∧
    (∃ r s0, gr_clear demo_ext 4 demo_state 1 = some (r, s0) ∧
      ∃ s1 ls1, track_all 6 s0 1 [⟨1, 0⟩, ⟨2, 0⟩, ⟨3, 7⟩] = some s1 ∧
        Chain s1.heap 1 ls1 ∧ entries ls1 = [⟨1, 0⟩, ⟨2, 0⟩, ⟨3, 7⟩]) :=
  ⟨(gr_track_keeps_every_entry [⟨1, 0⟩, ⟨2, 0⟩, ⟨3, 7⟩]).1 init_state 2 5 (by decide),
   (gr_track_keeps_every_entry [⟨1, 0⟩, ⟨2, 0⟩, ⟨3, 7⟩]).2 demo_ext demo_state 1 demo_links 4 6
     demo_pool (by decide) (by decide)⟩

/-- C2: for a capacity `C ≥ 1`, `K` calls of `gr_track` on `gr_init(C)` all
return and leave a chain of exactly `m` links, `m` being the least `m ≥ 1` with
`C * (2^m - 1) ≥ K`; link `i` has capacity `C * 2^i`, every link but the last is
full and the last one holds `K - C * (2^(m-1) - 1)` entries. -/
theorem gr_track_chain_shape (s : State) (C : Nat) (items : List resource_t) (fuel : Nat)
    (hC : 1 ≤ C) (hf : items.length + 1 < fuel) :
    ∃ s1 ls, track_all fuel (gr_init s C).2 (gr_init s C).1 items = some s1 ∧
      Chain s1.heap (gr_init s C).1 ls ∧
      1 ≤ ls.length ∧ items.length ≤ C * (2 ^ ls.length - 1) ∧
      (∀ j, 1 ≤ j → items.length ≤ C * (2 ^ j - 1) → ls.length ≤ j) ∧
      ∀ (i : Nat) (x : Nat × genresource), ls[i]? = some x →
        x.2.max = C * 2 ^ i ∧ (i + 1 < ls.length → x.2.num = x.2.max) ∧
        (i + 1 = ls.length → x.2.num = items.length - C * (2 ^ i - 1)) := by
  have hp := gr_init_pool s C
  have h0 : Shape C 0 [((gr_init s C).1, fresh_link C)] := by
    rw [shape_single]
    have : ¬ (C = 0) := by omega
    simp [fresh_link, this]
  obtain ⟨s1, ls1, h1, h2, _, _, h5, _⟩ :=
    track_all_chain (fun l done => Shape C done.length l)
      (fun fresh e l done _ hI => by
        simpa using trackL_shape fresh e l C done.length hC hI)
      items _ _ _ [] fuel hp.1 hp.2.1 (fun x hx => (hp.2.2 x hx).1) h0
      (by simpa [Nat.add_comm] using hf)
  simp only [List.nil_append] at h5
  obtain ⟨g1, g2, g3, g4⟩ := shape_links ls1 C items.length h5
  refine ⟨s1, ls1, h1, h2, g1, g2, ?_, g4⟩
  intro j hj hle
  by_contra hlt
  have hj2 : j + 1 ≤ ls1.length := by omega
  have hlow := g3 (by omega)
  have hmono : C * (2 ^ j - 1) ≤ C * (2 ^ (ls1.length - 1) - 1) := by
    apply Nat.mul_le_mul_left
    have : 2 ^ j ≤ 2 ^ (ls1.length - 1) := Nat.pow_le_pow_right (by decide) (by omega)
    omega
  omega

/-- C2 at the concrete input `C = 2`, `K = 5`: the primary pool is 2/2 and the
single chain link is 3/4. -/
theorem gr_track_chain_shape_witness :
    (∃ s1 ls, track_all 7 (gr_init init_state 2).2 (gr_init init_state 2).1
        [⟨1, 0⟩, ⟨2, 0⟩, ⟨3, 0⟩, ⟨4, 0⟩, ⟨5, 0⟩] = some s1 ∧
      Chain s1.heap (gr_init init_state 2).1 ls ∧
      1 ≤ ls.length ∧ 5 ≤ 2 * (2 ^ ls.length - 1) ∧
      (∀ j, 1 ≤ j → 5 ≤ 2 * (2 ^ j - 1) → ls.length ≤ j) ∧
      ∀ (i : Nat) (x : Nat × genresource), ls[i]? = some x →
        x.2.max = 2 * 2 ^ i ∧ (i + 1 < ls.length → x.2.num = x.2.max) ∧
        (i + 1 = ls.length → x.2.num = 5 - 2 * (2 ^ i - 1))) ∧
    (track_all 7 (gr_init init_state 2).2 (gr_init init_state 2).1
        [⟨1, 0⟩, ⟨2, 0⟩, ⟨3, 0⟩, ⟨4, 0⟩, ⟨5, 0⟩]).map
      (fun s1 => ((s1.heap 1).map (fun g => (g.num, g.max, g.chain)),
                  (s1.heap 2).map (fun g => (g.num, g.max, g.chain)))) =
      some (some (2, 2, 2), some (3, 4, 0)) :=
  ⟨gr_track_chain_shape init_state 2 [⟨1, 0⟩, ⟨2, 0⟩, ⟨3, 0⟩, ⟨4, 0⟩, ⟨5, 0⟩] 7
    (by decide) (by decide), by decide⟩

theorem drop_take_getD {α : Type} (d : α) :
    ∀ (l : List α) (n cur : Nat), cur < n → n ≤ l.length →
      (l.take n).drop cur = l.getD cur d :: (l.take n).drop (cur + 1) := by
  intro l
  induction l with
  | nil => intro n cur h1 h2; simp at h2; omega
  | cons x l ih =>
    intro n cur h1 h2
    obtain ⟨m, rfl⟩ : ∃ m, n = m + 1 := ⟨n - 1, by omega⟩
    cases cur with
    | zero => simp
    | succ c =>
      simp only [List.take_succ_cons, List.drop_succ_cons, List.getD_cons_succ]
      exact ih m c (by omega) (by simpa using h2)

theorem rest_handles_step (x : Nat × genresource) (l : List (Nat × genresource)) (cur : Nat)
    (hok : LinkOk x.2) (hlt : cur < x.2.num) :
    rest_handles cur (x :: l) =
      (x.2.ptrs.getD cur ⟨0, 0⟩).data :: rest_handles (cur + 1) (x :: l) := by
  simp only [rest_handles, used]
  rw [drop_take_getD ⟨0, 0⟩ x.2.ptrs x.2.num cur hlt (by rw [hok.2]; exact hok.1)]
  simp

theorem rest_handles_end (x : Nat × genresource) (l : List (Nat × genresource)) (cur : Nat)
    (hge : x.2.num ≤ cur) : rest_handles cur (x :: l) = rest_handles 0 l := by
  have h1 : (used x.2).drop cur = [] := by
    apply List.drop_eq_nil_of_le
    simp only [used, List.length_take]; omega
  cases l with
  | nil => simp [rest_handles, h1, entries]
  | cons y l1 => simp [rest_handles, h1, entries]

theorem iter_next_null (ext : Oracle) (n : Nat) (s : State) (cur f : Nat) :
    gr_iter_next ext (n + 1) s ⟨0, cur, f⟩ = some (0, none, s) := by
  simp [gr_iter_next]

theorem iter_next_all (ext : Oracle) (n : Nat) (s : State) (gr cur : Nat) (g : genresource)
    (hgr : gr ≠ 0) (h : s.heap gr = some g) (hlt : cur < g.num) :
    gr_iter_next ext (n + 1) s ⟨gr, cur, 0⟩ =
      some ((g.ptrs.getD cur ⟨0, 0⟩).data, some ⟨gr, cur + 1, 0⟩, s) := by
  rw [gr_iter_next]
  simp only [hgr, if_false, h, hlt, if_true, ne_eq, not_true]

theorem iter_next_hit (ext : Oracle) (n : Nat) (s : State) (gr cur f : Nat) (g : genresource)
    (hgr : gr ≠ 0) (h : s.heap gr = some g) (hlt : cur < g.num) (hf : f ≠ 0)
    (hr : ext f (g.ptrs.getD cur ⟨0, 0⟩).data s.trace ≠ 0) :
    gr_iter_next ext (n + 1) s ⟨gr, cur, f⟩ =
      some ((g.ptrs.getD cur ⟨0, 0⟩).data, some ⟨gr, cur + 1, f⟩,
        { s with trace := s.trace ++ [Event.test f (g.ptrs.getD cur ⟨0, 0⟩).data
            (ext f (g.ptrs.getD cur ⟨0, 0⟩).data s.trace)] }) := by
  rw [gr_iter_next]
  simp only [hgr, if_false, h, hlt, if_true, ne_eq, hf, not_false_eq_true, hr]

theorem iter_next_skip (ext : Oracle) (n : Nat) (s : State) (gr cur f : Nat) (g : genresource)
    (hgr : gr ≠ 0) (h : s.heap gr = some g) (hlt : cur < g.num) (hf : f ≠ 0)
    (hr : ext f (g.ptrs.getD cur ⟨0, 0⟩).data s.trace = 0) :
    gr_iter_next ext (n + 1) s ⟨gr, cur, f⟩ =
      gr_iter_next ext n
        { s with trace := s.trace ++ [Event.test f (g.ptrs.getD cur ⟨0, 0⟩).data
            (ext f (g.ptrs.getD cur ⟨0, 0⟩).data s.trace)] } ⟨gr, cur + 1, f⟩ := by
  rw [gr_iter_next]
  simp only [hgr, if_false, h, hlt, if_true, ne_eq, hf, not_false_eq_true, hr, not_true]

theorem iter_next_chain (ext : Oracle) (n : Nat) (s : State) (gr cur f : Nat) (g : genresource)
    (hgr : gr ≠ 0) (h : s.heap gr = some g) (hlt : ¬ cur < g.num) :
    gr_iter_next ext (n + 1) s ⟨gr, cur, f⟩ = gr_iter_next ext n s ⟨g.chain, 0, f⟩ := by
  rw [gr_iter_next]
  simp only [hgr, if_false, h, hlt]

/-- One call of `gr_iter_next` under a pure predicate: either no handle that is
left passes the predicate and the call frees the iterator and returns `NULL`,
or it returns the first handle that passes and leaves the iterator behind it. -/
theorem gr_iter_next_spec (ext : Oracle) (f : Nat) (P : Nat → Int)
    (hpure : f ≠ 0 → ∀ d tr, ext f d tr = P d) :
    ∀ (fuel : Nat) (ls : List (Nat × genresource)) (gr cur : Nat) (s : State),
      IterAt s.heap gr cur ls →
      (rest_handles cur ls).length + ls.length + 1 ≤ fuel →
      ∃ s1, s1.heap = s.heap ∧
        (((rest_handles cur ls).filter (fun d => decide (f = 0 ∨ P d ≠ 0)) = [] ∧
            gr_iter_next ext fuel s ⟨gr, cur, f⟩ = some (0, none, s1)) ∨
          ∃ d gr1 cur1 ls1,
            gr_iter_next ext fuel s ⟨gr, cur, f⟩ = some (d, some ⟨gr1, cur1, f⟩, s1) ∧
            (rest_handles cur ls).filter (fun d => decide (f = 0 ∨ P d ≠ 0)) =
              d :: (rest_handles cur1 ls1).filter (fun d => decide (f = 0 ∨ P d ≠ 0)) ∧
            IterAt s.heap gr1 cur1 ls1 ∧
            (∀ d1 ∈ rest_handles cur1 ls1, d1 ∈ rest_handles cur ls) ∧
            (rest_handles cur1 ls1).length + ls1.length <
              (rest_handles cur ls).length + ls.length) := by
  intro fuel
  induction fuel with
  | zero => intro ls gr cur s _ h; omega
  | succ n ih =>
    intro ls gr cur s hat hf
    obtain ⟨hc, hok, hcur⟩ := hat
    cases ls with
    | nil =>
      have hgr : gr = 0 := hc
      subst hgr
      exact ⟨s, rfl, Or.inl ⟨rfl, iter_next_null ext n s cur f⟩⟩
    | cons x l =>
      obtain ⟨ha, ha0, hha, htl⟩ := hc
      subst ha
      have hx : LinkOk x.2 := hok x (List.mem_cons_self _ _)
      have hcx : cur ≤ x.2.num := hcur x rfl
      by_cases hlt : cur < x.2.num
      · have hstep := rest_handles_step x l cur hx hlt
        have hnext : IterAt s.heap x.1 (cur + 1) (x :: l) :=
          ⟨⟨rfl, ha0, hha, htl⟩, hok, fun y hy => by
            simp only [List.head?_cons, Option.some.injEq] at hy; subst hy; omega⟩
        generalize hd : (x.2.ptrs.getD cur ⟨0, 0⟩).data = d at hstep
        by_cases hf0 : f = 0
        · subst hf0
          refine ⟨s, rfl, Or.inr ⟨d, x.1, cur + 1, x :: l, ?_, ?_, hnext, ?_, ?_⟩⟩
          · rw [iter_next_all ext n s x.1 cur x.2 ha0 hha hlt, hd]
          · rw [hstep]; simp
          · intro d1 hd1; rw [hstep]; exact List.mem_cons_of_mem _ hd1
          · rw [hstep]; simp
        · by_cases hP : P d = 0
          · have hr : ext f (x.2.ptrs.getD cur ⟨0, 0⟩).data s.trace = 0 := by
              rw [hpure hf0, hd]; exact hP
            obtain ⟨s1, h1, h2⟩ := ih (x :: l) x.1 (cur + 1)
              { s with trace := s.trace ++ [Event.test f (x.2.ptrs.getD cur ⟨0, 0⟩).data
                  (ext f (x.2.ptrs.getD cur ⟨0, 0⟩).data s.trace)] } hnext
              (by rw [hstep] at hf; simp at hf ⊢; omega)
            have hrun := iter_next_skip ext n s x.1 cur f x.2 ha0 hha hlt hf0 hr
            have hfil : (rest_handles cur (x :: l)).filter (fun d => decide (f = 0 ∨ P d ≠ 0)) =
                (rest_handles (cur + 1) (x :: l)).filter (fun d => decide (f = 0 ∨ P d ≠ 0)) := by
              rw [hstep]; simp [hf0, hP]
            refine ⟨s1, h1, ?_⟩
            rcases h2 with ⟨g1, g2⟩ | ⟨d2, gr1, cur1, ls1, g1, g2, g3, g4, g5⟩
            · exact Or.inl ⟨by rw [hfil]; exact g1, by rw [hrun]; exact g2⟩
            · refine Or.inr ⟨d2, gr1, cur1, ls1, by rw [hrun]; exact g1, by rw [hfil]; exact g2,
                g3, ?_, ?_⟩
              · intro d1 hd1; rw [hstep]; exact List.mem_cons_of_mem _ (g4 d1 hd1)
              · rw [hstep]; simp only [List.length_cons] at g5 ⊢; omega
          · have hr : ext f (x.2.ptrs.getD cur ⟨0, 0⟩).data s.trace ≠ 0 := by
              rw [hpure hf0, hd]; exact hP
            refine ⟨{ s with trace := s.trace ++ [Event.test f (x.2.ptrs.getD cur ⟨0, 0⟩).data
                  (ext f (x.2.ptrs.getD cur ⟨0, 0⟩).data s.trace)] }, rfl,
              Or.inr ⟨d, x.1, cur + 1, x :: l, ?_, ?_, hnext, ?_, ?_⟩⟩
            · rw [iter_next_hit ext n s x.1 cur f x.2 ha0 hha hlt hf0 hr, hd]
            · rw [hstep]; simp [hf0, hP]
            · intro d1 hd1; rw [hstep]; exact List.mem_cons_of_mem _ hd1
            · rw [hstep]; simp
      · have hend := rest_handles_end x l cur (by omega)
        have hat1 : IterAt s.heap x.2.chain 0 l :=
          ⟨htl, fun y hy => hok y (List.mem_cons_of_mem _ hy), fun _ _ => Nat.zero_le _⟩
        obtain ⟨s1, h1, h2⟩ := ih l x.2.chain 0 s hat1
          (by rw [hend] at hf; simp at hf ⊢; omega)
        have hrun := iter_next_chain ext n s x.1 cur f x.2 ha0 hha hlt
        refine ⟨s1, h1, ?_⟩
        rcases h2 with ⟨g1, g2⟩ | ⟨d, gr1, cur1, ls1, g1, g2, g3, g4, g5⟩
        · exact Or.inl ⟨by rw [hend]; exact g1, by rw [hrun]; exact g2⟩
        · refine Or.inr ⟨d, gr1, cur1, ls1, by rw [hrun]; exact g1, by rw [hend]; exact g2,
            g3, ?_, ?_⟩
          · intro d1 hd1; rw [hend]; exact g4 d1 hd1
          · rw [hend]; simp only [List.length_cons] at g5 ⊢; omega

/-- The loop over `gr_iter_next` under a pure predicate and non-null handles:
it collects the handles that pass and ends with the iterator freed. -/
theorem iter_drain_spec (ext : Oracle) (f : Nat) (P : Nat → Int)
    (hpure : f ≠ 0 → ∀ d tr, ext f d tr = P d) (n : Nat) :
    ∀ (fuel : Nat) (ls : List (Nat × genresource)) (gr cur : Nat) (s : State),
      IterAt s.heap gr cur ls → (∀ d ∈ rest_handles cur ls, d ≠ 0) →
      (rest_handles cur ls).length + ls.length + 1 ≤ n →
      ((rest_handles cur ls).filter (fun d => decide (f = 0 ∨ P d ≠ 0))).length + 1 ≤ fuel →
      ∃ s1, s1.heap = s.heap ∧
        iter_drain ext n fuel s ⟨gr, cur, f⟩ =
          some ((rest_handles cur ls).filter (fun d => decide (f = 0 ∨ P d ≠ 0)), none, s1) := by
  intro fuel
  induction fuel with
  | zero => intro ls gr cur s _ _ _ h; omega
  | succ k ih =>
    intro ls gr cur s hat hnn hn hk
    obtain ⟨s1, h1, h2⟩ := gr_iter_next_spec ext f P hpure n ls gr cur s hat hn
    rcases h2 with ⟨g1, g2⟩ | ⟨d, gr1, cur1, ls1, g1, g2, g3, g4, g5⟩
    · refine ⟨s1, h1, ?_⟩
      rw [iter_drain, g2, g1]
      simp
    · have hd0 : d ≠ 0 := by
        apply hnn
        have : d ∈ (rest_handles cur ls).filter (fun d => decide (f = 0 ∨ P d ≠ 0)) := by
          rw [g2]; exact List.mem_cons_self _ _
        exact (List.mem_filter.mp this).1
      obtain ⟨s2, e1, e2⟩ := ih ls1 gr1 cur1 s1 (by rw [h1]; exact g3)
        (fun d1 hd1 => hnn d1 (g4 d1 hd1)) (by omega)
        (by rw [g2] at hk; simp only [List.length_cons] at hk; omega)
      refine ⟨s2, by rw [e1, h1], ?_⟩
      rw [iter_drain, g1]
      simp only [hd0, ne_eq, not_false_eq_true, if_true, e2, g2]

theorem rest_handles_zero (ls : List (Nat × genresource)) :
    rest_handles 0 ls = (entries ls).map (fun e => e.data) := by
  cases ls with
  | nil => rfl
  | cons x l => simp [rest_handles, entries]

theorem iter_pool : Pool iter_state 1 iter_links := by
  refine ⟨⟨rfl, by decide, rfl, rfl, by decide, rfl, rfl⟩, by simp [iter_links], ?_⟩
  intro x hx
  simp only [iter_links, List.mem_cons, List.mem_singleton, List.not_mem_nil, or_false] at hx
  rcases hx with rfl | rfl
  · exact ⟨by decide, by decide, rfl⟩
  · exact ⟨by decide, by decide, rfl⟩

/-- C3: on a well-formed pool whose tracked handles are all non-null, the calls
of `gr_iter_next` on the iterator of `gr_iter_start(pool, P)` for a pure
predicate `P` return exactly the handles for which `P` holds, in insertion order
across the chain, each once, and then free the iterator and return `NULL`;
with a `NULL` predicate every handle is returned. -/
theorem gr_iter_yields_matching (ext : Oracle) (s : State) (gr : Nat)
    (ls : List (Nat × genresource)) (f : Nat) (P : Nat → Int) (n fuel : Nat)
    (hp : Pool s gr ls) (hnn : ∀ e ∈ entries ls, e.data ≠ 0)
    (hpure : ∀ d tr, ext f d tr = P d)
    (hn : (entries ls).length + ls.length + 1 ≤ n) (hfuel : (entries ls).length + 1 ≤ fuel) :
    (f ≠ 0 → ∃ s1, s1.heap = s.heap ∧
      iter_drain ext n fuel s (gr_iter_start gr f) =
        some (((entries ls).map (fun e => e.data)).filter (fun d => decide (P d ≠ 0)),
          none, s1)) ∧
    (∃ s1, s1.heap = s.heap ∧
      iter_drain ext n fuel s (gr_iter_start gr 0) =
        some ((entries ls).map (fun e => e.data), none, s1)) := by
  have hat : IterAt s.heap gr 0 ls :=
    ⟨hp.1, fun x hx => (hp.2.2 x hx).2, fun _ _ => Nat.zero_le _⟩
  have hnn1 : ∀ d ∈ rest_handles 0 ls, d ≠ 0 := by
    intro d hd
    rw [rest_handles_zero, List.mem_map] at hd
    obtain ⟨e, he, rfl⟩ := hd
    exact hnn e he
  have hlen : (rest_handles 0 ls).length = (entries ls).length := by
    rw [rest_handles_zero]; simp
  constructor
  · intro hf
    obtain ⟨s1, h1, h2⟩ := iter_drain_spec ext f P (fun _ => hpure) n fuel ls gr 0 s hat hnn1
      (by omega) (by
        have := List.length_filter_le (fun d => decide (f = 0 ∨ P d ≠ 0)) (rest_handles 0 ls)
        omega)
    refine ⟨s1, h1, ?_⟩
    simp only [hf, false_or, rest_handles_zero] at h2
    exact h2
  · obtain ⟨s1, h1, h2⟩ := iter_drain_spec ext 0 P (fun h => absurd rfl h) n fuel ls gr 0 s hat
      hnn1 (by omega) (by
        have := List.length_filter_le (fun d => decide (0 = 0 ∨ P d ≠ 0)) (rest_handles 0 ls)
        omega)
    refine ⟨s1, h1, ?_⟩
    simp only [true_or, decide_True, List.filter_true, rest_handles_zero] at h2
    exact h2

/-- C3 at the concrete input of the spec: the handles 1, 2, 3, 4 (two in the
pool, two in its chain link) with the predicate "is even" yield 2, 4 and then
the sentinel. -/
theorem gr_iter_yields_matching_witness :
    ((1 ≠ 0 → ∃ s1, s1.heap = iter_state.heap ∧
      iter_drain even_ext 7 5 iter_state (gr_iter_start 1 1) =
        some (((entries iter_links).map (fun e => e.data)).filter
          (fun d => decide (is_even d ≠ 0)), none, s1)) ∧
    (∃ s1, s1.heap = iter_state.heap ∧
      iter_drain even_ext 7 5 iter_state (gr_iter_start 1 0) =
        some ((entries iter_links).map (fun e => e.data), none, s1))) ∧
    (iter_drain even_ext 7 5 iter_state (gr_iter_start 1 1)).map (fun r => (r.1, r.2.1)) =
      some ([2, 4], none) :=
  ⟨gr_iter_yields_matching even_ext iter_state 1 iter_links 1 is_even 7 5 iter_pool
    (by decide) (fun _ _ => rfl) (by decide) (by decide), by decide⟩

/-- What `gr_destroy` does on a pool with a finite chain. -/
theorem gr_destroy_chain (ext : Oracle) (ls : List (Nat × genresource)) (x : Nat × genresource)
    (s : State) (a fuel : Nat) (hc : Chain s.heap a (x :: ls))
    (hf : 2 * (ls.length + 1) + 1 ≤ fuel) :
    ∃ r s1 evs, gr_destroy ext fuel s a = some (r, s1) ∧
      s1.trace = s.trace ++ evs ∧ r = wrap_int (sum_rets evs) ∧
      released evs = (relL (x :: ls)).map action ∧
      freed_pools evs =
        (if s.destroy_chains_on_clear ≠ 0 then (addrs ls).reverse else []) ++ [a] ∧
      freed_tables evs =
        (if s.destroy_chains_on_clear ≠ 0 then (addrs ls).reverse else []) ++ [a] ∧
      s1.heap a = none ∧
      (∀ b ∈ addrs ls, s.destroy_chains_on_clear ≠ 0 → s1.heap b = none) ∧
      (s.destroy_chains_on_clear = 0 →
        Chain s1.heap x.2.chain (ls.map (fun y => (y.1, cleared y.2)))) ∧
      (∀ b, b ∉ addrs (x :: ls) → s1.heap b = s.heap b) ∧
      s1.brk = s.brk ∧ s1.gr_List = s.gr_List ∧
      s1.destroy_chains_on_clear = s.destroy_chains_on_clear ∧ Answers ext s.trace evs := by
  obtain ⟨n, rfl⟩ : ∃ n, fuel = n + 1 := ⟨fuel - 1, by omega⟩
  have hfresh := chain_head_fresh hc
  obtain ⟨r0, s0, evs0, c1, c2, c3, c4, c5, c5t, c6, c7, c8, c9, c10, c11, c12⟩ :=
    gr_clear_chain ext ls x s a n hc (by omega)
  have ha : a = x.1 := hc.1
  have ha0 : a ≠ 0 := hc.2.1
  have hcell : ∃ g, s0.heap a = some g := by
    simp only [clearL] at c6
    split at c6
    · exact ⟨_, c6.2.2.1⟩
    · exact ⟨_, c6.2.2.1⟩
  obtain ⟨g, hg⟩ := hcell
  rw [gr_destroy_step ext n s s0 a g r0 ha0 c1 hg]
  refine ⟨_, _, evs0 ++ [Event.free_ptrs a, Event.free_gr a], rfl, by simp [c2, store], ?_, ?_,
    ?_, ?_, by simp [store_heap], ?_, ?_, ?_, c9, c10, c11, ?_⟩
  · rw [sum_rets_append, c3]; simp [sum_rets, ret_of]
  · rw [released_append, c4]; simp [released, release_of]
  · rw [freed_pools_append, c5]; simp [freed_pools, freed_of]
  · rw [freed_tables_append, c5t]; simp [freed_tables, freed_table_of]
  · intro b hb hflag
    have hne : b ≠ a := fun e => hfresh (e ▸ hb)
    simp [store_heap, hne, c7 b hb hflag]
  · intro hflag
    simp only [hflag, clearL, ne_eq, not_true, if_false, List.map_cons] at c6
    refine chain_frame _ _ c6.2.2.2 (fun b hb => ?_)
    rw [addrs_clearL_tail] at hb
    have hne : b ≠ a := fun e => hfresh (e ▸ hb)
    simp [store_heap, hne]
  · intro b hb
    have hne : b ≠ a := by
      intro e; apply hb; rw [e, ha]; simp [addrs]
    simp [store_heap, hne, c8 b hb]
  · refine (answers_append ext _ _ _).mpr ⟨c12, ?_⟩
    exact ⟨(by intro f d r h; cases h), (by intro f d r h; cases h), trivial⟩

theorem relL_perm : ∀ ls : List (Nat × genresource),
    (∀ e ∈ entries ls, e.data ≠ 0) → (relL ls).Perm (entries ls) := by
  intro ls
  induction ls with
  | nil => intro _; exact List.Perm.refl _
  | cons x l ih =>
    intro h
    have hl : live x.2 = used x.2 := by
      simp only [live]
      apply List.filter_eq_self.mpr
      intro e he
      simpa using h e (by simp [entries, he])
    simp only [relL, entries, hl]
    exact List.perm_append_comm.trans
      (List.Perm.append_left _ (ih (fun e he => h e (by simp [entries, he]))))

/-- C4: on a pool and chain whose entries hold pairwise distinct non-null
handles, one `gr_clear` returns and performs exactly one release action per
tracked entry and none on anything else: the entry's release function called on
its handle if it has one, the default deallocation of the handle otherwise. -/
theorem gr_clear_releases_each_once (ext : Oracle) (s : State) (gr : Nat)
    (ls : List (Nat × genresource)) (fuel : Nat) (hp : Pool s gr ls)
    (hnn : ∀ e ∈ entries ls, e.data ≠ 0)
    (hdist : ((entries ls).map (fun e => e.data)).Nodup) (hf : 2 * ls.length ≤ fuel) :
    ∃ r s1 evs, gr_clear ext fuel s gr = some (r, s1) ∧ s1.trace = s.trace ++ evs ∧
      (released evs).Perm ((entries ls).map action) ∧
      ∀ d, ((released evs).map Prod.fst).count d =
        if d ∈ (entries ls).map (fun e => e.data) then 1 else 0 := by
  obtain ⟨hc, hne, _⟩ := hp
  cases ls with
  | nil => exact absurd rfl hne
  | cons x l =>
    obtain ⟨r, s1, evs, c1, c2, _, c4, _⟩ := gr_clear_chain ext l x s gr fuel hc (by simpa using hf)
    have hperm : (released evs).Perm ((entries (x :: l)).map action) := by
      rw [c4]; exact (relL_perm _ hnn).map action
    refine ⟨r, s1, evs, c1, c2, hperm, ?_⟩
    intro d
    have hfst : ((released evs).map Prod.fst).Perm ((entries (x :: l)).map (fun e => e.data)) := by
      have := hperm.map Prod.fst
      simpa [action, Function.comp] using this
    rw [hfst.count_eq]
    split
    · next hmem => exact List.count_eq_one_of_mem hdist hmem
    · next hmem => exact List.count_eq_zero_of_not_mem hmem

/-- C4 at the pool of `demo_state` (handles 11..15, two links). -/
theorem gr_clear_releases_each_once_witness :
    ∃ r s1 evs, gr_clear demo_ext 4 demo_state 1 = some (r, s1) ∧
      s1.trace = demo_state.trace ++ evs ∧
      (released evs).Perm ((entries demo_links).map action) ∧
      ∀ d, ((released evs).map Prod.fst).count d =
        if d ∈ (entries demo_links).map (fun e => e.data) then 1 else 0 :=
  gr_clear_releases_each_once demo_ext demo_state 1 demo_links 4 demo_pool (by decide)
    (by decide) (by decide)

theorem three_pool : Pool three_state 1 three_links := by
  refine ⟨⟨rfl, by decide, rfl, rfl⟩, by simp [three_links], ?_⟩
  intro x hx
  simp only [three_links, List.mem_singleton] at hx
  subst hx
  exact ⟨by decide, by decide, rfl⟩

theorem keep_pool : Pool keep_state 1 demo_links := by
  refine ⟨⟨rfl, by decide, rfl, rfl, by decide, rfl, rfl⟩, by simp [demo_links], ?_⟩
  intro x hx
  simp only [demo_links, List.mem_cons, List.mem_singleton, List.not_mem_nil, or_false] at hx
  rcases hx with rfl | rfl
  · exact ⟨by decide, by decide, rfl⟩
  · exact ⟨by decide, by decide, rfl⟩

/-- When every release function answers 0 or 1, the sum of the answers is the
number of failures. -/
theorem sum_rets_eq_failures (ext : Oracle) (hunit : ∀ f d tr, ext f d tr = 0 ∨ ext f d tr = 1) :
    ∀ (evs tr : List Event), Answers ext tr evs → sum_rets evs = (failures evs : Int) := by
  intro evs
  induction evs with
  | nil => intro tr _; rfl
  | cons ev evs ih =>
    intro tr h
    have h1 := ih _ h.2
    simp only [sum_rets, failures, List.map_cons, List.sum_cons, List.filter_cons] at h1 ⊢
    rw [h1]
    cases ev with
    | call f d r =>
      obtain ⟨_, _, hr⟩ := h.1 f d r rfl
      rcases hunit f d tr with h0 | h0
      · simp [ret_of, hr, h0]
      · simp [ret_of, hr, h0]; ring
    | free_data d => simp [ret_of]
    | free_ptrs a => simp [ret_of]
    | free_gr a => simp [ret_of]
    | test f d r => simp [ret_of]
    | stats a b => simp [ret_of]
    | line => simp [ret_of]

/-- C5 as stated fails: on a pool of three entries whose release functions
return 0, 2, 0 exactly one release function reports failure, and `gr_clear`
returns 2. -/
theorem gr_clear_sum_is_not_count :
    ∃ r s1, gr_clear two_ext 2 three_state 1 = some (r, s1) ∧ failures s1.trace = 1 ∧
      r = 2 ∧ r ≠ (failures s1.trace : Int) :=
  ⟨_, _, rfl, by decide, by decide, by decide⟩

/-- C5 amended: `gr_clear` returns the sum of the values its release function
calls returned, held in an `int`; when every release function returns 0 or 1
that sum is the number of entries whose release function reported failure, and
`gr_clear` returns this number as long as it fits an `int`. -/
theorem gr_clear_counts_unit_failures (ext : Oracle) (s : State) (gr : Nat)
    (ls : List (Nat × genresource)) (fuel : Nat) (hp : Pool s gr ls)
    (hunit : ∀ f d tr, ext f d tr = 0 ∨ ext f d tr = 1) (hf : 2 * ls.length ≤ fuel) :
    ∃ r s1 evs, gr_clear ext fuel s gr = some (r, s1) ∧ s1.trace = s.trace ++ evs ∧
      r = wrap_int (sum_rets evs) ∧ sum_rets evs = (failures evs : Int) ∧
      ((failures evs : Int) < 2147483648 → r = sum_rets evs ∧ r = (failures evs : Int)) := by
  obtain ⟨hc, hne, _⟩ := hp
  cases ls with
  | nil => exact absurd rfl hne
  | cons x l =>
    obtain ⟨r, s1, evs, c1, c2, c3, _, _, _, _, _, _, _, _, _, c12⟩ :=
      gr_clear_chain ext l x s gr fuel hc (by simpa using hf)
    have hsum := sum_rets_eq_failures ext hunit evs _ c12
    refine ⟨r, s1, evs, c1, c2, c3, hsum, ?_⟩
    intro hlt
    have hr : r = sum_rets evs := by
      rw [c3]
      exact wrap_int_of_range _ (by rw [hsum]; omega) (by rw [hsum]; exact hlt)
    exact ⟨hr, by rw [hr, hsum]⟩

/-- C5 amended at the input of the spec: release results 0, 1, 0 give 1. -/
theorem gr_clear_counts_unit_failures_witness :
    (∃ r s1 evs, gr_clear demo_ext 2 three_state 1 = some (r, s1) ∧
      s1.trace = three_state.trace ++ evs ∧
      r = wrap_int (sum_rets evs) ∧ sum_rets evs = (failures evs : Int) ∧
      ((failures evs : Int) < 2147483648 → r = sum_rets evs ∧ r = (failures evs : Int))) ∧
    (gr_clear demo_ext 2 three_state 1).map (fun p => (p.1, p.2.trace)) =
      some (1, [Event.call 7 21 0, Event.call 8 22 1, Event.call 7 23 0]) :=
  ⟨gr_clear_counts_unit_failures demo_ext three_state 1 three_links 2 three_pool
    (by intro f d tr; simp only [demo_ext]; split <;> simp) (by decide), by decide⟩

/-- The trace and result of `gr_clear` and of `gr_destroy` on a well-formed
pool. -/
theorem gr_clear_returns_sum_aux (ext : Oracle) (s : State) (gr : Nat)
    (ls : List (Nat × genresource)) (fuel : Nat) (hp : Pool s gr ls)
    (hf : 2 * ls.length + 1 ≤ fuel) :
    (∃ r s1 evs, gr_clear ext fuel s gr = some (r, s1) ∧ s1.trace = s.trace ++ evs ∧
      r = wrap_int (sum_rets evs) ∧ released evs = (relL ls).map action ∧
      Answers ext s.trace evs) ∧
    (∃ r s1 evs, gr_destroy ext fuel s gr = some (r, s1) ∧ s1.trace = s.trace ++ evs ∧
      r = wrap_int (sum_rets evs) ∧ released evs = (relL ls).map action ∧
      Answers ext s.trace evs) := by
  obtain ⟨hc, hne, _⟩ := hp
  cases ls with
  | nil => exact absurd rfl hne
  | cons x l =>
    constructor
    · obtain ⟨r, s1, evs, c1, c2, c3, c4, _, _, _, _, _, _, _, _, c12⟩ :=
        gr_clear_chain ext l x s gr fuel hc (by simp at hf ⊢; omega)
      exact ⟨r, s1, evs, c1, c2, c3, c4, c12⟩
    · obtain ⟨r, s1, evs, c1, c2, c3, c4, _, _, _, _, _, _, _, _, _, c12⟩ :=
        gr_destroy_chain ext l x s gr fuel hc (by simp at hf ⊢; omega)
      exact ⟨r, s1, evs, c1, c2, c3, c4, c12⟩

/-- C6 as stated fails: on the three entries of `three_state`, with release
functions that all return 2147483647, the values returned sum to 6442450941
and `gr_clear` and `gr_destroy` return 2147483645: `ret_val` is an `int`. -/
theorem gr_clear_sum_wraps :
    (gr_clear big_ext 2 three_state 1).map (fun p => (p.1, sum_rets p.2.trace)) =
      some (2147483645, 6442450941) ∧
    (gr_destroy big_ext 3 three_state 1).map (fun p => (p.1, sum_rets p.2.trace)) =
      some (2147483645, 6442450941) := by
  decide

/-- C6 amended: `gr_clear` and `gr_destroy` return, and what they return is the
sum of the values returned by the release function calls they made, held in an
`int`: the 32-bit two's complement value congruent to the sum, which is the sum
itself when the sum is in the range of `int`; these calls and the default
deallocations are made on every non-null used entry of the pool and of every
link of its chain (the chain first), whatever the calls return. -/
theorem gr_clear_returns_sum (ext : Oracle) (s : State) (gr : Nat)
    (ls : List (Nat × genresource)) (fuel : Nat) (hp : Pool s gr ls)
    (hf : 2 * ls.length + 1 ≤ fuel) :
    (∃ r s1 evs, gr_clear ext fuel s gr = some (r, s1) ∧ s1.trace = s.trace ++ evs ∧
      r = wrap_int (sum_rets evs) ∧
      (-2147483648 ≤ sum_rets evs → sum_rets evs < 2147483648 → r = sum_rets evs) ∧
      released evs = (relL ls).map action ∧ Answers ext s.trace evs) ∧
    (∃ r s1 evs, gr_destroy ext fuel s gr = some (r, s1) ∧ s1.trace = s.trace ++ evs ∧
      r = wrap_int (sum_rets evs) ∧
      (-2147483648 ≤ sum_rets evs → sum_rets evs < 2147483648 → r = sum_rets evs) ∧
      released evs = (relL ls).map action ∧ Answers ext s.trace evs) := by
  obtain ⟨hc, hne, _⟩ := hp
  cases ls with
  | nil => exact absurd rfl hne
  | cons x l =>
    constructor
    · obtain ⟨r, s1, evs, c1, c2, c3, c4, _, _, _, _, _, _, _, _, c12⟩ :=
        gr_clear_chain ext l x s gr fuel hc (by simp at hf ⊢; omega)
      exact ⟨r, s1, evs, c1, c2, c3,
        fun h1 h2 => by rw [c3]; exact wrap_int_of_range _ h1 h2, c4, c12⟩
    · obtain ⟨r, s1, evs, c1, c2, c3, c4, _, _, _, _, _, _, _, _, _, c12⟩ :=
        gr_destroy_chain ext l x s gr fuel hc (by simp at hf ⊢; omega)
      exact ⟨r, s1, evs, c1, c2, c3,
        fun h1 h2 => by rw [c3]; exact wrap_int_of_range _ h1 h2, c4, c12⟩

/-- C6 amended at the pool of `demo_state` with release functions returning 0
and 2. -/
theorem gr_clear_returns_sum_witness :
    ((∃ r s1 evs, gr_clear two_ext 5 demo_state 1 = some (r, s1) ∧
      s1.trace = demo_state.trace ++ evs ∧ r = wrap_int (sum_rets evs) ∧
      (-2147483648 ≤ sum_rets evs → sum_rets evs < 2147483648 → r = sum_rets evs) ∧
      released evs = (relL demo_links).map action ∧ Answers two_ext demo_state.trace evs) ∧
    (∃ r s1 evs, gr_destroy two_ext 5 demo_state 1 = some (r, s1) ∧
      s1.trace = demo_state.trace ++ evs ∧ r = wrap_int (sum_rets evs) ∧
      (-2147483648 ≤ sum_rets evs → sum_rets evs < 2147483648 → r = sum_rets evs) ∧
      released evs = (relL demo_links).map action ∧ Answers two_ext demo_state.trace evs)) ∧
    (gr_clear two_ext 5 demo_state 1).map (fun p => (p.1, p.2.trace)) =
      some (2, [Event.call 8 13 2, Event.free_data 14, Event.call 7 15 0, Event.free_ptrs 2,
        Event.free_gr 2, Event.free_data 11, Event.call 7 12 0]) :=
  ⟨gr_clear_returns_sum two_ext demo_state 1 demo_links 5 demo_pool (by decide), by decide⟩

theorem wipe_null : ∀ (k : Nat) (l : List resource_t) (i : Nat), i < k →
    ((wipe k l).getD i ⟨0, 0⟩).data = 0 := by
  intro k
  induction k with
  | zero => intro l i h; omega
  | succ k ih =>
    intro l i h
    cases l with
    | nil => simp [wipe]
    | cons e l =>
      cases i with
      | zero => simp [wipe]
      | succ i =>
        simp only [wipe, List.getD_cons_succ]
        exact ih l i (by omega)

theorem forall2_cleared : ∀ ls : List (Nat × genresource),
    List.Forall₂ (fun y z => z.1 = y.1 ∧ z.2.max = y.2.max ∧ z.2.num = 0) ls
      (ls.map (fun y => (y.1, cleared y.2))) := by
  intro ls
  induction ls with
  | nil => exact List.Forall₂.nil
  | cons x l ih => exact List.Forall₂.cons ⟨rfl, rfl, rfl⟩ ih

/-- C7: whatever the release functions return, `gr_clear` returns and leaves the
pool with count 0, its capacity unchanged and a null handle in every slot that
was in use; if `destroy_chains_on_clear` is set the pool has no chain any more
(its chain links are freed), otherwise every chain link is kept, at its address,
with its capacity unchanged and count 0. -/
theorem gr_clear_empties_pool (ext : Oracle) (s : State) (gr : Nat) (x : Nat × genresource)
    (ls : List (Nat × genresource)) (fuel : Nat) (hp : Pool s gr (x :: ls))
    (hf : 2 * (ls.length + 1) ≤ fuel) :
    ∃ r s1 g1, gr_clear ext fuel s gr = some (r, s1) ∧ s1.heap gr = some g1 ∧
      g1.num = 0 ∧ g1.max = x.2.max ∧ g1.ptrs.length = x.2.ptrs.length ∧
      (∀ i, i < x.2.num → (g1.ptrs.getD i ⟨0, 0⟩).data = 0) ∧
      (s.destroy_chains_on_clear ≠ 0 → g1.chain = 0 ∧ ∀ b ∈ addrs ls, s1.heap b = none) ∧
      (s.destroy_chains_on_clear = 0 →
        ∃ ls1, Chain s1.heap gr ((gr, g1) :: ls1) ∧
          List.Forall₂ (fun y z => z.1 = y.1 ∧ z.2.max = y.2.max ∧ z.2.num = 0) ls ls1) := by
  obtain ⟨hc, _, _⟩ := hp
  obtain ⟨r, s1, evs, c1, _, _, _, _, _, c6, c7, _⟩ := gr_clear_chain ext ls x s gr fuel hc hf
  have hgr : gr = x.1 := hc.1
  by_cases hflag : s.destroy_chains_on_clear = 0
  · simp only [hflag, clearL, ne_eq, not_true, if_false, List.map_cons] at c6
    refine ⟨r, s1, cleared x.2, c1, c6.2.2.1, rfl, rfl, by simp [cleared, wipe_length],
      fun i hi => wipe_null _ _ i hi, fun h => absurd hflag h, fun _ => ?_⟩
    exact ⟨ls.map (fun y => (y.1, cleared y.2)), by rw [hgr]; rw [hgr] at c6; exact c6,
      forall2_cleared ls⟩
  · simp only [hflag, clearL, ne_eq, not_false_eq_true, if_true, List.take, List.map] at c6
    refine ⟨r, s1, { cleared x.2 with chain := 0 }, c1, c6.2.2.1, rfl, rfl,
      by simp [cleared, wipe_length], fun i hi => wipe_null _ _ i hi,
      fun _ => ⟨rfl, fun b hb => c7 b hb hflag⟩, fun h => absurd h hflag⟩

/-- C7 at the pool of `demo_state`, under both policies. -/
theorem gr_clear_empties_pool_witness :
    (∃ r s1 g1, gr_clear two_ext 4 demo_state 1 = some (r, s1) ∧ s1.heap 1 = some g1 ∧
      g1.num = 0 ∧ g1.max = 2 ∧ g1.ptrs.length = 2 ∧
      (∀ i, i < 2 → (g1.ptrs.getD i ⟨0, 0⟩).data = 0) ∧
      (demo_state.destroy_chains_on_clear ≠ 0 →
        g1.chain = 0 ∧ ∀ b ∈ addrs (demo_links.drop 1), s1.heap b = none) ∧
      (demo_state.destroy_chains_on_clear = 0 →
        ∃ ls1, Chain s1.heap 1 ((1, g1) :: ls1) ∧
          List.Forall₂ (fun y z => z.1 = y.1 ∧ z.2.max = y.2.max ∧ z.2.num = 0)
            (demo_links.drop 1) ls1)) ∧
    (∃ r s1 g1, gr_clear two_ext 4 keep_state 1 = some (r, s1) ∧ s1.heap 1 = some g1 ∧
      g1.num = 0 ∧ g1.max = 2 ∧ g1.ptrs.length = 2 ∧
      (∀ i, i < 2 → (g1.ptrs.getD i ⟨0, 0⟩).data = 0) ∧
      (keep_state.destroy_chains_on_clear ≠ 0 →
        g1.chain = 0 ∧ ∀ b ∈ addrs (demo_links.drop 1), s1.heap b = none) ∧
      (keep_state.destroy_chains_on_clear = 0 →
        ∃ ls1, Chain s1.heap 1 ((1, g1) :: ls1) ∧
          List.Forall₂ (fun y z => z.1 = y.1 ∧ z.2.max = y.2.max ∧ z.2.num = 0)
            (demo_links.drop 1) ls1)) :=
  ⟨gr_clear_empties_pool two_ext demo_state 1 _ _ 4 demo_pool (by decide),
   gr_clear_empties_pool two_ext keep_state 1 _ _ 4 keep_pool (by decide)⟩

theorem relL_empty : ∀ ls : List (Nat × genresource), (∀ y ∈ ls, y.2.num = 0) → relL ls = [] := by
  intro ls
  induction ls with
  | nil => intro _; rfl
  | cons x l ih =>
    intro h
    simp only [relL]
    rw [ih (fun y hy => h y (List.mem_cons_of_mem _ hy))]
    simp [live, used, h x (List.mem_cons_self _ _)]

theorem sum_rets_of_no_release : ∀ evs : List Event, released evs = [] → sum_rets evs = 0 := by
  intro evs
  induction evs with
  | nil => intro _; rfl
  | cons ev evs ih =>
    intro h
    cases ev with
    | call f d r => simp [released, release_of] at h
    | free_data d => simp [released, release_of] at h
    | free_ptrs a =>
      have := ih (by simpa [released, release_of] using h)
      simpa [sum_rets, ret_of] using this
    | free_gr a =>
      have := ih (by simpa [released, release_of] using h)
      simpa [sum_rets, ret_of] using this
    | test f d r =>
      have := ih (by simpa [released, release_of] using h)
      simpa [sum_rets, ret_of] using this
    | stats a b =>
      have := ih (by simpa [released, release_of] using h)
      simpa [sum_rets, ret_of] using this
    | line =>
      have := ih (by simpa [released, release_of] using h)
      simpa [sum_rets, ret_of] using this

/-- A `gr_clear` or `gr_destroy` of a pool none of whose links holds an entry
performs no release action and returns 0. -/
theorem clear_of_empty (ext : Oracle) (s : State) (gr : Nat) (ls : List (Nat × genresource))
    (fuel : Nat) (hc : Chain s.heap gr ls) (hne : ls ≠ []) (hemp : ∀ y ∈ ls, y.2.num = 0)
    (hf : 2 * ls.length + 1 ≤ fuel) :
    (∃ s2 evs, gr_clear ext fuel s gr = some (0, s2) ∧ s2.trace = s.trace ++ evs ∧
      released evs = []) ∧
    (∃ s2 evs, gr_destroy ext fuel s gr = some (0, s2) ∧ s2.trace = s.trace ++ evs ∧
      released evs = []) := by
  cases ls with
  | nil => exact absurd rfl hne
  | cons x l =>
    constructor
    · obtain ⟨r, s2, evs, c1, c2, c3, c4, _⟩ :=
        gr_clear_chain ext l x s gr fuel hc (by simp at hf ⊢; omega)
      rw [relL_empty _ hemp] at c4
      have hr : r = 0 := by rw [c3, sum_rets_of_no_release evs c4]; exact wrap_int_zero
      subst hr
      exact ⟨s2, evs, c1, c2, c4⟩
    · obtain ⟨r, s2, evs, c1, c2, c3, c4, _⟩ :=
        gr_destroy_chain ext l x s gr fuel hc (by simp at hf ⊢; omega)
      rw [relL_empty _ hemp] at c4
      have hr : r = 0 := by rw [c3, sum_rets_of_no_release evs c4]; exact wrap_int_zero
      subst hr
      exact ⟨s2, evs, c1, c2, c4⟩

/-- C9: `gr_destroy` on a null pool returns 0 and leaves the state as it is; and
on every well-formed pool, under either clear-chain policy, `gr_clear` returns
and a `gr_clear` or a `gr_destroy` of the same pool right after it performs no
release action and returns 0. -/
theorem gr_destroy_null_and_after_clear :
    (∀ (ext : Oracle) (n : Nat) (s : State), gr_destroy ext (n + 1) s 0 = some (0, s)) ∧
    (∀ (ext1 ext2 : Oracle) (s : State) (gr : Nat) (ls : List (Nat × genresource))
      (fuel : Nat), Pool s gr ls → 2 * ls.length + 1 ≤ fuel →
      ∃ r s1, gr_clear ext1 fuel s gr = some (r, s1) ∧
        (∃ s2 evs, gr_clear ext2 fuel s1 gr = some (0, s2) ∧ s2.trace = s1.trace ++ evs ∧
          released evs = []) ∧
        (∃ s2 evs, gr_destroy ext2 fuel s1 gr = some (0, s2) ∧ s2.trace = s1.trace ++ evs ∧
          released evs = [])) := by
  refine ⟨fun ext n s => gr_destroy_null ext n s, ?_⟩
  intro ext1 ext2 s gr ls fuel hp hf
  obtain ⟨hc, hne, _⟩ := hp
  cases ls with
  | nil => exact absurd rfl hne
  | cons x l =>
    obtain ⟨r, s1, evs, c1, _, _, _, _, _, c6, _⟩ :=
      gr_clear_chain ext1 l x s gr fuel hc (by simp at hf ⊢; omega)
    have hlen := clearL_length s.destroy_chains_on_clear (x :: l)
    exact ⟨r, s1, c1,
      clear_of_empty ext2 s1 gr _ fuel c6 (clearL_ne_nil _ _ (by simp)) (clearL_empty _ _)
        (by omega)⟩

/-- C9 at the pool of `demo_state` (default policy) and of `keep_state`
(alternate policy). -/
theorem gr_destroy_null_and_after_clear_witness :
    gr_destroy two_ext 1 demo_state 0 = some (0, demo_state) ∧
    (∃ r s1, gr_clear two_ext 5 demo_state 1 = some (r, s1) ∧
      (∃ s2 evs, gr_clear two_ext 5 s1 1 = some (0, s2) ∧ s2.trace = s1.trace ++ evs ∧
        released evs = []) ∧
      (∃ s2 evs, gr_destroy two_ext 5 s1 1 = some (0, s2) ∧ s2.trace = s1.trace ++ evs ∧
        released evs = [])) ∧
    (∃ r s1, gr_clear two_ext 5 keep_state 1 = some (r, s1) ∧
      (∃ s2 evs, gr_clear two_ext 5 s1 1 = some (0, s2) ∧ s2.trace = s1.trace ++ evs ∧
        released evs = []) ∧
      (∃ s2 evs, gr_destroy two_ext 5 s1 1 = some (0, s2) ∧ s2.trace = s1.trace ++ evs ∧
        released evs = [])) :=
  ⟨gr_destroy_null_and_after_clear.1 two_ext 0 demo_state,
   gr_destroy_null_and_after_clear.2 two_ext two_ext demo_state 1 demo_links 5 demo_pool
     (by decide),
   gr_destroy_null_and_after_clear.2 two_ext two_ext keep_state 1 demo_links 5 keep_pool
     (by decide)⟩

theorem regList_frame {h h1 : Nat → Option genresource} :
    ∀ (cs : List (List (Nat × genresource))) (a : Nat), RegList h a cs →
      (∀ b ∈ addrs (all_links cs), h1 b = h b) → RegList h1 a cs := by
  intro cs
  induction cs with
  | nil => intro a hr _; exact hr
  | cons c cs ih =>
    intro a hr hf
    cases c with
    | nil => exact hr.elim
    | cons x l =>
      refine ⟨chain_frame _ _ hr.1 (fun b hb => hf b ?_), ih _ hr.2 (fun b hb => hf b ?_)⟩
      · simp only [all_links, addrs, List.map_append, List.mem_append]
        exact Or.inl hb
      · simp only [all_links, addrs, List.map_append, List.mem_append]
        exact Or.inr hb

/-- The loop of `gr_finish`, with `destroy_chains_on_clear` set, on a
well-formed registry list: it returns, every link of every pool is freed, and
the trace and the result split into one part per pool. -/
theorem finish_loop_spec (ext : Oracle) :
    ∀ (cs : List (List (Nat × genresource))) (s : State) (cur : Nat) (ret : Int) (fuel : Nat),
      RegList s.heap cur cs → (addrs (all_links cs)).Nodup →
      s.destroy_chains_on_clear ≠ 0 →
      cs.length + 2 * (all_links cs).length + 2 ≤ fuel → wrap_int ret = ret →
      ∃ s1 parts,
        finish_loop ext fuel s cur ret =
          some (wrap_int (ret + (parts.map sum_rets).sum), s1) ∧
        s1.trace = s.trace ++ flat parts ∧ List.Forall₂ DestroyedBy cs parts ∧
        Answers ext s.trace (flat parts) ∧
        (∀ b ∈ addrs (all_links cs), s1.heap b = none) ∧
        (∀ b, b ∉ addrs (all_links cs) → s1.heap b = s.heap b) ∧
        s1.brk = s.brk ∧ s1.gr_List = s.gr_List ∧
        s1.destroy_chains_on_clear = s.destroy_chains_on_clear := by
  intro cs
  induction cs with
  | nil =>
    intro s cur ret fuel hr _ _ hf hret
    obtain ⟨n, rfl⟩ : ∃ n, fuel = n + 1 := ⟨fuel - 1, by omega⟩
    have hcur : cur = 0 := hr
    subst hcur
    exact ⟨s, [], by simp [finish_loop, hret], by simp [flat], List.Forall₂.nil, trivial,
      by simp [all_links, addrs], fun _ _ => rfl, rfl, rfl, rfl⟩
  | cons c cs ih =>
    intro s cur ret fuel hr hnd hflag hf hret
    cases c with
    | nil => exact hr.elim
    | cons x l =>
      obtain ⟨n, rfl⟩ : ∃ n, fuel = n + 1 := ⟨fuel - 1, by omega⟩
      obtain ⟨hc, hrest⟩ := hr
      have hlen : (all_links ((x :: l) :: cs)).length = l.length + 1 + (all_links cs).length := by
        simp [all_links]; omega
      have hcur : cur = x.1 := hc.1
      have hcur0 : cur ≠ 0 := hc.2.1
      have hcell : s.heap cur = some x.2 := hc.2.2.1
      have hsplit : addrs (all_links ((x :: l) :: cs)) = addrs (x :: l) ++ addrs (all_links cs) := by
        simp [all_links, addrs]
      rw [hsplit] at hnd
      have hdisj : ∀ b ∈ addrs (all_links cs), b ∉ addrs (x :: l) := by
        intro b hb1 hb2
        exact (List.nodup_append.mp hnd).2.2 hb2 hb1
      obtain ⟨r, s1, evs, d1, d2, d3, d4, d5, d5t, d6, d7, _, d9, d10, d11, d12, d13⟩ :=
        gr_destroy_chain ext l x s cur n hc (by simp only [List.length_cons] at hf; omega)
      have hheap1 : ∀ b ∈ addrs (all_links cs), s1.heap b = s.heap b :=
        fun b hb => d9 b (hdisj b hb)
      obtain ⟨s2, parts, g1, g2, g3, g4, g5, g6, g7, g8, g9⟩ :=
        ih s1 x.2.next (wrap_int (ret + r)) n (regList_frame cs _ hrest hheap1)
          (List.nodup_append.mp hnd).2.1 (by rw [d12]; exact hflag)
          (by simp only [List.length_cons] at hf; omega) (wrap_int_idem _)
      refine ⟨s2, evs :: parts, ?_, ?_, List.Forall₂.cons ⟨d4, ?_, ?_⟩ g3, ?_, ?_, ?_,
        by rw [g7, d10], by rw [g8, d11], by rw [g9, d12]⟩
      · rw [finish_loop]
        simp only [hcur0, if_false, hcell, d1, g1, List.map_cons, List.sum_cons]
        rw [d3, wrap_int_acc]
      · rw [g2, d2]; simp [flat]
      · rw [d5]; simp [hflag, addrs, hcur]
      · rw [d5t]; simp [hflag, addrs, hcur]
      · exact (answers_append ext _ _ _).mpr ⟨d13, by rw [← d2]; exact g4⟩
      · intro b hb
        rw [hsplit] at hb
        rcases List.mem_append.mp hb with hb | hb
        · have hb2 : b ∉ addrs (all_links cs) := fun h => hdisj b h hb
          rw [g6 b hb2]
          simp only [addrs, List.map_cons, List.mem_cons] at hb
          rcases hb with hb | hb
          · rw [hb, ← hcur]; exact d6
          · exact d7 b hb hflag
        · exact g5 b hb
      · intro b hb
        rw [hsplit] at hb
        simp only [List.mem_append, not_or] at hb
        rw [g6 b hb.2, d9 b hb.1]

/-- What `gr_finish` does on a well-formed registry, whatever the value of
`destroy_chains_on_clear`. -/
theorem gr_finish_spec (ext : Oracle) (cs : List (List (Nat × genresource))) (s : State)
    (fuel : Nat) (hr : Registry s cs) (hf : cs.length + 2 * (all_links cs).length + 2 ≤ fuel) :
    ∃ s1 parts, gr_finish ext fuel s = some (wrap_int ((parts.map sum_rets).sum), s1) ∧
      s1.trace = s.trace ++ flat parts ∧ List.Forall₂ DestroyedBy cs parts ∧
      Answers ext s.trace (flat parts) ∧
      (∀ b ∈ addrs (all_links cs), s1.heap b = none) ∧
      (∀ b, b ∉ addrs (all_links cs) → s1.heap b = s.heap b) ∧
      s1.brk = s.brk ∧ s1.gr_List = 0 ∧
      s1.destroy_chains_on_clear = s.destroy_chains_on_clear := by
  obtain ⟨h1, h2, _⟩ := hr
  obtain ⟨s1, parts, g1, g2, g3, g4, g5, g6, g7, g8, _⟩ :=
    finish_loop_spec ext cs { s with destroy_chains_on_clear := 1, gr_List := 0 } s.gr_List 0
      fuel h1 h2 (by simp) hf wrap_int_zero
  refine ⟨{ s1 with destroy_chains_on_clear := s.destroy_chains_on_clear }, parts, ?_, g2, g3,
    g4, g5, g6, g7, g8, rfl⟩
  simp only [gr_finish, g1, zero_add]

theorem gr_finish_of_empty (ext : Oracle) (n : Nat) (s : State) (h : s.gr_List = 0) :
    gr_finish ext (n + 1) s = some (0, s) := by
  cases s with
  | mk heap brk gl flag tr =>
    simp only at h
    subst h
    simp [gr_finish, finish_loop]

theorem trackL_head_next (fresh : Nat) (e : resource_t) (nxt : Nat) :
    ∀ ls : List (Nat × genresource), (∃ x l, ls = x :: l ∧ x.2.next = nxt) →
      ∃ x l, trackL fresh e ls = x :: l ∧ x.2.next = nxt := by
  intro ls h
  obtain ⟨x, l, rfl, hx⟩ := h
  by_cases hfull : x.2.num = x.2.max
  · cases l with
    | nil => rw [trackL_new _ _ _ hfull]; exact ⟨_, _, rfl, hx⟩
    | cons y l1 => rw [trackL_next _ _ _ _ _ hfull]; exact ⟨_, _, rfl, hx⟩
  · rw [trackL_put _ _ _ _ hfull]; exact ⟨_, _, rfl, by simpa [put] using hx⟩

/-- Acquiring a pool with `gr_get` and filling it keeps the registry
well-formed and puts the new pool, holding exactly the tracked entries, in front
of it. -/
theorem registry_get_track (s : State) (cs : List (List (Nat × genresource))) (C : Nat)
    (items : List resource_t) (fuel : Nat) (hr : Registry s cs)
    (hf : items.length + 1 < fuel) :
    ∃ s1 ch, track_all fuel (gr_get s C).2 (gr_get s C).1 items = some s1 ∧
      Registry s1 (ch :: cs) ∧ entries ch = items ∧ ch.length ≤ items.length + 1 ∧
      s1.destroy_chains_on_clear = s.destroy_chains_on_clear ∧ s1.trace = s.trace := by
  obtain ⟨r1, r2, r3⟩ := hr
  have ha : (gr_get s C).1 = s.brk + 1 := rfl
  have hheap : ∀ b, (gr_get s C).2.heap b =
      if b = s.brk + 1 then some { fresh_link C with next := s.gr_List } else s.heap b := by
    intro b
    simp only [gr_get, modify, gr_init, store_heap, if_true, Option.map_some', store]
    split <;> simp [fresh_link]
  have hbrk : (gr_get s C).2.brk = s.brk + 1 := rfl
  have hc0 : Chain (gr_get s C).2.heap (s.brk + 1)
      [(s.brk + 1, { fresh_link C with next := s.gr_List })] :=
    ⟨rfl, by omega, by rw [hheap]; simp, rfl⟩
  obtain ⟨s1, ch, h1, h2, h3, h4, h5, h6, h7, h8, h9, h10, h11, h12, h13⟩ :=
    track_all_chain
      (fun l done => ((∀ x ∈ l, LinkOk x.2) ∧ Packed l ∧ entries l = done) ∧
        ∃ x l1, l = x :: l1 ∧ x.2.next = s.gr_List)
      (fun fresh e l done hne hI => by
        obtain ⟨⟨i1, i2, i3⟩, i4⟩ := hI
        obtain ⟨t1, t2, t3⟩ := trackL_entries fresh e l hne i1 i2
        exact ⟨⟨t2, t3, by rw [t1, i3]⟩, trackL_head_next fresh e _ l i4⟩)
      items (gr_get s C).2 (s.brk + 1) _ [] fuel hc0 (by simp)
      (by intro x hx; simp only [List.mem_singleton] at hx; subst hx; rw [hbrk])
      ⟨⟨by
          intro x hx; simp only [List.mem_singleton] at hx; subst hx
          exact ⟨(linkOk_fresh C).1, (linkOk_fresh C).2⟩,
        ⟨Or.inr (by simp), trivial⟩, by simp [entries, used, fresh_link]⟩, ⟨_, _, rfl, rfl⟩⟩
      (by simpa [Nat.add_comm] using hf)
  obtain ⟨⟨_, _, i3⟩, x, l1, hch, hnext⟩ := h5
  have hold : ∀ b ∈ addrs (all_links cs), b ≤ s.brk := by
    intro b hb
    simp only [addrs, List.mem_map] at hb
    obtain ⟨z, hz, rfl⟩ := hb
    exact r3 z hz
  have hsame : ∀ b ∈ addrs (all_links cs), s1.heap b = s.heap b := by
    intro b hb
    have hb1 := hold b hb
    rw [h8 b (by rw [hbrk]; omega) (by simp [addrs]; omega), hheap]
    simp; omega
  have hnew : ∀ b ∈ addrs ch, s.brk < b := by
    intro b hb
    rcases h13 b hb with h | h
    · simp [addrs] at h; omega
    · rw [hbrk] at h; omega
  refine ⟨s1, ch, h1, ⟨?_, ?_, ?_⟩, by simpa using i3, by simpa [Nat.add_comm] using h6,
    by rw [h11]; rfl, by rw [h12]; rfl⟩
  · subst hch
    rw [h10]
    refine ⟨h2, ?_⟩
    rw [hnext]
    exact regList_frame cs _ r1 hsame
  · have hsplit : addrs (all_links (ch :: cs)) = addrs ch ++ addrs (all_links cs) := by
      simp [all_links, addrs]
    rw [hsplit]
    refine List.nodup_append.mpr ⟨chain_nodup _ _ h2, r2, ?_⟩
    intro b hb1 hb2
    have := hnew b hb1
    have := hold b hb2
    omega
  · intro z hz
    simp only [all_links, List.mem_append] at hz
    rcases hz with hz | hz
    · exact h4 z hz
    · have := r3 z hz
      rw [hbrk] at h7
      omega

theorem forall2_snoc {α β : Type} (R : α → β → Prop) :
    ∀ (l1 : List α) (l2 : List β) (a : α) (b : β), List.Forall₂ R l1 l2 → R a b →
      List.Forall₂ R (l1 ++ [a]) (l2 ++ [b]) := by
  intro l1 l2 a b h hab
  induction h with
  | nil => exact List.Forall₂.cons hab List.Forall₂.nil
  | cons h1 _ ih => exact List.Forall₂.cons h1 ih

/-- Every run of `acquire_all` from a well-formed registry returns and leaves a
well-formed registry with the new pools in front, the last acquired first. -/
theorem acquire_all_registry (fuel : Nat) :
    ∀ (script : List (Nat × List resource_t)) (s : State) (cs : List (List (Nat × genresource))),
      Registry s cs → (∀ p ∈ script, p.2.length + 1 < fuel) →
      ∃ s1 cs1, acquire_all fuel s script = some s1 ∧ Registry s1 (cs1 ++ cs) ∧
        List.Forall₂ (fun ch p => entries ch = p.2) cs1 script.reverse ∧
        (all_links cs1).length ≤ (script.map (fun p => p.2.length + 1)).sum ∧
        s1.destroy_chains_on_clear = s.destroy_chains_on_clear ∧ s1.trace = s.trace := by
  intro script
  induction script with
  | nil =>
    intro s cs hr _
    exact ⟨s, [], rfl, hr, List.Forall₂.nil, by simp [all_links], rfl, rfl⟩
  | cons p script ih =>
    intro s cs hr hf
    obtain ⟨s1, ch, h1, h2, h3, h4, h5, h6⟩ :=
      registry_get_track s cs p.1 p.2 fuel hr (hf p (List.mem_cons_self _ _))
    obtain ⟨s2, cs2, g1, g2, g3, g4, g5, g6⟩ :=
      ih s1 (ch :: cs) h2 (fun q hq => hf q (List.mem_cons_of_mem _ hq))
    refine ⟨s2, cs2 ++ [ch], ?_, by simpa using g2, ?_, ?_, by rw [g5, h5], by rw [g6, h6]⟩
    · simp [acquire_all, h1, g1]
    · rw [List.reverse_cons]
      exact forall2_snoc _ _ _ _ _ g3 h3
    · have hl : ∀ (a b : List (List (Nat × genresource))),
          (all_links (a ++ b)).length = (all_links a).length + (all_links b).length := by
        intro a b
        induction a with
        | nil => simp [all_links]
        | cons c a iha => simp [all_links, iha]; omega
      rw [hl]
      simp only [all_links, List.length_append, List.length_nil, List.map_cons, List.sum_cons]
      omega

theorem forall2_length {α β : Type} (R : α → β → Prop) (l1 : List α) (l2 : List β)
    (h : List.Forall₂ R l1 l2) : l1.length = l2.length := by
  induction h with
  | nil => rfl
  | cons _ _ ih => simp [ih]

/-- C10 as stated fails: two pools are acquired and each tracks one handle
whose release function returns 2147483647; `gr_destroy` returns 2147483647 for
each of them, and `gr_finish` returns -2, not their sum 4294967294: `ret_val`
is an `int`. -/
theorem gr_finish_sum_wraps :
    ((acquire_all 2 init_state [(1, [⟨41, 7⟩]), (1, [⟨42, 7⟩])]).bind
        (fun s => gr_finish big_ext 4 s)).map (fun p => (p.1, p.2.trace)) =
      some (-2, [Event.call 7 42 2147483647, Event.free_ptrs 2, Event.free_gr 2,
        Event.call 7 41 2147483647, Event.free_ptrs 1, Event.free_gr 1]) ∧
    ((acquire_all 2 init_state [(1, [⟨41, 7⟩]), (1, [⟨42, 7⟩])]).bind
        (fun s => gr_destroy big_ext 3 s 2)).map (fun p => p.1) = some 2147483647 ∧
    ((acquire_all 2 init_state [(1, [⟨41, 7⟩]), (1, [⟨42, 7⟩])]).bind
        (fun s => gr_destroy big_ext 3 s 1)).map (fun p => p.1) = some 2147483647 := by
  decide

/-- C10 amended: after any sequence of `gr_get` calls, each pool being filled
by any number of `gr_track` calls, and for any value `flag` of
`destroy_chains_on_clear`, `gr_finish` returns; the registry held exactly the
acquired pools with their entries; every link of every one of them is freed;
the result `r` is the sum, held in an `int`, of the totals `gr_destroy` returns
for the pools (`parts` is the trace of `gr_finish`, one part per pool, and the
total of a pool is the sum of the values its release functions returned, held
in an `int`): it is congruent to the sum of all values returned, and it is the
sum of the totals when that is in the range of `int`; the registry is left
empty and the flag as it was; and a second `gr_finish` does nothing and
returns 0. -/
theorem gr_finish_destroys_registry (ext ext2 : Oracle) (flag : Int)
    (script : List (Nat × List resource_t)) (afuel fuel : Nat)
    (ha : ∀ p ∈ script, p.2.length + 1 < afuel)
    (hf : script.length + 2 * (script.map (fun p => p.2.length + 1)).sum + 2 ≤ fuel) :
    ∃ s cs, acquire_all afuel { init_state with destroy_chains_on_clear := flag } script = some s ∧
      Registry s cs ∧ List.Forall₂ (fun ch p => entries ch = p.2) cs script.reverse ∧
      ∃ r s1 parts, gr_finish ext fuel s = some (r, s1) ∧
        r = wrap_int ((parts.map (fun p => wrap_int (sum_rets p))).sum) ∧
        r = wrap_int ((parts.map sum_rets).sum) ∧
        (-2147483648 ≤ (parts.map (fun p => wrap_int (sum_rets p))).sum →
          (parts.map (fun p => wrap_int (sum_rets p))).sum < 2147483648 →
          r = (parts.map (fun p => wrap_int (sum_rets p))).sum) ∧
        s1.trace = flat parts ∧ List.Forall₂ DestroyedBy cs parts ∧
        Answers ext [] (flat parts) ∧
        (∀ b ∈ addrs (all_links cs), s1.heap b = none) ∧
        s1.gr_List = 0 ∧ s1.destroy_chains_on_clear = flag ∧
        gr_finish ext2 fuel s1 = some (0, s1) := by
  have h0 : Registry { init_state with destroy_chains_on_clear := flag } [] :=
    ⟨rfl, by simp [all_links, addrs], by simp [all_links]⟩
  obtain ⟨s, cs, a1, a2, a3, a4, a5, a6⟩ := acquire_all_registry afuel script _ [] h0 ha
  simp only [List.append_nil] at a2
  have hlen : cs.length = script.length := by
    rw [forall2_length _ _ _ a3]; simp
  have htr : s.trace = [] := a6
  obtain ⟨s1, parts, f1, f2, f3, f4, f5, _, _, f8, f9⟩ :=
    gr_finish_spec ext cs s fuel a2 (by omega)
  obtain ⟨n, hn⟩ : ∃ n, fuel = n + 1 := ⟨fuel - 1, by omega⟩
  have htot : wrap_int ((parts.map sum_rets).sum) =
      wrap_int ((parts.map (fun p => wrap_int (sum_rets p))).sum) := by
    have := wrap_int_sum (parts.map sum_rets)
    rw [List.map_map] at this
    exact this.symm
  refine ⟨s, cs, a1, a2, a3, _, s1, parts, f1, htot, rfl, ?_, by simpa [htr] using f2, f3,
    by rw [← htr]; exact f4, f5, f8, by rw [f9, a5], ?_⟩
  · intro h1 h2
    rw [htot]
    exact wrap_int_of_range _ h1 h2
  · rw [hn]
    exact gr_finish_of_empty ext2 n s1 f8

/-- C10 amended at a concrete input: a pool of capacity 1 filled with four
entries (a chain of three links) and a pool of capacity 2 with one entry, under
the alternate policy `destroy_chains_on_clear = 0`. -/
theorem gr_finish_destroys_registry_witness :
    ∃ s cs, acquire_all 6 { init_state with destroy_chains_on_clear := 0 }
        [(1, [⟨1, 7⟩, ⟨2, 8⟩, ⟨3, 0⟩, ⟨4, 8⟩]), (2, [⟨5, 8⟩])] = some s ∧
      Registry s cs ∧
      List.Forall₂ (fun ch p => entries ch = p.2) cs
        ([(1, [⟨1, 7⟩, ⟨2, 8⟩, ⟨3, 0⟩, ⟨4, 8⟩]), (2, [(⟨5, 8⟩ : resource_t)])] :
          List (Nat × List resource_t)).reverse ∧
      ∃ r s1 parts, gr_finish two_ext 18 s = some (r, s1) ∧
        r = wrap_int ((parts.map (fun p => wrap_int (sum_rets p))).sum) ∧
        r = wrap_int ((parts.map sum_rets).sum) ∧
        (-2147483648 ≤ (parts.map (fun p => wrap_int (sum_rets p))).sum →
          (parts.map (fun p => wrap_int (sum_rets p))).sum < 2147483648 →
          r = (parts.map (fun p => wrap_int (sum_rets p))).sum) ∧
        s1.trace = flat parts ∧ List.Forall₂ DestroyedBy cs parts ∧
        Answers two_ext [] (flat parts) ∧
        (∀ b ∈ addrs (all_links cs), s1.heap b = none) ∧
        s1.gr_List = 0 ∧ s1.destroy_chains_on_clear = 0 ∧
        gr_finish two_ext 18 s1 = some (0, s1) :=
  gr_finish_destroys_registry two_ext two_ext 0
    [(1, [⟨1, 7⟩, ⟨2, 8⟩, ⟨3, 0⟩, ⟨4, 8⟩]), (2, [⟨5, 8⟩])] 6 18 (by decide) (by decide)

/-! ## What no operation changes -/

theorem stable_refl (s : State) : Stable s s :=
  ⟨le_refl _, fun _ _ h => h, fun a g g1 _ h h1 => by
    rw [h] at h1; cases h1; exact ⟨rfl, rfl⟩⟩

theorem stable_trans {s s1 s2 : State} (h1 : Stable s s1) (h2 : Stable s1 s2) : Stable s s2 := by
  obtain ⟨a1, a2, a3⟩ := h1
  obtain ⟨b1, b2, b3⟩ := h2
  refine ⟨le_trans a1 b1, fun a ha h => b2 a (le_trans ha a1) (a2 a ha h), ?_⟩
  intro a g g2 ha h hg2
  cases hm : s1.heap a with
  | none => rw [b2 a (le_trans ha a1) hm] at hg2; cases hg2
  | some gm =>
    obtain ⟨c1, c2⟩ := a3 a g gm ha h hm
    obtain ⟨d1, d2⟩ := b3 a gm g2 (le_trans ha a1) hm hg2
    exact ⟨by rw [d1, c1], by rw [d2, c2]⟩

theorem quiet_refl (s : State) : Quiet s s := ⟨stable_refl s, rfl, rfl⟩

theorem quiet_trans {s s1 s2 : State} (h1 : Quiet s s1) (h2 : Quiet s1 s2) : Quiet s s2 :=
  ⟨stable_trans h1.1 h2.1, by rw [h2.2.1, h1.2.1], by rw [h2.2.2, h1.2.2]⟩

/-- Rewriting a pool cell without touching `max` and `next`, or freeing it,
is `Quiet`; so is adding to the trace. -/
theorem quiet_store (s : State) (a : Nat) (v : Option genresource) (tr : List Event)
    (hv : ∀ g g1, s.heap a = some g → v = some g1 → g1.max = g.max ∧ g1.next = g.next)
    (hn : s.heap a = none → v = none) :
    Quiet s { store s a v with trace := tr } := by
  refine ⟨⟨le_refl _, ?_, ?_⟩, rfl, rfl⟩
  · intro b _ hb
    show (if b = a then v else s.heap b) = none
    split
    · next h => subst h; exact hn hb
    · exact hb
  · intro b g g1 _ hb hb1
    have hb2 : (if b = a then v else s.heap b) = some g1 := hb1
    split at hb2
    · next h => subst h; exact hv g g1 hb hb2
    · rw [hb] at hb2; cases hb2; exact ⟨rfl, rfl⟩

theorem quiet_modify (s : State) (a : Nat) (f : genresource → genresource)
    (hf : ∀ g, (f g).max = g.max ∧ (f g).next = g.next) : Quiet s (modify s a f) := by
  have := quiet_store s a ((s.heap a).map f) s.trace
    (fun g g1 h h1 => by rw [h] at h1; cases h1; exact hf g)
    (fun h => by rw [h]; rfl)
  exact this

theorem quiet_trace (s : State) (tr : List Event) : Quiet s { s with trace := tr } :=
  ⟨⟨le_refl _, fun _ _ h => h, fun a g g1 _ h h1 => by
    have h2 : s.heap a = some g1 := h1
    rw [h] at h2; cases h2; exact ⟨rfl, rfl⟩⟩, rfl, rfl⟩

theorem quiet_gr_init (s : State) (c : Nat) : Quiet s (gr_init s c).2 := by
  refine ⟨⟨Nat.le_succ _, ?_, ?_⟩, rfl, rfl⟩
  · intro b hb h
    have hne : b ≠ s.brk + 1 := by omega
    simp [gr_init, store_heap, hne, h]
  · intro b g g1 hb h h1
    have hne : b ≠ s.brk + 1 := by omega
    simp only [gr_init, store_heap, hne, if_false] at h1
    rw [h] at h1; cases h1; exact ⟨rfl, rfl⟩

/-- Whenever `gr_track` returns, it returns 1 and the step is `Quiet`. -/
theorem gr_track_quiet :
    ∀ (fuel : Nat) (s : State) (gr ptr ff : Nat) (r : Int) (s1 : State),
      gr_track fuel s gr ptr ff = some (r, s1) → Quiet s s1 ∧ r = 1 ∧ s1.trace = s.trace := by
  intro fuel
  induction fuel with
  | zero => intro s gr ptr ff r s1 h; simp [gr_track] at h
  | succ n ih =>
    intro s gr ptr ff r s1 h
    cases hg : s.heap gr with
    | none => simp [gr_track, hg] at h
    | some g =>
      by_cases hfull : g.num = g.max
      · by_cases hch : g.chain = 0
        · have hq : Quiet s (modify (gr_init s (2 * g.max)).2 gr
              (fun c => { c with chain := (gr_init s (2 * g.max)).1 })) :=
            quiet_trans (quiet_gr_init s _) (quiet_modify _ _ _ (fun _ => ⟨rfl, rfl⟩))
          rw [gr_track] at h
          simp only [hg, hfull, hch, if_true] at h
          split at h
          · cases h
          · obtain ⟨q1, q2, q3⟩ := ih _ _ _ _ _ _ h
            exact ⟨quiet_trans hq q1, q2, by rw [q3]; rfl⟩
        · rw [gr_track_next n s gr ptr ff g hg hfull hch] at h
          exact ih _ _ _ _ _ _ h
      · rw [gr_track_put n s gr ptr ff g hg hfull] at h
        cases h
        exact ⟨quiet_store s gr _ s.trace
          (fun g0 g1 h0 h1 => by rw [hg] at h0; cases h0; cases h1; exact ⟨rfl, rfl⟩)
          (fun h0 => by rw [hg] at h0; cases h0), rfl, rfl⟩

theorem clear_own_quiet (ext : Oracle) (gr : Nat) (ret0 : Int) (s1 : State) (r : Int)
    (s2 : State) (h : clear_own ext gr ret0 s1 = some (r, s2)) : Quiet s1 s2 := by
  cases hg : s1.heap gr with
  | none => simp [clear_own, hg] at h
  | some g1 =>
    simp only [clear_own, hg] at h
    cases h
    exact quiet_store s1 gr _ _
      (fun g0 g2 h0 h1 => by rw [hg] at h0; cases h0; cases h1; exact ⟨rfl, rfl⟩)
      (fun h0 => by rw [hg] at h0; cases h0)

/-- Whenever `gr_destroy` or `gr_clear` returns, the step is `Quiet` and the
pool is still allocated after `gr_clear`. -/
theorem clear_destroy_quiet (ext : Oracle) :
    ∀ (fuel : Nat),
      (∀ (s : State) (gr : Nat) (r : Int) (s1 : State),
        gr_destroy ext fuel s gr = some (r, s1) → Quiet s s1) ∧
      (∀ (s : State) (gr : Nat) (r : Int) (s1 : State),
        gr_clear ext fuel s gr = some (r, s1) → Quiet s s1) := by
  intro fuel
  induction fuel with
  | zero =>
    exact ⟨fun s gr r s1 h => by simp [gr_destroy] at h, fun s gr r s1 h => by simp [gr_clear] at h⟩
  | succ n ih =>
    obtain ⟨ihd, ihc⟩ := ih
    constructor
    · intro s gr r s1 h
      by_cases hgr : gr = 0
      · subst hgr
        rw [gr_destroy_null] at h
        cases h
        exact quiet_refl s
      · cases hc : gr_clear ext n s gr with
        | none => simp [gr_destroy, hgr, hc] at h
        | some p =>
          obtain ⟨r0, s0⟩ := p
          cases hg : s0.heap gr with
          | none => simp [gr_destroy, hgr, hc, hg] at h
          | some g =>
            rw [gr_destroy_step ext n s s0 gr g r0 hgr hc hg] at h
            cases h
            exact quiet_trans (ihc s gr _ s0 hc)
              (quiet_store s0 gr none _ (fun _ _ _ h1 => by cases h1) (fun _ => rfl))
    · intro s gr r s1 h
      cases hg : s.heap gr with
      | none => simp [gr_clear, hg] at h
      | some g =>
        by_cases hch : g.chain = 0
        · rw [gr_clear_last ext n s gr g hg hch] at h
          exact clear_own_quiet ext gr 0 s r s1 h
        · by_cases hflag : s.destroy_chains_on_clear = 0
          · cases hc : gr_clear ext n s g.chain with
            | none =>
              rw [gr_clear] at h
              simp [hg, hch, hflag, hc] at h
            | some p =>
              obtain ⟨r0, s0⟩ := p
              rw [gr_clear_clearing ext n s s0 gr g r0 hg hch hflag hc] at h
              exact quiet_trans (ihc s _ r0 s0 hc) (clear_own_quiet ext gr _ s0 r s1 h)
          · cases hd : gr_destroy ext n s g.chain with
            | none =>
              rw [gr_clear] at h
              simp [hg, hch, hflag, hd] at h
            | some p =>
              obtain ⟨r0, s0⟩ := p
              rw [gr_clear_destroying ext n s s0 gr g r0 hg hch hflag hd] at h
              exact quiet_trans (ihd s _ r0 s0 hd)
                (quiet_trans (quiet_modify s0 gr (fun c => { c with chain := 0 }) (fun _ => ⟨rfl, rfl⟩))
                  (clear_own_quiet ext gr _ _ r s1 h))

/-! ## C11: direct destruction and the registry -/

theorem gr_get_heap (s : State) (c : Nat) (b : Nat) :
    (gr_get s c).2.heap b =
      if b = s.brk + 1 then some { fresh_link c with next := s.gr_List } else s.heap b := by
  simp only [gr_get, modify, gr_init, store_heap, if_true, Option.map_some', store]
  split <;> simp [fresh_link]

theorem gr_get_chain (s : State) (c : Nat) :
    Chain (gr_get s c).2.heap (s.brk + 1)
      [(s.brk + 1, { fresh_link c with next := s.gr_List })] :=
  ⟨rfl, by omega, by rw [gr_get_heap]; simp, rfl⟩

theorem finish_loop_freed (ext : Oracle) (fuel : Nat) (s : State) (cur : Nat) (ret : Int)
    (h0 : cur ≠ 0) (h : s.heap cur = none) : finish_loop ext fuel s cur ret = none := by
  cases fuel with
  | zero => rfl
  | succ n => simp [finish_loop, h0, h]

/-- If the pool after the head of the registry list has been freed, `gr_finish`
never returns a result: it reads the freed pool. -/
theorem gr_finish_second_freed (ext : Oracle) (fuel : Nat) (s : State) (g : genresource)
    (hl : s.gr_List ≠ 0) (hb : s.heap s.gr_List = some g) (ha0 : g.next ≠ 0)
    (hle : g.next ≤ s.brk) (ha : s.heap g.next = none) : gr_finish ext fuel s = none := by
  cases fuel with
  | zero => rfl
  | succ n =>
    simp only [gr_finish]
    rw [finish_loop]
    simp only [hl, if_false, hb]
    cases hd : gr_destroy ext n { s with destroy_chains_on_clear := 1, gr_List := 0 }
        s.gr_List with
    | none => rfl
    | some p =>
      obtain ⟨r, s1⟩ := p
      have hq := (clear_destroy_quiet ext n).1 _ _ _ _ hd
      have hfree : s1.heap g.next = none := hq.1.2.1 g.next hle ha
      simp only [zero_add]
      rw [finish_loop_freed ext n s1 g.next _ ha0 hfree]

theorem gr_finish_head_freed (ext : Oracle) (fuel : Nat) (s : State) (hl : s.gr_List ≠ 0)
    (hb : s.heap s.gr_List = none) : gr_finish ext fuel s = none := by
  simp only [gr_finish]
  rw [finish_loop_freed ext fuel { s with destroy_chains_on_clear := 1, gr_List := 0 }
    s.gr_List 0 hl hb]

/-- Two pools are acquired with `gr_get` and one of them is destroyed directly
with `gr_destroy`: the direct destruction returns and frees the pool, `gr_List`
and the older pool's place behind the newer one are as before, and `gr_finish`
then never returns a result, because it reads the freed pool. -/
theorem destroy_then_finish (ext ext2 : Oracle) (s0 : State) (c1 c2 fuel : Nat)
    (hf : 3 ≤ fuel) :
    (∃ r s3, gr_destroy ext fuel (gr_get (gr_get s0 c1).2 c2).2 (gr_get s0 c1).1 = some (r, s3) ∧
      s3.gr_List = (gr_get (gr_get s0 c1).2 c2).1 ∧ s3.heap (gr_get s0 c1).1 = none ∧
      (∃ g, s3.heap s3.gr_List = some g ∧ g.next = (gr_get s0 c1).1) ∧
      ∀ fuel2, gr_finish ext2 fuel2 s3 = none) ∧
    (∃ r s3, gr_destroy ext fuel (gr_get (gr_get s0 c1).2 c2).2 (gr_get (gr_get s0 c1).2 c2).1 =
        some (r, s3) ∧
      s3.gr_List = (gr_get (gr_get s0 c1).2 c2).1 ∧ s3.heap s3.gr_List = none ∧
      ∀ fuel2, gr_finish ext2 fuel2 s3 = none) := by
  have ha : (gr_get s0 c1).1 = s0.brk + 1 := rfl
  have hb : (gr_get (gr_get s0 c1).2 c2).1 = s0.brk + 2 := rfl
  have hbrk : (gr_get (gr_get s0 c1).2 c2).2.brk = s0.brk + 2 := rfl
  have hgl1 : (gr_get s0 c1).2.gr_List = s0.brk + 1 := rfl
  have hgl : (gr_get (gr_get s0 c1).2 c2).2.gr_List = s0.brk + 2 := rfl
  have hcellb : (gr_get (gr_get s0 c1).2 c2).2.heap (s0.brk + 2) =
      some { fresh_link c2 with next := s0.brk + 1 } := by
    rw [gr_get_heap]; simp [gr_get, gr_init, store, modify]
  have hcella : (gr_get (gr_get s0 c1).2 c2).2.heap (s0.brk + 1) =
      some { fresh_link c1 with next := s0.gr_List } := by
    rw [gr_get_heap, gr_get_heap]; simp [gr_get, gr_init, store, modify]
  have hchb : Chain (gr_get (gr_get s0 c1).2 c2).2.heap (s0.brk + 2)
      [(s0.brk + 2, { fresh_link c2 with next := s0.brk + 1 })] :=
    ⟨rfl, by omega, hcellb, rfl⟩
  have hcha : Chain (gr_get (gr_get s0 c1).2 c2).2.heap (s0.brk + 1)
      [(s0.brk + 1, { fresh_link c1 with next := s0.gr_List })] :=
    ⟨rfl, by omega, hcella, rfl⟩
  constructor
  · obtain ⟨r, s3, evs, d1, _, _, _, _, _, d6, _, _, d9, d10, d11, _⟩ :=
      gr_destroy_chain ext [] _ _ _ fuel hcha (by simp; omega)
    have hcb : s3.heap (s0.brk + 2) = some { fresh_link c2 with next := s0.brk + 1 } := by
      rw [d9 _ (by simp [addrs])]; exact hcellb
    rw [ha, hb]
    refine ⟨r, s3, d1, by rw [d11, hgl], d6, ⟨_, by rw [d11, hgl]; exact hcb, rfl⟩, ?_⟩
    intro fuel2
    exact gr_finish_second_freed ext2 fuel2 s3 _ (by rw [d11, hgl]; omega)
      (by rw [d11, hgl]; exact hcb) (by simp) (by simp [d10, hbrk]) d6
  · obtain ⟨r, s3, evs, d1, _, _, _, _, _, d6, _, _, d9, d10, d11, _⟩ :=
      gr_destroy_chain ext [] _ _ _ fuel hchb (by simp; omega)
    rw [hb]
    refine ⟨r, s3, d1, by rw [d11, hgl], by rw [d11, hgl]; exact d6, ?_⟩
    intro fuel2
    exact gr_finish_head_freed ext2 fuel2 s3 (by rw [d11, hgl]; omega)
      (by rw [d11, hgl]; exact d6)

/-- C11 as stated fails: two pools are acquired from the initial state (they get
the addresses 1 and 2) and the first is destroyed directly; afterwards the
registry still leads to the destroyed pool (`gr_List` is pool 2, whose `next`
is the freed pool 1), and `gr_finish` does not destroy just the remaining pool:
for no amount of fuel does it return a result, because it reads pool 1 again. -/
theorem gr_destroy_leaves_pool_registered :
    ∃ r s3, gr_destroy two_ext 3 (gr_get (gr_get init_state 2).2 3).2 1 = some (r, s3) ∧
      s3.gr_List = 2 ∧ s3.heap 1 = none ∧ (∃ g, s3.heap s3.gr_List = some g ∧ g.next = 1) ∧
      ∀ fuel2, gr_finish two_ext fuel2 s3 = none :=
  (destroy_then_finish two_ext two_ext init_state 2 3 3 (by decide)).1

/-- C11 amended: `gr_destroy` writes neither `gr_List` nor the `next` link of a
pool that stays allocated, so a pool obtained with `gr_get` is still in the
registry list after it has been destroyed directly; and when none of the
registered pools has been destroyed directly, `gr_finish` destroys each of them
once: after acquiring two pools, it frees the newer one, then the older one,
and leaves the registry empty. -/
theorem gr_destroy_leaves_registry (ext : Oracle) :
    (∀ (fuel : Nat) (s : State) (gr : Nat) (r : Int) (s1 : State),
      gr_destroy ext fuel s gr = some (r, s1) →
      s1.gr_List = s.gr_List ∧
      ∀ a g g1, a ≤ s.brk → s.heap a = some g → s1.heap a = some g1 → g1.next = g.next) ∧
    (∀ (s0 : State) (c1 c2 fuel : Nat), s0.gr_List = 0 → 8 ≤ fuel →
      ∃ r s3 evs, gr_finish ext fuel (gr_get (gr_get s0 c1).2 c2).2 = some (r, s3) ∧
        s3.trace = s0.trace ++ evs ∧
        freed_pools evs = [(gr_get (gr_get s0 c1).2 c2).1, (gr_get s0 c1).1] ∧
        s3.heap (gr_get s0 c1).1 = none ∧ s3.heap (gr_get (gr_get s0 c1).2 c2).1 = none ∧
        s3.gr_List = 0) := by
  constructor
  · intro fuel s gr r s1 h
    obtain ⟨⟨_, _, q3⟩, _, q5⟩ := (clear_destroy_quiet ext fuel).1 s gr r s1 h
    exact ⟨q5, fun a g g1 ha hg hg1 => (q3 a g g1 ha hg hg1).2⟩
  · intro s0 c1 c2 fuel h0 hf
    have hcellb : (gr_get (gr_get s0 c1).2 c2).2.heap (s0.brk + 2) =
        some { fresh_link c2 with next := s0.brk + 1 } := by
      rw [gr_get_heap]; simp [gr_get, gr_init, store, modify]
    have hcella : (gr_get (gr_get s0 c1).2 c2).2.heap (s0.brk + 1) =
        some { fresh_link c1 with next := s0.gr_List } := by
      rw [gr_get_heap, gr_get_heap]; simp [gr_get, gr_init, store, modify]
    have hreg : Registry (gr_get (gr_get s0 c1).2 c2).2
        [[(s0.brk + 2, { fresh_link c2 with next := s0.brk + 1 })],
         [(s0.brk + 1, { fresh_link c1 with next := s0.gr_List })]] := by
      refine ⟨⟨⟨rfl, Nat.succ_ne_zero _, hcellb, rfl⟩,
        ⟨rfl, Nat.succ_ne_zero _, hcella, rfl⟩, h0⟩, ?_, ?_⟩
      · simp [all_links, addrs]
      · intro x hx
        have hbrk : (gr_get (gr_get s0 c1).2 c2).2.brk = s0.brk + 2 := rfl
        simp only [all_links, List.append_nil, List.singleton_append, List.mem_cons,
          List.mem_singleton, List.not_mem_nil, or_false] at hx
        rcases hx with rfl | rfl
        · rw [hbrk]
        · rw [hbrk]; simp
    obtain ⟨s3, parts, f1, f2, f3, _, f5, _, _, f8, _⟩ :=
      gr_finish_spec ext _ _ fuel hreg (by simpa [all_links] using hf)
    cases f3 with
    | cons hp1 t =>
      cases t with
      | cons hp2 t2 =>
        cases t2
        refine ⟨_, s3, _, f1, f2, ?_, f5 _ (by simp [all_links, addrs]; right; rfl),
          f5 _ (by simp [all_links, addrs]; left; rfl), f8⟩
        simp only [flat, List.append_nil, freed_pools_append, hp1.2.1, hp2.2.1]
        simp [addrs]
        exact ⟨rfl, rfl⟩

/-- C11 amended, at the initial state with capacities 2 and 3. -/
theorem gr_destroy_leaves_registry_witness :
    ∃ r s3 evs, gr_finish two_ext 8 (gr_get (gr_get init_state 2).2 3).2 = some (r, s3) ∧
      s3.trace = init_state.trace ++ evs ∧
      freed_pools evs = [(gr_get (gr_get init_state 2).2 3).1, (gr_get init_state 2).1] ∧
      s3.heap (gr_get init_state 2).1 = none ∧
      s3.heap (gr_get (gr_get init_state 2).2 3).1 = none ∧ s3.gr_List = 0 :=
  (gr_destroy_leaves_registry two_ext).2 init_state 2 3 8 rfl (by decide)

/-! ## C12: `gr_stats` -/

theorem gr_printstats_chain :
    ∀ (ls : List (Nat × genresource)) (x : Nat × genresource) (s : State) (a fuel : Nat),
      Chain s.heap a (x :: ls) → ls.length + 1 ≤ fuel →
      gr_printstats fuel s a =
        some { s with trace := s.trace ++
          (x :: ls).map (fun y => Event.stats y.2.num y.2.max) } := by
  intro ls
  induction ls with
  | nil =>
    intro x s a fuel hc hf
    obtain ⟨n, rfl⟩ : ∃ n, fuel = n + 1 := ⟨fuel - 1, by omega⟩
    obtain ⟨_, _, hha, htl⟩ := hc
    have hch : x.2.chain = 0 := htl
    simp [gr_printstats, hha, hch]
  | cons y ls ih =>
    intro x s a fuel hc hf
    obtain ⟨n, rfl⟩ : ∃ n, fuel = n + 1 := ⟨fuel - 1, by omega⟩
    obtain ⟨_, _, hha, htl⟩ := hc
    have hch : x.2.chain ≠ 0 := htl.2.1
    rw [gr_printstats]
    simp only [hha, hch, ne_eq, not_false_eq_true, if_true]
    have hrec := ih y { s with trace := s.trace ++ [Event.stats x.2.num x.2.max] } x.2.chain n
      htl (by simp at hf ⊢; omega)
    rw [hrec]
    simp

/-- What `gr_stats` prints when the `next` links lead from `cur` through the
pools with chains `cs`. -/
theorem stats_loop_spec :
    ∀ (cs : List (List (Nat × genresource))) (s : State) (cur fuel : Nat),
      RegList s.heap cur cs → cs.length + (all_links cs).length + 1 ≤ fuel →
      stats_loop fuel s cur = some { s with trace := s.trace ++ report cs } := by
  intro cs
  induction cs with
  | nil =>
    intro s cur fuel hr hf
    obtain ⟨n, rfl⟩ : ∃ n, fuel = n + 1 := ⟨fuel - 1, by omega⟩
    have hcur : cur = 0 := hr
    simp [stats_loop, hcur, report]
  | cons c cs ih =>
    intro s cur fuel hr hf
    cases c with
    | nil => exact hr.elim
    | cons x l =>
      obtain ⟨n, rfl⟩ : ∃ n, fuel = n + 1 := ⟨fuel - 1, by omega⟩
      obtain ⟨hc, hrest⟩ := hr
      have hlen : (all_links ((x :: l) :: cs)).length = l.length + 1 + (all_links cs).length := by
        simp [all_links]; omega
      have hcur0 : cur ≠ 0 := hc.2.1
      have hcell : s.heap cur = some x.2 := hc.2.2.1
      rw [stats_loop]
      simp only [hcur0, if_false]
      rw [gr_printstats_chain l x s cur n hc (by simp only [List.length_cons] at hf; omega)]
      simp only [hcell]
      have hrec := ih
        { s with trace := s.trace ++ (x :: l).map (fun y => Event.stats y.2.num y.2.max) ++
            [Event.line] } x.2.next n hrest (by simp only [List.length_cons] at hf; omega)
      rw [hrec]
      simp [report]

theorem records_report (cs : List (List (Nat × genresource))) :
    records (report cs) = (all_links cs).map (fun y => (y.2.num, y.2.max)) := by
  induction cs with
  | nil => rfl
  | cons c cs ih =>
    have h1 : ∀ l : List (Nat × genresource),
        records (l.map (fun y => Event.stats y.2.num y.2.max)) =
          l.map (fun y => (y.2.num, y.2.max)) := by
      intro l
      induction l with
      | nil => rfl
      | cons y l ihl =>
        simp only [records, List.map_cons, List.filterMap_cons, record_of] at ihl ⊢
        rw [ihl]
    have h2 : records (report (c :: cs)) =
        records (c.map (fun y => Event.stats y.2.num y.2.max)) ++ records (report cs) := by
      simp [records, report, record_of]
    rw [h2, h1, ih]
    simp [all_links]

/-- C12 as stated fails: in `stats_state` the pool at address 2 has no chain,
and `gr_stats(pool 2)` prints two records, its own (1/2) and that of the pool
at address 1 (2/4), which follows it in the registry. -/
theorem gr_stats_reports_later_pools :
    (gr_stats 4 stats_state 2).map (fun s1 => records s1.trace) = some [(1, 2), (2, 4)] ∧
    (stats_state.heap 2).map (fun g => (g.num, g.max, g.chain)) = some (1, 2, 0) := by
  decide

/-- C12 amended: `gr_stats(pool)` on a non-null pool returns and prints the
record of that pool and of each link of its chain, in chain order, and then
the same for every pool that follows it through the `next` links (`cs` being
the pools from `pool` on: the pool alone when its `next` is null);
`gr_stats(NULL)` does this from `gr_List`, so it prints, for every pool of the
registry in registry order, the pool's record followed by its chain links'. -/
theorem gr_stats_reports_from_pool (s : State) (gr : Nat)
    (cs : List (List (Nat × genresource))) (fuel : Nat)
    (hr : RegList s.heap (if gr = 0 then s.gr_List else gr) cs)
    (hf : cs.length + (all_links cs).length + 1 ≤ fuel) :
    ∃ s1, gr_stats fuel s gr = some s1 ∧ s1.trace = s.trace ++ report cs ∧
      records (report cs) = (all_links cs).map (fun y => (y.2.num, y.2.max)) ∧
      s1.heap = s.heap ∧ s1.gr_List = s.gr_List := by
  refine ⟨_, stats_loop_spec cs s _ fuel hr hf, rfl, records_report cs, rfl, rfl⟩

/-- C12 amended, in `stats_state`: from pool 2 and from `NULL` both registered
pools are reported, from pool 1 (whose `next` is null) only pool 1. -/
theorem gr_stats_reports_from_pool_witness :
    (∃ s1, gr_stats 5 stats_state 2 = some s1 ∧
      s1.trace = stats_state.trace ++ report stats_pools ∧
      records (report stats_pools) = (all_links stats_pools).map (fun y => (y.2.num, y.2.max)) ∧
      s1.heap = stats_state.heap ∧ s1.gr_List = stats_state.gr_List) ∧
    (∃ s1, gr_stats 5 stats_state 0 = some s1 ∧
      s1.trace = stats_state.trace ++ report stats_pools ∧
      records (report stats_pools) = (all_links stats_pools).map (fun y => (y.2.num, y.2.max)) ∧
      s1.heap = stats_state.heap ∧ s1.gr_List = stats_state.gr_List) ∧
    (∃ s1, gr_stats 5 stats_state 1 = some s1 ∧
      s1.trace = stats_state.trace ++ report (stats_pools.drop 1) ∧
      records (report (stats_pools.drop 1)) =
        (all_links (stats_pools.drop 1)).map (fun y => (y.2.num, y.2.max)) ∧
      s1.heap = stats_state.heap ∧ s1.gr_List = stats_state.gr_List) :=
  ⟨gr_stats_reports_from_pool stats_state 2 stats_pools 5
     ⟨⟨rfl, by decide, rfl, rfl⟩, ⟨rfl, by decide, rfl, rfl⟩, rfl⟩ (by decide),
   gr_stats_reports_from_pool stats_state 0 stats_pools 5
     ⟨⟨rfl, by decide, rfl, rfl⟩, ⟨rfl, by decide, rfl, rfl⟩, rfl⟩ (by decide),
   gr_stats_reports_from_pool stats_state 1 (stats_pools.drop 1) 5
     ⟨⟨rfl, by decide, rfl, rfl⟩, rfl⟩ (by decide)⟩

/-! ## C20: the clear-chain flag -/

theorem gr_malloc_quiet (fuel : Nat) (s : State) (gr r : Nat) (t : Nat) (s1 : State)
    (h : gr_malloc fuel s gr r = some (t, s1)) : Quiet s s1 := by
  cases hg : s.heap gr with
  | none => simp [gr_malloc, hg] at h
  | some g =>
    by_cases hr : r = 0
    · simp only [gr_malloc, hg, hr, if_true] at h
      cases h
      exact quiet_refl s
    · cases ht : gr_track fuel s gr r 0 with
      | none => simp [gr_malloc, hg, hr, ht] at h
      | some p =>
        obtain ⟨t1, s2⟩ := p
        obtain ⟨q1, q2, _⟩ := gr_track_quiet fuel s gr r 0 t1 s2 ht
        subst q2
        simp only [gr_malloc, hg, hr, if_false, ht] at h
        simp at h
        rw [← h.2]
        exact q1

theorem finish_loop_quiet (ext : Oracle) :
    ∀ (fuel : Nat) (s : State) (cur : Nat) (ret r : Int) (s1 : State),
      finish_loop ext fuel s cur ret = some (r, s1) → Quiet s s1 := by
  intro fuel
  induction fuel with
  | zero => intro s cur ret r s1 h; simp [finish_loop] at h
  | succ n ih =>
    intro s cur ret r s1 h
    by_cases hcur : cur = 0
    · simp only [finish_loop, hcur, if_true] at h
      cases h
      exact quiet_refl s
    · cases hg : s.heap cur with
      | none => simp [finish_loop, hcur, hg] at h
      | some g =>
        cases hd : gr_destroy ext n s cur with
        | none => simp [finish_loop, hcur, hg, hd] at h
        | some p =>
          obtain ⟨r0, s0⟩ := p
          simp only [finish_loop, hcur, if_false, hg, hd] at h
          exact quiet_trans ((clear_destroy_quiet ext n).1 s cur r0 s0 hd) (ih _ _ _ _ _ h)

/-- Whenever `gr_finish` returns, the step is `Stable`, the flag
`destroy_chains_on_clear` has the value it had on entry and `gr_List` is null. -/
theorem gr_finish_stable (ext : Oracle) (fuel : Nat) (s : State) (r : Int) (s1 : State)
    (h : gr_finish ext fuel s = some (r, s1)) :
    Stable s s1 ∧ s1.destroy_chains_on_clear = s.destroy_chains_on_clear ∧ s1.gr_List = 0 := by
  cases hl : finish_loop ext fuel { s with destroy_chains_on_clear := 1, gr_List := 0 }
      s.gr_List 0 with
  | none => simp [gr_finish, hl] at h
  | some p =>
    obtain ⟨r0, s0⟩ := p
    have hq := finish_loop_quiet ext fuel _ _ _ _ _ hl
    simp only [gr_finish, hl] at h
    cases h
    exact ⟨hq.1, rfl, hq.2.2⟩

theorem gr_printstats_quiet :
    ∀ (fuel : Nat) (s : State) (gr : Nat) (s1 : State),
      gr_printstats fuel s gr = some s1 → Quiet s s1 ∧ s1.heap = s.heap := by
  intro fuel
  induction fuel with
  | zero => intro s gr s1 h; simp [gr_printstats] at h
  | succ n ih =>
    intro s gr s1 h
    cases hg : s.heap gr with
    | none => simp [gr_printstats, hg] at h
    | some g =>
      by_cases hch : g.chain = 0
      · simp only [gr_printstats, hg, hch, ne_eq, not_true, if_false] at h
        cases h
        exact ⟨quiet_trace s _, rfl⟩
      · simp only [gr_printstats, hg, hch, ne_eq, not_false_eq_true, if_true] at h
        obtain ⟨q1, q2⟩ := ih _ _ _ h
        exact ⟨quiet_trans (quiet_trace s _) q1, by rw [q2]⟩

theorem stats_loop_quiet :
    ∀ (fuel : Nat) (s : State) (cur : Nat) (s1 : State),
      stats_loop fuel s cur = some s1 → Quiet s s1 ∧ s1.heap = s.heap := by
  intro fuel
  induction fuel with
  | zero => intro s cur s1 h; simp [stats_loop] at h
  | succ n ih =>
    intro s cur s1 h
    by_cases hcur : cur = 0
    · simp only [stats_loop, hcur, if_true] at h
      cases h
      exact ⟨quiet_refl s, rfl⟩
    · cases hp : gr_printstats n s cur with
      | none => simp [stats_loop, hcur, hp] at h
      | some s0 =>
        obtain ⟨p1, p2⟩ := gr_printstats_quiet n s cur s0 hp
        cases hg : s0.heap cur with
        | none => simp [stats_loop, hcur, hp, hg] at h
        | some g =>
          simp only [stats_loop, hcur, if_false, hp, hg] at h
          obtain ⟨q1, q2⟩ := ih _ _ _ h
          exact ⟨quiet_trans p1 (quiet_trans (quiet_trace s0 _) q1), by rw [q2]; exact p2⟩

theorem gr_iter_next_quiet (ext : Oracle) :
    ∀ (fuel : Nat) (s : State) (it : iterator_context) (d : Nat)
      (it1 : Option iterator_context) (s1 : State),
      gr_iter_next ext fuel s it = some (d, it1, s1) → Quiet s s1 ∧ s1.heap = s.heap := by
  intro fuel
  induction fuel with
  | zero => intro s it d it1 s1 h; simp [gr_iter_next] at h
  | succ n ih =>
    intro s it d it1 s1 h
    cases it with
    | mk gr cur f =>
      by_cases hgr : gr = 0
      · subst hgr
        rw [iter_next_null] at h
        cases h
        exact ⟨quiet_refl s, rfl⟩
      · cases hg : s.heap gr with
        | none => simp [gr_iter_next, hgr, hg] at h
        | some g =>
          by_cases hlt : cur < g.num
          · by_cases hf : f = 0
            · subst hf
              rw [iter_next_all ext n s gr cur g hgr hg hlt] at h
              cases h
              exact ⟨quiet_refl s, rfl⟩
            · by_cases hr : ext f (g.ptrs.getD cur ⟨0, 0⟩).data s.trace = 0
              · rw [iter_next_skip ext n s gr cur f g hgr hg hlt hf hr] at h
                obtain ⟨q1, q2⟩ := ih _ _ _ _ _ h
                exact ⟨quiet_trans (quiet_trace s _) q1, by rw [q2]⟩
              · rw [iter_next_hit ext n s gr cur f g hgr hg hlt hf hr] at h
                cases h
                exact ⟨quiet_trace s _, rfl⟩
          · rw [iter_next_chain ext n s gr cur f g hgr hg hlt] at h
            exact ih _ _ _ _ _ h

theorem stable_gr_get (s : State) (c : Nat) :
    Stable s (gr_get s c).2 ∧
      (gr_get s c).2.destroy_chains_on_clear = s.destroy_chains_on_clear := by
  refine ⟨⟨Nat.le_succ _, ?_, ?_⟩, rfl⟩
  · intro b hb h
    have hne : b ≠ s.brk + 1 := by omega
    rw [gr_get_heap]; simp [hne, h]
  · intro b g g1 hb h h1
    have hne : b ≠ s.brk + 1 := by omega
    rw [gr_get_heap] at h1
    simp only [hne, if_false] at h1
    rw [h] at h1; cases h1; exact ⟨rfl, rfl⟩

/-- Every operation of the public interface is `Stable` and leaves the flag
`destroy_chains_on_clear` as it finds it. -/
theorem step_stable (ext : Oracle) (fuel : Nat) (s s1 : State) (op : Op)
    (h : step ext fuel s op = some s1) :
    Stable s s1 ∧ s1.destroy_chains_on_clear = s.destroy_chains_on_clear := by
  cases op with
  | init max =>
    simp only [step, Option.some.injEq] at h
    subst h
    exact ⟨(quiet_gr_init s max).1, rfl⟩
  | get max =>
    simp only [step, Option.some.injEq] at h
    subst h
    exact stable_gr_get s max
  | track gr ptr ff =>
    cases ht : gr_track fuel s gr ptr ff with
    | none => simp [step, ht] at h
    | some p =>
      simp only [step, ht, Option.map_some', Option.some.injEq] at h
      subst h
      have := (gr_track_quiet fuel s gr ptr ff p.1 p.2 ht).1
      exact ⟨this.1, this.2.1⟩
  | malloc gr r =>
    cases ht : gr_malloc fuel s gr r with
    | none => simp [step, ht] at h
    | some p =>
      simp only [step, ht, Option.map_some', Option.some.injEq] at h
      subst h
      have := gr_malloc_quiet fuel s gr r p.1 p.2 ht
      exact ⟨this.1, this.2.1⟩
  | clear gr =>
    cases ht : gr_clear ext fuel s gr with
    | none => simp [step, ht] at h
    | some p =>
      simp only [step, ht, Option.map_some', Option.some.injEq] at h
      subst h
      have := (clear_destroy_quiet ext fuel).2 s gr p.1 p.2 ht
      exact ⟨this.1, this.2.1⟩
  | destroy gr =>
    cases ht : gr_destroy ext fuel s gr with
    | none => simp [step, ht] at h
    | some p =>
      simp only [step, ht, Option.map_some', Option.some.injEq] at h
      subst h
      have := (clear_destroy_quiet ext fuel).1 s gr p.1 p.2 ht
      exact ⟨this.1, this.2.1⟩
  | finish =>
    cases ht : gr_finish ext fuel s with
    | none => simp [step, ht] at h
    | some p =>
      simp only [step, ht, Option.map_some', Option.some.injEq] at h
      subst h
      have := gr_finish_stable ext fuel s p.1 p.2 ht
      exact ⟨this.1, this.2.1⟩
  | stats gr =>
    have := (stats_loop_quiet fuel s _ s1 h).1
    exact ⟨this.1, this.2.1⟩
  | iter_start gr f =>
    simp only [step, Option.some.injEq] at h
    subst h
    exact ⟨stable_refl s, rfl⟩
  | iter_next it =>
    cases ht : gr_iter_next ext fuel s it with
    | none => simp [step, ht] at h
    | some p =>
      simp only [step, ht, Option.map_some', Option.some.injEq] at h
      subst h
      have := (gr_iter_next_quiet ext fuel s it p.1 p.2.1 p.2.2 ht).1
      exact ⟨this.1, this.2.1⟩

/-- C20: every operation of the public interface that returns leaves
`destroy_chains_on_clear` with the value it had on entry (`gr_finish` sets it
and restores it, no other operation writes it), so in every state reachable
from the initial state the flag is 1. -/
theorem flag_is_invariant :
    (∀ (ext : Oracle) (fuel : Nat) (s s1 : State) (op : Op),
      step ext fuel s op = some s1 →
      s1.destroy_chains_on_clear = s.destroy_chains_on_clear) ∧
    (∀ s, Reachable s → s.destroy_chains_on_clear = 1) := by
  refine ⟨fun ext fuel s s1 op h => (step_stable ext fuel s s1 op h).2, ?_⟩
  intro s hs
  induction hs with
  | start => rfl
  | next s s1 ext fuel op _ hstep ih => rw [(step_stable ext fuel s s1 op hstep).2, ih]

/-- C20 at a concrete run: acquiring a pool and then calling `gr_finish`, from
the initial state, returns and leaves the flag at 1. -/
theorem flag_is_invariant_witness :
    ∃ s1, step two_ext 4 (gr_get init_state 2).2 Op.finish = some s1 ∧
      s1.destroy_chains_on_clear = (gr_get init_state 2).2.destroy_chains_on_clear ∧
      s1.destroy_chains_on_clear = 1 :=
  ⟨_, rfl, flag_is_invariant.1 two_ext 4 (gr_get init_state 2).2 _ Op.finish rfl,
    flag_is_invariant.2 _
      (Reachable.next (gr_get init_state 2).2 _ two_ext 4 Op.finish
        (Reachable.next init_state _ two_ext 0 (Op.get 2) Reachable.start rfl) rfl)⟩

/-! ## C13, C14: `gr_malloc`, `gr_init`, `gr_get` -/

theorem trackL_linkOk (fresh : Nat) (e : resource_t) :
    ∀ ls : List (Nat × genresource), (∀ x ∈ ls, LinkOk x.2) →
      ∀ x ∈ trackL fresh e ls, LinkOk x.2 := by
  intro ls
  induction ls with
  | nil => intro _ x hx; simp [trackL] at hx
  | cons y ls ih =>
    intro hok x hx
    have hy : LinkOk y.2 := hok y (List.mem_cons_self _ _)
    by_cases hfull : y.2.num = y.2.max
    · cases ls with
      | nil =>
        rw [trackL_new _ _ _ hfull] at hx
        simp only [List.mem_cons, List.mem_singleton, List.not_mem_nil, or_false] at hx
        rcases hx with rfl | rfl
        · exact hy
        · exact linkOk_put _ _ (linkOk_fresh _) (fresh_link_not_full _)
      | cons z l =>
        rw [trackL_next _ _ _ _ _ hfull] at hx
        simp only [List.mem_cons] at hx
        rcases hx with rfl | hx
        · exact hy
        · exact ih (fun w hw => hok w (List.mem_cons_of_mem _ hw)) x
            (by simpa only [List.mem_cons] using hx)
    · rw [trackL_put _ _ _ _ hfull] at hx
      simp only [List.mem_cons] at hx
      rcases hx with rfl | hx
      · exact linkOk_put _ _ hy hfull
      · exact hok x (List.mem_cons_of_mem _ hx)

/-- One `gr_track` on a well-formed pool: it returns 1, the pool stays
well-formed, and on a packed chain the entry is appended to the entries. -/
theorem gr_track_pool (e : resource_t) (s : State) (a : Nat) (ls : List (Nat × genresource))
    (fuel : Nat) (hp : Pool s a ls) (hf : ls.length < fuel) :
    ∃ s1, gr_track fuel s a e.data e.ff = some (1, s1) ∧
      Pool s1 a (trackL (s.brk + 1) e ls) ∧
      (Packed ls → Packed (trackL (s.brk + 1) e ls) ∧
        entries (trackL (s.brk + 1) e ls) = entries ls ++ [e]) ∧
      s1.trace = s.trace := by
  obtain ⟨hc, hne, hok⟩ := hp
  obtain ⟨s1, h1, h2, _, h4, _, _, h7⟩ :=
    gr_track_chain e ls s a fuel hc hne (fun x hx => (hok x hx).1) hf
  have hbnd := trackL_bound e s.brk ls hne (fun x hx => (hok x hx).1)
  have hlk := trackL_linkOk (s.brk + 1) e ls (fun x hx => (hok x hx).2)
  refine ⟨s1, h1, ⟨h2, trackL_ne_nil _ _ _ hne, fun x hx => ⟨by rw [h4]; exact hbnd x hx,
    hlk x hx⟩⟩, ?_, h7⟩
  intro hpk
  obtain ⟨t1, _, t3⟩ := trackL_entries (s.brk + 1) e ls hne (fun x hx => (hok x hx).2) hpk
  exact ⟨t3, t1⟩

/-- C13: on a well-formed pool whose chain is packed, `gr_malloc` returns; when
the allocation succeeded (`r ≠ 0` is the block `calloc` returned) it returns
the block, and the pool with its chain holds its previous entries followed by
the entry (block, no release function); when the allocation failed (`r = 0`)
it returns `NULL` and the state is unchanged. -/
theorem gr_malloc_tracks_block (s : State) (gr : Nat) (ls : List (Nat × genresource))
    (r fuel : Nat) (hp : Pool s gr ls) (hpk : Packed ls) (hf : ls.length < fuel) :
    (r ≠ 0 → ∃ s1 ls1, gr_malloc fuel s gr r = some (r, s1) ∧ Pool s1 gr ls1 ∧ Packed ls1 ∧
      entries ls1 = entries ls ++ [⟨r, 0⟩]) ∧
    (r = 0 → gr_malloc fuel s gr r = some (0, s)) := by
  have hcell : ∃ g, s.heap gr = some g := by
    obtain ⟨hc, hne, _⟩ := hp
    cases ls with
    | nil => exact absurd rfl hne
    | cons x l => exact ⟨x.2, hc.2.2.1⟩
  obtain ⟨g, hg⟩ := hcell
  constructor
  · intro hr
    obtain ⟨s1, h1, h2, h3, _⟩ := gr_track_pool ⟨r, 0⟩ s gr ls fuel hp hf
    obtain ⟨h4, h5⟩ := h3 hpk
    refine ⟨s1, _, ?_, h2, h4, h5⟩
    simp only [gr_malloc, hg, hr, if_false, h1]
    simp
  · intro hr
    simp [gr_malloc, hg, hr]

/-- C13 at the pool of `demo_state`: a block at address 77, and a failed
allocation. -/
theorem gr_malloc_tracks_block_witness :
    (∃ s1 ls1, gr_malloc 3 demo_state 1 77 = some (77, s1) ∧ Pool s1 1 ls1 ∧ Packed ls1 ∧
      entries ls1 = entries demo_links ++ [⟨77, 0⟩]) ∧
    gr_malloc 3 demo_state 1 0 = some (0, demo_state) :=
  ⟨(gr_malloc_tracks_block demo_state 1 demo_links 77 3 demo_pool
      ⟨Or.inl rfl, Or.inr (by simp), trivial⟩ (by decide)).1 (by decide),
   (gr_malloc_tracks_block demo_state 1 demo_links 0 3 demo_pool
      ⟨Or.inl rfl, Or.inr (by simp), trivial⟩ (by decide)).2 rfl⟩

/-- C14: `gr_init(c)` returns a non-null pool with count 0, no chain, no
registry link and a zeroed table, of capacity `c` when `c > 0` and 32 when
`c = 0`, and leaves `gr_List` and the other pools alone; `gr_get(c)` returns a
pool of the same shape whose `next` is the old `gr_List`, makes it the new
`gr_List`, and so puts it in the registry in front of the pools acquired
earlier. -/
theorem gr_init_get_shape (s : State) (c : Nat) :
    ((gr_init s c).1 ≠ 0 ∧
      (gr_init s c).2.heap (gr_init s c).1 =
        some { ptrs := List.replicate (if c = 0 then 32 else c) ⟨0, 0⟩, num := 0,
               max := if c = 0 then 32 else c, next := 0, chain := 0 } ∧
      (gr_init s c).2.gr_List = s.gr_List ∧
      ∀ b, b ≠ (gr_init s c).1 → (gr_init s c).2.heap b = s.heap b) ∧
    ((gr_get s c).1 ≠ 0 ∧
      (gr_get s c).2.heap (gr_get s c).1 =
        some { ptrs := List.replicate (if c = 0 then 32 else c) ⟨0, 0⟩, num := 0,
               max := if c = 0 then 32 else c, next := s.gr_List, chain := 0 } ∧
      (gr_get s c).2.gr_List = (gr_get s c).1 ∧
      (∀ b, b ≠ (gr_get s c).1 → (gr_get s c).2.heap b = s.heap b) ∧
      ∀ cs, Registry s cs →
        Registry (gr_get s c).2
          ([((gr_get s c).1,
            { ptrs := List.replicate (if c = 0 then 32 else c) ⟨0, 0⟩, num := 0,
              max := if c = 0 then 32 else c, next := s.gr_List, chain := 0 })] :: cs)) := by
  have hcell : (gr_get s c).2.heap (s.brk + 1) =
      some { ptrs := List.replicate (if c = 0 then 32 else c) ⟨0, 0⟩, num := 0,
             max := if c = 0 then 32 else c, next := s.gr_List, chain := 0 } := by
    rw [gr_get_heap]; simp [fresh_link]
  refine ⟨⟨Nat.succ_ne_zero _, by simp [gr_init, store_heap], rfl, ?_⟩,
    ⟨Nat.succ_ne_zero _, hcell, rfl, ?_, ?_⟩⟩
  · intro b hb
    have hb1 : b ≠ s.brk + 1 := hb
    simp [gr_init, store_heap, hb1]
  · intro b hb
    have hb1 : b ≠ s.brk + 1 := hb
    rw [gr_get_heap]; simp [hb1]
  · intro cs hr
    obtain ⟨r1, r2, r3⟩ := hr
    have hold : ∀ b ∈ addrs (all_links cs), b ≤ s.brk := by
      intro b hb
      simp only [addrs, List.mem_map] at hb
      obtain ⟨z, hz, rfl⟩ := hb
      exact r3 z hz
    refine ⟨⟨⟨rfl, Nat.succ_ne_zero _, hcell, rfl⟩, ?_⟩, ?_, ?_⟩
    · refine regList_frame cs _ r1 (fun b hb => ?_)
      have := hold b hb
      rw [gr_get_heap]
      have hne : b ≠ s.brk + 1 := by omega
      simp [hne]
    · have hsplit : ∀ (x : Nat × genresource),
          addrs (all_links ([x] :: cs)) = x.1 :: addrs (all_links cs) := by
        intro x; simp [all_links, addrs]
      rw [hsplit]
      refine List.nodup_cons.mpr ⟨fun hmem => ?_, r2⟩
      have := hold _ hmem
      have h1 : (gr_get s c).1 = s.brk + 1 := rfl
      simp only [h1] at this
      omega
    · intro z hz
      have hbrk : (gr_get s c).2.brk = s.brk + 1 := rfl
      simp only [all_links, List.singleton_append, List.mem_cons] at hz
      rcases hz with rfl | hz
      · rw [hbrk]; exact le_refl _
      · have := r3 z hz
        rw [hbrk]; omega

/-- C14 at the initial state, with capacities 0 and 5. -/
theorem gr_init_get_shape_witness :
    (gr_init init_state 0).2.heap (gr_init init_state 0).1 =
        some { ptrs := List.replicate 32 ⟨0, 0⟩, num := 0, max := 32, next := 0, chain := 0 } ∧
    Registry (gr_get init_state 5).2
      ([((gr_get init_state 5).1,
        { ptrs := List.replicate (if 5 = 0 then 32 else 5) ⟨0, 0⟩, num := 0,
          max := if 5 = 0 then 32 else 5, next := init_state.gr_List, chain := 0 })] :: []) :=
  ⟨(gr_init_get_shape init_state 0).1.2.1,
   (gr_init_get_shape init_state 5).2.2.2.2.2 []
     ⟨rfl, by simp [all_links, addrs], by simp [all_links]⟩⟩

/-! ## C15: the sign of the aggregate -/

/-- When no release function answers a negative value, the sum of the answers
is not negative, and it is 0 exactly when no call reported failure. -/
theorem sum_rets_nonneg (ext : Oracle) (hpos : ∀ f d tr, 0 ≤ ext f d tr) :
    ∀ (evs tr : List Event), Answers ext tr evs →
      0 ≤ sum_rets evs ∧ (sum_rets evs = 0 ↔ failures evs = 0) := by
  intro evs
  induction evs with
  | nil => intro tr _; exact ⟨le_refl _, by simp [sum_rets, failures]⟩
  | cons ev evs ih =>
    intro tr h
    obtain ⟨h1, h2⟩ := ih _ h.2
    have hs : sum_rets (ev :: evs) = ret_of ev + sum_rets evs := by simp [sum_rets]
    have hf : failures (ev :: evs) = (if ret_of ev ≠ 0 then 1 else 0) + failures evs := by
      simp only [failures, List.filter_cons]
      split <;> simp_all
      omega
    have hr : 0 ≤ ret_of ev := by
      cases ev with
      | call f d r =>
        obtain ⟨_, _, hr⟩ := h.1 f d r rfl
        simp only [ret_of, hr]; exact hpos f d tr
      | free_data d => simp [ret_of]
      | free_ptrs a => simp [ret_of]
      | free_gr a => simp [ret_of]
      | test f d r => simp [ret_of]
      | stats a b => simp [ret_of]
      | line => simp [ret_of]
    rw [hs, hf]
    refine ⟨by omega, ?_⟩
    by_cases h0 : ret_of ev = 0
    · simp only [h0, ne_eq, not_true, if_false, zero_add]; exact h2
    · simp only [h0, ne_eq, not_false_eq_true, if_true]
      constructor
      · intro hsum; omega
      · intro hfail; omega

theorem sum_rets_flat (parts : List (List Event)) :
    sum_rets (flat parts) = (parts.map sum_rets).sum := by
  induction parts with
  | nil => rfl
  | cons p ps ih => simp only [flat, sum_rets_append, List.map_cons, List.sum_cons, ih]

/-- C15 as stated fails: with release functions that all report failure by
returning -1, `gr_clear` on the three entries of `three_state` returns -3; with
release functions that report failure by returning 1, -2 and 1 it returns 0
although three release functions reported failure. -/
theorem gr_clear_aggregate_can_be_negative :
    (gr_clear neg_ext 2 three_state 1).map (fun p => (p.1, failures p.2.trace)) =
      some (-3, 3) ∧
    (gr_clear cancel_ext 2 three_state 1).map (fun p => (p.1, failures p.2.trace)) =
      some (0, 3) := by
  decide

/-- C15 amended: when every release function returns zero on success and a
positive value on failure (gr.h: "Return >0 on failure"), and the values
returned sum to less than 2^31 so that the `int` aggregate is their exact sum,
the aggregate that `gr_clear` and `gr_destroy` return on a well-formed pool,
and that `gr_finish` returns on a well-formed registry, is not negative, and it
is 0 exactly when no release function call reported failure. -/
theorem aggregate_nonneg (ext : Oracle) (hpos : ∀ f d tr, 0 ≤ ext f d tr) :
    (∀ (s : State) (gr : Nat) (ls : List (Nat × genresource)) (fuel : Nat),
      Pool s gr ls → 2 * ls.length + 1 ≤ fuel →
      (∃ r s1 evs, gr_clear ext fuel s gr = some (r, s1) ∧ s1.trace = s.trace ++ evs ∧
        r = wrap_int (sum_rets evs) ∧
        (sum_rets evs < 2147483648 → 0 ≤ r ∧ (r = 0 ↔ failures evs = 0))) ∧
      (∃ r s1 evs, gr_destroy ext fuel s gr = some (r, s1) ∧ s1.trace = s.trace ++ evs ∧
        r = wrap_int (sum_rets evs) ∧
        (sum_rets evs < 2147483648 → 0 ≤ r ∧ (r = 0 ↔ failures evs = 0)))) ∧
    (∀ (s : State) (cs : List (List (Nat × genresource))) (fuel : Nat),
      Registry s cs → cs.length + 2 * (all_links cs).length + 2 ≤ fuel →
      ∃ r s1 evs, gr_finish ext fuel s = some (r, s1) ∧ s1.trace = s.trace ++ evs ∧
        r = wrap_int (sum_rets evs) ∧
        (sum_rets evs < 2147483648 → 0 ≤ r ∧ (r = 0 ↔ failures evs = 0))) := by
  have key : ∀ (evs tr : List Event) (r : Int), Answers ext tr evs →
      r = wrap_int (sum_rets evs) → sum_rets evs < 2147483648 →
      0 ≤ r ∧ (r = 0 ↔ failures evs = 0) := by
    intro evs tr r ha hr hlt
    obtain ⟨p1, p2⟩ := sum_rets_nonneg ext hpos evs tr ha
    have h : r = sum_rets evs := by
      rw [hr]; exact wrap_int_of_range _ (by omega) hlt
    rw [h]
    exact ⟨p1, p2⟩
  constructor
  · intro s gr ls fuel hp hf
    obtain ⟨⟨r, s1, evs, a1, a2, a3, _, a5⟩, ⟨r2, s2, evs2, b1, b2, b3, _, b5⟩⟩ :=
      gr_clear_returns_sum_aux ext s gr ls fuel hp hf
    exact ⟨⟨r, s1, evs, a1, a2, a3, key evs _ r a5 a3⟩,
      ⟨r2, s2, evs2, b1, b2, b3, key evs2 _ r2 b5 b3⟩⟩
  · intro s cs fuel hr hf
    obtain ⟨s1, parts, f1, f2, _, f4, _⟩ := gr_finish_spec ext cs s fuel hr hf
    have h3 : wrap_int ((parts.map sum_rets).sum) = wrap_int (sum_rets (flat parts)) := by
      rw [sum_rets_flat]
    exact ⟨_, s1, flat parts, f1, f2, h3, key (flat parts) _ _ f4 h3⟩

/-- C15 amended, at `three_state` with release functions returning 0 and 2, and
at a registry holding the pool of `three_state`. -/
theorem aggregate_nonneg_witness :
    ((∃ r s1 evs, gr_clear two_ext 3 three_state 1 = some (r, s1) ∧
        s1.trace = three_state.trace ++ evs ∧ r = wrap_int (sum_rets evs) ∧
        (sum_rets evs < 2147483648 → 0 ≤ r ∧ (r = 0 ↔ failures evs = 0))) ∧
      (∃ r s1 evs, gr_destroy two_ext 3 three_state 1 = some (r, s1) ∧
        s1.trace = three_state.trace ++ evs ∧ r = wrap_int (sum_rets evs) ∧
        (sum_rets evs < 2147483648 → 0 ≤ r ∧ (r = 0 ↔ failures evs = 0)))) ∧
    (∃ r s1 evs, gr_finish two_ext 5 { three_state with gr_List := 1 } = some (r, s1) ∧
      s1.trace = three_state.trace ++ evs ∧ r = wrap_int (sum_rets evs) ∧
      (sum_rets evs < 2147483648 → 0 ≤ r ∧ (r = 0 ↔ failures evs = 0))) :=
  ⟨(aggregate_nonneg two_ext (by intro f d tr; simp only [two_ext]; split <;> decide)).1
      three_state 1 three_links 3 three_pool (by decide),
   (aggregate_nonneg two_ext (by intro f d tr; simp only [two_ext]; split <;> decide)).2
      { three_state with gr_List := 1 } [three_links] 5
      ⟨⟨⟨rfl, by decide, rfl, rfl⟩, rfl⟩, by decide, by decide⟩ (by decide)⟩

/-! ## C16, C17, C18: the invariants of a pool -/

theorem trackL_head_max (fresh : Nat) (e : resource_t) (ls : List (Nat × genresource))
    (y : Nat × genresource) (h : ls.head? = some y) :
    ∃ y1, (trackL fresh e ls).head? = some y1 ∧ y1.2.max = y.2.max := by
  cases ls with
  | nil => simp at h
  | cons x l =>
    simp only [List.head?_cons, Option.some.injEq] at h
    subst h
    by_cases hfull : x.2.num = x.2.max
    · cases l with
      | nil => rw [trackL_new _ _ _ hfull]; exact ⟨_, rfl, rfl⟩
      | cons z l1 => rw [trackL_next _ _ _ _ _ hfull]; exact ⟨_, rfl, rfl⟩
    · rw [trackL_put _ _ _ _ hfull]; exact ⟨_, rfl, rfl⟩

theorem trackL_sound (fresh : Nat) (e : resource_t) :
    ∀ ls : List (Nat × genresource), Sound ls → Sound (trackL fresh e ls) := by
  intro ls
  induction ls with
  | nil => intro h; simpa [trackL] using h
  | cons x ls ih =>
    intro h
    obtain ⟨h1, h2, h3⟩ := h
    have hx := h1 x (List.mem_cons_self _ _)
    by_cases hfull : x.2.num = x.2.max
    · cases ls with
      | nil =>
        rw [trackL_new _ _ _ hfull]
        have h2c : ¬ (2 * x.2.max = 0) := by omega
        refine ⟨?_, ⟨?_, ⟨by simp, trivial⟩⟩⟩
        · intro y hy
          simp only [List.mem_cons, List.mem_singleton, List.not_mem_nil, or_false] at hy
          rcases hy with rfl | rfl
          · exact hx
          · simp only [put, fresh_link, h2c, if_false]; omega
        · intro y hy
          simp only [List.head?_cons, Option.some.injEq] at hy
          subst hy
          simp only [put, fresh_link, h2c, if_false]
      | cons z l =>
        rw [trackL_next _ _ _ _ _ hfull]
        have hs : Sound (z :: l) := ⟨fun y hy => h1 y (List.mem_cons_of_mem _ hy), h3⟩
        obtain ⟨t1, t2⟩ := ih hs
        refine ⟨?_, ⟨?_, t2⟩⟩
        · intro y hy
          simp only [List.mem_cons] at hy
          rcases hy with rfl | hy
          · exact hx
          · exact t1 y (by simpa only [List.mem_cons] using hy)
        · intro y hy
          obtain ⟨y1, e1, e2⟩ := trackL_head_max fresh e (z :: l) z rfl
          rw [e1] at hy
          cases hy
          rw [e2]
          exact h2 z rfl
    · rw [trackL_put _ _ _ _ hfull]
      refine ⟨?_, ⟨h2, h3⟩⟩
      intro y hy
      simp only [List.mem_cons] at hy
      rcases hy with rfl | hy
      · simp only [put]; omega
      · exact h1 y (List.mem_cons_of_mem _ hy)

theorem doubling_map_cleared : ∀ ls : List (Nat × genresource), Doubling ls →
    Doubling (ls.map (fun y => (y.1, cleared y.2))) := by
  intro ls
  induction ls with
  | nil => intro h; exact h
  | cons x l ih =>
    intro h
    refine ⟨?_, ih h.2⟩
    intro y hy
    cases l with
    | nil => simp at hy
    | cons z l1 =>
      simp only [List.map_cons, List.head?_cons, Option.some.injEq] at hy
      subst hy
      exact h.1 z rfl

theorem clearL_sound (flag : Int) (ls : List (Nat × genresource)) (h : Sound ls) :
    Sound (clearL flag ls) := by
  obtain ⟨h1, h2⟩ := h
  simp only [clearL]
  split
  · cases ls with
    | nil => exact ⟨by simp, trivial⟩
    | cons x l =>
      have hx := h1 x (List.mem_cons_self _ _)
      refine ⟨?_, ⟨by simp, trivial⟩⟩
      intro y hy
      simp only [List.take, List.map, List.mem_singleton] at hy
      subst hy
      exact ⟨Nat.zero_le _, hx.2⟩
  · refine ⟨?_, doubling_map_cleared ls h2⟩
    intro y hy
    simp only [List.mem_map] at hy
    obtain ⟨z, hz, rfl⟩ := hy
    exact ⟨Nat.zero_le _, (h1 z hz).2⟩

theorem sound_fresh (a c nxt : Nat) : Sound [(a, { fresh_link c with next := nxt })] := by
  refine ⟨?_, ⟨by simp, trivial⟩⟩
  intro x hx
  simp only [List.mem_singleton] at hx
  subst hx
  simp only [fresh_link]
  split <;> omega

theorem gr_get_pool (s : State) (c : Nat) :
    Pool (gr_get s c).2 (gr_get s c).1
      [((gr_get s c).1, { fresh_link c with next := s.gr_List })] := by
  refine ⟨gr_get_chain s c, by simp, ?_⟩
  intro x hx
  simp only [List.mem_singleton] at hx
  subst hx
  exact ⟨le_refl _, (linkOk_fresh c).1, (linkOk_fresh c).2⟩

/-- One `gr_clear` on a well-formed pool: it returns and the pool stays
well-formed, with the links `clearL` describes. -/
theorem gr_clear_pool (ext : Oracle) (s : State) (gr : Nat) (ls : List (Nat × genresource))
    (fuel : Nat) (hp : Pool s gr ls) (hf : 2 * ls.length ≤ fuel) :
    ∃ r s1, gr_clear ext fuel s gr = some (r, s1) ∧
      Pool s1 gr (clearL s.destroy_chains_on_clear ls) ∧
      s1.destroy_chains_on_clear = s.destroy_chains_on_clear := by
  obtain ⟨hc, hne, hok⟩ := hp
  cases ls with
  | nil => exact absurd rfl hne
  | cons x l =>
    obtain ⟨r, s1, evs, c1, _, _, _, _, _, c6, _, _, c9, _, c11, _⟩ :=
      gr_clear_chain ext l x s gr fuel hc (by simpa using hf)
    exact ⟨r, s1, c1, ⟨c6, clearL_ne_nil _ _ (by simp), by rw [c9]; exact clearL_ok _ _ _ hok⟩,
      c11⟩

/-- C16: the pools `gr_init` and `gr_get` create are well-formed with
`0 ≤ num ≤ max` and `max > 0` on every link; `gr_track`, `gr_malloc` and
`gr_clear` return on such a pool and keep it so, each chain successor having
twice the capacity of its link; and no operation of the public interface
changes the capacity `max` of a link that exists before and after it. -/
theorem capacity_invariant :
    (∀ (s : State) (c : Nat),
      (Pool (gr_init s c).2 (gr_init s c).1 [((gr_init s c).1, fresh_link c)] ∧
        Sound [((gr_init s c).1, fresh_link c)]) ∧
      (Pool (gr_get s c).2 (gr_get s c).1
          [((gr_get s c).1, { fresh_link c with next := s.gr_List })] ∧
        Sound [((gr_get s c).1, { fresh_link c with next := s.gr_List })])) ∧
    (∀ (ext : Oracle) (s : State) (gr : Nat) (ls : List (Nat × genresource)),
      Pool s gr ls → Sound ls →
      (∀ ptr ff fuel, ls.length < fuel →
        ∃ s1 ls1, gr_track fuel s gr ptr ff = some (1, s1) ∧ Pool s1 gr ls1 ∧ Sound ls1) ∧
      (∀ r fuel, ls.length < fuel →
        ∃ s1 ls1, gr_malloc fuel s gr r = some (r, s1) ∧ Pool s1 gr ls1 ∧ Sound ls1) ∧
      (∀ fuel, 2 * ls.length ≤ fuel →
        ∃ r s1 ls1, gr_clear ext fuel s gr = some (r, s1) ∧ Pool s1 gr ls1 ∧ Sound ls1)) ∧
    (∀ (ext : Oracle) (fuel : Nat) (s s1 : State) (op : Op) (a : Nat) (g g1 : genresource),
      step ext fuel s op = some s1 → a ≤ s.brk → s.heap a = some g → s1.heap a = some g1 →
      g1.max = g.max) := by
  refine ⟨fun s c => ⟨⟨gr_init_pool s c, ?_⟩, ⟨gr_get_pool s c, sound_fresh _ c _⟩⟩, ?_, ?_⟩
  · have := sound_fresh (gr_init s c).1 c 0
    simpa [fresh_link] using this
  · intro ext s gr ls hp hs
    have htrack : ∀ ptr ff fuel, ls.length < fuel →
        ∃ s1 ls1, gr_track fuel s gr ptr ff = some (1, s1) ∧ Pool s1 gr ls1 ∧ Sound ls1 := by
      intro ptr ff fuel hf
      obtain ⟨s1, h1, h2, _⟩ := gr_track_pool ⟨ptr, ff⟩ s gr ls fuel hp hf
      exact ⟨s1, _, h1, h2, trackL_sound _ _ ls hs⟩
    refine ⟨htrack, ?_, ?_⟩
    · intro r fuel hf
      have hcell : ∃ g, s.heap gr = some g := by
        obtain ⟨hc, hne, _⟩ := hp
        cases ls with
        | nil => exact absurd rfl hne
        | cons x l => exact ⟨x.2, hc.2.2.1⟩
      obtain ⟨g, hg⟩ := hcell
      by_cases hr : r = 0
      · exact ⟨s, ls, by simp [gr_malloc, hg, hr], hp, hs⟩
      · obtain ⟨s1, ls1, h1, h2, h3⟩ := htrack r 0 fuel hf
        refine ⟨s1, ls1, ?_, h2, h3⟩
        simp only [gr_malloc, hg, hr, if_false, h1]
        simp
    · intro fuel hf
      obtain ⟨r, s1, h1, h2, _⟩ := gr_clear_pool ext s gr ls fuel hp hf
      exact ⟨r, s1, _, h1, h2, clearL_sound _ ls hs⟩
  · intro ext fuel s s1 op a g g1 hstep ha hg hg1
    exact ((step_stable ext fuel s s1 op hstep).1.2.2 a g g1 ha hg hg1).1

/-- C16 at the pool of `demo_state`. -/
theorem capacity_invariant_witness :
    (∀ ptr ff fuel, demo_links.length < fuel →
      ∃ s1 ls1, gr_track fuel demo_state 1 ptr ff = some (1, s1) ∧ Pool s1 1 ls1 ∧
        Sound ls1) ∧
    (∀ r fuel, demo_links.length < fuel →
      ∃ s1 ls1, gr_malloc fuel demo_state 1 r = some (r, s1) ∧ Pool s1 1 ls1 ∧ Sound ls1) ∧
    (∀ fuel, 2 * demo_links.length ≤ fuel →
      ∃ r s1 ls1, gr_clear two_ext fuel demo_state 1 = some (r, s1) ∧ Pool s1 1 ls1 ∧
        Sound ls1) :=
  capacity_invariant.2.1 two_ext demo_state 1 demo_links demo_pool
    ⟨by decide, ⟨by decide, ⟨by decide, trivial⟩⟩⟩

/-- The two ways `trackL` changes a chain: it fills the first link that has a
free slot, or, when every link is full, it hangs a new link on the last one. -/
theorem trackL_cases (fresh : Nat) (e : resource_t) :
    ∀ ls : List (Nat × genresource), ls ≠ [] →
      (∃ pre x post, ls = pre ++ x :: post ∧ (∀ y ∈ pre, y.2.num = y.2.max) ∧
          x.2.num ≠ x.2.max ∧ trackL fresh e ls = pre ++ (x.1, put e x.2) :: post) ∨
      ((∀ y ∈ ls, y.2.num = y.2.max) ∧ ∃ pre x, ls = pre ++ [x] ∧
          trackL fresh e ls =
            pre ++ [(x.1, { x.2 with chain := fresh }),
              (fresh, put e (fresh_link (2 * x.2.max)))]) := by
  intro ls
  induction ls with
  | nil => intro h; exact absurd rfl h
  | cons x ls ih =>
    intro _
    by_cases hfull : x.2.num = x.2.max
    · cases ls with
      | nil =>
        refine Or.inr ⟨?_, [], x, rfl, trackL_new _ _ _ hfull⟩
        intro y hy
        simp only [List.mem_singleton] at hy
        subst hy
        exact hfull
      | cons z l =>
        rw [trackL_next _ _ _ _ _ hfull]
        rcases ih (by simp) with ⟨pre, y, post, e1, e2, e3, e4⟩ | ⟨e1, pre, y, e2, e3⟩
        · refine Or.inl ⟨x :: pre, y, post, by rw [e1]; rfl, ?_, e3, by rw [e4]; rfl⟩
          intro w hw
          simp only [List.mem_cons] at hw
          rcases hw with rfl | hw
          · exact hfull
          · exact e2 w hw
        · refine Or.inr ⟨?_, x :: pre, y, by rw [e2]; rfl, by rw [e3]; rfl⟩
          intro w hw
          simp only [List.mem_cons] at hw
          rcases hw with rfl | hw
          · exact hfull
          · exact e1 w (by simpa only [List.mem_cons] using hw)
    · exact Or.inl ⟨[], x, ls, rfl, by simp, hfull, trackL_put _ _ _ _ hfull⟩

/-- C17: on a well-formed pool `gr_track` returns 1 within one pass per
existing link and one more (any fuel above the number of links is enough).
Either some link has a free slot: then the entry is written behind the used
slots of the first such link, no link is created and every other link is as
before; or every link is full: then one link of twice the capacity of the last
link is created behind it and holds the entry alone.  Cells outside the chain
and the new link are unchanged. -/
theorem gr_track_first_free (s : State) (gr : Nat) (ls : List (Nat × genresource))
    (ptr ff fuel : Nat) (hp : Pool s gr ls) (hs : Sound ls) (hf : ls.length < fuel) :
    ∃ s1, gr_track fuel s gr ptr ff = some (1, s1) ∧
      (∀ b, b ∉ addrs ls → b ≠ s.brk + 1 → s1.heap b = s.heap b) ∧
      ((∃ pre x post, ls = pre ++ x :: post ∧ (∀ y ∈ pre, y.2.num = y.2.max) ∧
          x.2.num < x.2.max ∧
          Pool s1 gr (pre ++ (x.1, put ⟨ptr, ff⟩ x.2) :: post) ∧
          used (put ⟨ptr, ff⟩ x.2) = used x.2 ++ [⟨ptr, ff⟩] ∧
          (put ⟨ptr, ff⟩ x.2).max = x.2.max ∧ (put ⟨ptr, ff⟩ x.2).chain = x.2.chain ∧
          (put ⟨ptr, ff⟩ x.2).next = x.2.next ∧ s1.brk = s.brk) ∨
        ((∀ y ∈ ls, y.2.num = y.2.max) ∧ ∃ pre x, ls = pre ++ [x] ∧
          Pool s1 gr (pre ++ [(x.1, { x.2 with chain := s.brk + 1 }),
            (s.brk + 1, put ⟨ptr, ff⟩ (fresh_link (2 * x.2.max)))]) ∧
          (put ⟨ptr, ff⟩ (fresh_link (2 * x.2.max))).max = 2 * x.2.max ∧
          used (put ⟨ptr, ff⟩ (fresh_link (2 * x.2.max))) = [⟨ptr, ff⟩] ∧
          s1.brk = s.brk + 1)) := by
  obtain ⟨s1, h1, hpool, _⟩ := gr_track_pool ⟨ptr, ff⟩ s gr ls fuel hp hf
  obtain ⟨hc, hne, hok⟩ := hp
  obtain ⟨s2, g1, _, g3, g4, _⟩ :=
    gr_track_chain ⟨ptr, ff⟩ ls s gr fuel hc hne (fun x hx => (hok x hx).1) hf
  have e12 : s2 = s1 := by
    have e : some ((1 : Int), s2) = some ((1 : Int), s1) := g1.symm.trans h1
    exact (Prod.mk.inj (Option.some.inj e)).2
  subst e12
  refine ⟨s2, h1, ?_, ?_⟩
  · intro b hb hb1
    apply g3
    rcases trackL_addrs (s.brk + 1) ⟨ptr, ff⟩ ls hne with ha | ha
    · rw [ha]; exact hb
    · rw [ha]
      simp only [List.mem_append, List.mem_singleton, not_or]
      exact ⟨hb, hb1⟩
  · rcases trackL_cases (s.brk + 1) ⟨ptr, ff⟩ ls hne with
      ⟨pre, x, post, e1, e2, e3, e4⟩ | ⟨e1, pre, x, e2, e3⟩
    · have hx : LinkOk x.2 := (hok x (by rw [e1]; simp)).2
      refine Or.inl ⟨pre, x, post, e1, e2, ?_, ?_, ?_, rfl, rfl, rfl, ?_⟩
      · have := hx.1; omega
      · rw [← e4]; exact hpool
      · apply used_put
        rw [hx.2]
        have := hx.1; omega
      · rw [g4, e4, e1]
        simp
    · have hx : 0 < x.2.max := (hs.1 x (by rw [e2]; simp)).2
      have h2c : ¬ (2 * x.2.max = 0) := by omega
      refine Or.inr ⟨e1, pre, x, e2, ?_, ?_, used_put_fresh _ _, ?_⟩
      · rw [← e3]; exact hpool
      · simp only [put, fresh_link, h2c, if_false]
      · rw [g4, e3, e2]
        simp

/-- C17 at the pool of `demo_state`, whose first link is full and whose second
link has a free slot. -/
theorem gr_track_first_free_witness :
    Pool demo_state 1 demo_links ∧ Sound demo_links ∧
    ∃ s1, gr_track 3 demo_state 1 16 0 = some (1, s1) ∧
      (∀ b, b ∉ addrs demo_links → b ≠ demo_state.brk + 1 → s1.heap b = demo_state.heap b) ∧
      ((∃ pre x post, demo_links = pre ++ x :: post ∧ (∀ y ∈ pre, y.2.num = y.2.max) ∧
          x.2.num < x.2.max ∧
          Pool s1 1 (pre ++ (x.1, put ⟨16, 0⟩ x.2) :: post) ∧
          used (put ⟨16, 0⟩ x.2) = used x.2 ++ [⟨16, 0⟩] ∧
          (put ⟨16, 0⟩ x.2).max = x.2.max ∧ (put ⟨16, 0⟩ x.2).chain = x.2.chain ∧
          (put ⟨16, 0⟩ x.2).next = x.2.next ∧ s1.brk = demo_state.brk) ∨
        ((∀ y ∈ demo_links, y.2.num = y.2.max) ∧ ∃ pre x, demo_links = pre ++ [x] ∧
          Pool s1 1 (pre ++ [(x.1, { x.2 with chain := demo_state.brk + 1 }),
            (demo_state.brk + 1, put ⟨16, 0⟩ (fresh_link (2 * x.2.max)))]) ∧
          (put ⟨16, 0⟩ (fresh_link (2 * x.2.max))).max = 2 * x.2.max ∧
          used (put ⟨16, 0⟩ (fresh_link (2 * x.2.max))) = [⟨16, 0⟩] ∧
          s1.brk = demo_state.brk + 1)) :=
  ⟨demo_pool, ⟨by decide, ⟨by decide, ⟨by decide, trivial⟩⟩⟩,
    gr_track_first_free demo_state 1 demo_links 16 0 3 demo_pool
      ⟨by decide, ⟨by decide, ⟨by decide, trivial⟩⟩⟩ (by decide)⟩

/-! ## C18: the chain is filled as a prefix -/

theorem trackL_length_le (fresh : Nat) (e : resource_t) (ls : List (Nat × genresource))
    (h : ls ≠ []) : (trackL fresh e ls).length ≤ ls.length + 1 := by
  have h1 : (addrs (trackL fresh e ls)).length = (trackL fresh e ls).length := by simp [addrs]
  have h2 : (addrs ls).length = ls.length := by simp [addrs]
  rcases trackL_addrs fresh e ls h with ha | ha
  · rw [ha] at h1; omega
  · rw [ha] at h1; simp only [List.length_append, List.length_singleton] at h1; omega

/-- In a packed chain every link in front of a link that holds an entry is full. -/
theorem packed_prefix : ∀ ls : List (Nat × genresource), Packed ls →
    ∀ (i j : Nat) (x y : Nat × genresource), i < j → ls[i]? = some x → ls[j]? = some y →
      0 < y.2.num → x.2.num = x.2.max := by
  intro ls
  induction ls with
  | nil => intro _ i j x y _ hx; simp at hx
  | cons z l ih =>
    intro hp i j x y hij hx hy hpos
    obtain ⟨n, rfl⟩ : ∃ n, j = n + 1 := ⟨j - 1, by omega⟩
    simp only [List.getElem?_cons_succ] at hy
    cases i with
    | zero =>
      simp only [List.getElem?_cons_zero, Option.some.injEq] at hx
      subst hx
      rcases hp.1 with h | h
      · exact h
      · have := h y (List.getElem?_mem hy)
        omega
    | succ m =>
      simp only [List.getElem?_cons_succ] at hx
      exact ih hp.2 m n x y (by omega) hx hy hpos

/-- Any sequence of `gr_track`, `gr_malloc` and `gr_clear` on a well-formed
packed pool returns and leaves a well-formed packed pool. -/
theorem pool_run_packed (ext : Oracle) (fuel : Nat) :
    ∀ (ops : List PoolOp) (s : State) (gr : Nat) (ls : List (Nat × genresource)),
      Pool s gr ls → Packed ls → 2 * (ls.length + ops.length) + 1 ≤ fuel →
      ∃ s1 ls1, pool_run ext fuel s gr ops = some s1 ∧ Pool s1 gr ls1 ∧ Packed ls1 := by
  intro ops
  induction ops with
  | nil => intro s gr ls hp hpk _; exact ⟨s, ls, rfl, hp, hpk⟩
  | cons op ops ih =>
    intro s gr ls hp hpk hf
    simp only [List.length_cons] at hf
    have htrack : ∀ ptr ff, ∃ s1 ls1, gr_track fuel s gr ptr ff = some (1, s1) ∧
        Pool s1 gr ls1 ∧ Packed ls1 ∧ ls1.length ≤ ls.length + 1 := by
      intro ptr ff
      obtain ⟨s1, h1, h2, h3, _⟩ := gr_track_pool ⟨ptr, ff⟩ s gr ls fuel hp (by omega)
      exact ⟨s1, _, h1, h2, (h3 hpk).1, trackL_length_le _ _ ls hp.2.1⟩
    cases op with
    | track ptr ff =>
      obtain ⟨s1, ls1, h1, h2, h3, h4⟩ := htrack ptr ff
      obtain ⟨s2, ls2, g1, g2, g3⟩ := ih s1 gr ls1 h2 h3 (by omega)
      refine ⟨s2, ls2, ?_, g2, g3⟩
      simp only [pool_run, pool_step, step, h1, Option.map]
      exact g1
    | malloc r =>
      have hcell : ∃ g, s.heap gr = some g := by
        obtain ⟨hc, hne, _⟩ := hp
        cases ls with
        | nil => exact absurd rfl hne
        | cons x l => exact ⟨x.2, hc.2.2.1⟩
      obtain ⟨g, hg⟩ := hcell
      by_cases hr : r = 0
      · obtain ⟨s2, ls2, g1, g2, g3⟩ := ih s gr ls hp hpk (by omega)
        refine ⟨s2, ls2, ?_, g2, g3⟩
        simp only [pool_run, pool_step, step, gr_malloc, hg, hr, if_true, Option.map]
        exact g1
      · obtain ⟨s1, ls1, h1, h2, h3, h4⟩ := htrack r 0
        obtain ⟨s2, ls2, g1, g2, g3⟩ := ih s1 gr ls1 h2 h3 (by omega)
        refine ⟨s2, ls2, ?_, g2, g3⟩
        simp only [pool_run, pool_step, step, gr_malloc, hg, hr, if_false, h1, Option.map]
        simpa using g1
    | clear =>
      obtain ⟨r, s1, h1, h2, _⟩ := gr_clear_pool ext s gr ls fuel hp (by omega)
      have hlen := clearL_length s.destroy_chains_on_clear ls
      obtain ⟨s2, ls2, g1, g2, g3⟩ := ih s1 gr _ h2
        (packed_of_empty _ (clearL_empty s.destroy_chains_on_clear ls)) (by omega)
      refine ⟨s2, ls2, ?_, g2, g3⟩
      simp only [pool_run, pool_step, step, h1, Option.map]
      exact g1

/-- C18: a pool created by `gr_init` or by `gr_get` in any state (so under
either value of `destroy_chains_on_clear`), after any sequence of `gr_track`,
`gr_malloc` and `gr_clear` on it, is a well-formed pool whose chain is filled
as a prefix: whenever the link at position `j` holds an entry, every link at a
position `i < j` is full.  The sequence returns with two units of fuel per
operation and three more. -/
theorem chain_filled_as_prefix (ext : Oracle) (s0 : State) (c : Nat) (ops : List PoolOp)
    (fuel : Nat) (hf : 2 * (ops.length + 1) + 1 ≤ fuel) :
    (∃ s1 ls, pool_run ext fuel (gr_init s0 c).2 (gr_init s0 c).1 ops = some s1 ∧
      Pool s1 (gr_init s0 c).1 ls ∧
      ∀ (i j : Nat) (x y : Nat × genresource), i < j → ls[i]? = some x → ls[j]? = some y →
        0 < y.2.num → x.2.num = x.2.max) ∧
    (∃ s1 ls, pool_run ext fuel (gr_get s0 c).2 (gr_get s0 c).1 ops = some s1 ∧
      Pool s1 (gr_get s0 c).1 ls ∧
      ∀ (i j : Nat) (x y : Nat × genresource), i < j → ls[i]? = some x → ls[j]? = some y →
        0 < y.2.num → x.2.num = x.2.max) := by
  constructor
  · obtain ⟨s1, ls, h1, h2, h3⟩ := pool_run_packed ext fuel ops (gr_init s0 c).2
      (gr_init s0 c).1 _ (gr_init_pool s0 c)
      (packed_of_empty _ (by intro y hy; simp only [List.mem_singleton] at hy; subst hy; rfl))
      (by simp only [List.length_singleton]; omega)
    exact ⟨s1, ls, h1, h2, packed_prefix ls h3⟩
  · obtain ⟨s1, ls, h1, h2, h3⟩ := pool_run_packed ext fuel ops (gr_get s0 c).2
      (gr_get s0 c).1 _ (gr_get_pool s0 c)
      (packed_of_empty _ (by intro y hy; simp only [List.mem_singleton] at hy; subst hy; rfl))
      (by simp only [List.length_singleton]; omega)
    exact ⟨s1, ls, h1, h2, packed_prefix ls h3⟩

/-- C18 for a pool of capacity 1 that is filled past its capacity, cleared and
filled again, when chains are kept on clear. -/
theorem chain_filled_as_prefix_witness :
    (∃ s1 ls, pool_run two_ext 11
        (gr_init { init_state with destroy_chains_on_clear := 0 } 1).2
        (gr_init { init_state with destroy_chains_on_clear := 0 } 1).1
        [PoolOp.track 5 7, PoolOp.track 6 0, PoolOp.clear, PoolOp.malloc 8] = some s1 ∧
      Pool s1 (gr_init { init_state with destroy_chains_on_clear := 0 } 1).1 ls ∧
      ∀ (i j : Nat) (x y : Nat × genresource), i < j → ls[i]? = some x → ls[j]? = some y →
        0 < y.2.num → x.2.num = x.2.max) ∧
    (∃ s1 ls, pool_run two_ext 11
        (gr_get { init_state with destroy_chains_on_clear := 0 } 1).2
        (gr_get { init_state with destroy_chains_on_clear := 0 } 1).1
        [PoolOp.track 5 7, PoolOp.track 6 0, PoolOp.clear, PoolOp.malloc 8] = some s1 ∧
      Pool s1 (gr_get { init_state with destroy_chains_on_clear := 0 } 1).1 ls ∧
      ∀ (i j : Nat) (x y : Nat × genresource), i < j → ls[i]? = some x → ls[j]? = some y →
        0 < y.2.num → x.2.num = x.2.max) :=
  chain_filled_as_prefix two_ext { init_state with destroy_chains_on_clear := 0 } 1
    [PoolOp.track 5 7, PoolOp.track 6 0, PoolOp.clear, PoolOp.malloc 8] 11 (by decide)

/-! ## C19: the iterator under a predicate with side effects -/

theorem test_events_append (f : Nat) (ds1 ds2 : List Nat) (rs1 rs2 : List Int)
    (h : rs1.length = ds1.length) :
    test_events f (ds1 ++ ds2) (rs1 ++ rs2) = test_events f ds1 rs1 ++ test_events f ds2 rs2 := by
  simp only [test_events]
  exact List.zipWith_append _ _ _ _ _ h.symm

/-- One call of `gr_iter_next` under any predicate: either it inspects every
handle that is left, frees the iterator and returns `NULL`, or it inspects the
handles up to the one it returns and leaves the iterator behind that one. -/
theorem gr_iter_next_tests (ext : Oracle) (f : Nat) (hf : f ≠ 0) :
    ∀ (fuel : Nat) (ls : List (Nat × genresource)) (gr cur : Nat) (s : State),
      IterAt s.heap gr cur ls →
      (rest_handles cur ls).length + ls.length + 1 ≤ fuel →
      ∃ s1 rs, s1.heap = s.heap ∧
        ((gr_iter_next ext fuel s ⟨gr, cur, f⟩ = some (0, none, s1) ∧
            rs.length = (rest_handles cur ls).length ∧
            s1.trace = s.trace ++ test_events f (rest_handles cur ls) rs) ∨
          ∃ d gr1 cur1 ls1 pre,
            gr_iter_next ext fuel s ⟨gr, cur, f⟩ = some (d, some ⟨gr1, cur1, f⟩, s1) ∧
            rest_handles cur ls = pre ++ d :: rest_handles cur1 ls1 ∧
            rs.length = pre.length + 1 ∧
            s1.trace = s.trace ++ test_events f (pre ++ [d]) rs ∧
            IterAt s.heap gr1 cur1 ls1 ∧ ls1.length ≤ ls.length) := by
  intro fuel
  induction fuel with
  | zero => intro ls gr cur s _ h; omega
  | succ n ih =>
    intro ls gr cur s hat hfl
    obtain ⟨hc, hok, hcur⟩ := hat
    cases ls with
    | nil =>
      have hgr : gr = 0 := hc
      subst hgr
      exact ⟨s, [], rfl, Or.inl ⟨iter_next_null ext n s cur f, rfl,
        by simp [test_events, rest_handles]⟩⟩
    | cons x l =>
      obtain ⟨ha, ha0, hha, htl⟩ := hc
      subst ha
      have hx : LinkOk x.2 := hok x (List.mem_cons_self _ _)
      by_cases hlt : cur < x.2.num
      · have hstep := rest_handles_step x l cur hx hlt
        have hnext : IterAt s.heap x.1 (cur + 1) (x :: l) :=
          ⟨⟨rfl, ha0, hha, htl⟩, hok, fun y hy => by
            simp only [List.head?_cons, Option.some.injEq] at hy; subst hy; omega⟩
        by_cases hr : ext f (x.2.ptrs.getD cur ⟨0, 0⟩).data s.trace = 0
        · have hrun := iter_next_skip ext n s x.1 cur f x.2 ha0 hha hlt hf hr
          obtain ⟨s1, rs, h1, h2⟩ := ih (x :: l) x.1 (cur + 1)
            { s with trace := s.trace ++ [Event.test f (x.2.ptrs.getD cur ⟨0, 0⟩).data
                (ext f (x.2.ptrs.getD cur ⟨0, 0⟩).data s.trace)] } hnext
            (by rw [hstep] at hfl; simp at hfl ⊢; omega)
          refine ⟨s1, ext f (x.2.ptrs.getD cur ⟨0, 0⟩).data s.trace :: rs, h1, ?_⟩
          rcases h2 with ⟨g1, g2, g3⟩ | ⟨d2, gr1, cur1, ls1, pre, g1, g2, g3, g4, g5, g6⟩
          · refine Or.inl ⟨by rw [hrun]; exact g1, by rw [hstep]; simp [g2], ?_⟩
            rw [g3, hstep]
            simp [test_events]
          · refine Or.inr ⟨d2, gr1, cur1, ls1, (x.2.ptrs.getD cur ⟨0, 0⟩).data :: pre,
              by rw [hrun]; exact g1, by rw [hstep, g2]; rfl, by simp [g3], ?_, g5, g6⟩
            rw [g4]
            simp [test_events]
        · refine ⟨{ s with trace := s.trace ++ [Event.test f (x.2.ptrs.getD cur ⟨0, 0⟩).data
                (ext f (x.2.ptrs.getD cur ⟨0, 0⟩).data s.trace)] },
            [ext f (x.2.ptrs.getD cur ⟨0, 0⟩).data s.trace], rfl,
            Or.inr ⟨(x.2.ptrs.getD cur ⟨0, 0⟩).data, x.1, cur + 1, x :: l, [], ?_, ?_, rfl, ?_,
              hnext, le_refl _⟩⟩
          · exact iter_next_hit ext n s x.1 cur f x.2 ha0 hha hlt hf hr
          · rw [hstep]; rfl
          · simp [test_events]
      · have hend := rest_handles_end x l cur (by omega)
        have hat1 : IterAt s.heap x.2.chain 0 l :=
          ⟨htl, fun y hy => hok y (List.mem_cons_of_mem _ hy), fun _ _ => Nat.zero_le _⟩
        obtain ⟨s1, rs, h1, h2⟩ := ih l x.2.chain 0 s hat1
          (by rw [hend] at hfl; simp at hfl ⊢; omega)
        have hrun := iter_next_chain ext n s x.1 cur f x.2 ha0 hha hlt
        refine ⟨s1, rs, h1, ?_⟩
        rcases h2 with ⟨g1, g2, g3⟩ | ⟨d2, gr1, cur1, ls1, pre, g1, g2, g3, g4, g5, g6⟩
        · exact Or.inl ⟨by rw [hrun]; exact g1, by rw [hend]; exact g2, by rw [hend]; exact g3⟩
        · exact Or.inr ⟨d2, gr1, cur1, ls1, pre, by rw [hrun]; exact g1, by rw [hend]; exact g2,
            g3, g4, g5, by simp only [List.length_cons]; omega⟩

/-- The loop over `gr_iter_next` under any predicate: it returns, the predicate
has inspected a prefix of the handles that were left, each position once and
in order, and when no handle is null it has inspected all of them and the
iterator is freed. -/
theorem iter_drain_tests (ext : Oracle) (f : Nat) (hf : f ≠ 0) (n : Nat) :
    ∀ (fuel : Nat) (ls : List (Nat × genresource)) (gr cur : Nat) (s : State),
      IterAt s.heap gr cur ls →
      (rest_handles cur ls).length + ls.length + 1 ≤ n →
      (rest_handles cur ls).length + 1 ≤ fuel →
      ∃ ys it s1 tested rs, iter_drain ext n fuel s ⟨gr, cur, f⟩ = some (ys, it, s1) ∧
        s1.heap = s.heap ∧ tested <+: rest_handles cur ls ∧ rs.length = tested.length ∧
        s1.trace = s.trace ++ test_events f tested rs ∧
        ((∀ d ∈ rest_handles cur ls, d ≠ 0) → tested = rest_handles cur ls ∧ it = none) := by
  intro fuel
  induction fuel with
  | zero => intro ls gr cur s _ _ h; omega
  | succ k ih =>
    intro ls gr cur s hat hn hk
    obtain ⟨s1, rs, h1, h2⟩ := gr_iter_next_tests ext f hf n ls gr cur s hat hn
    rcases h2 with ⟨g1, g2, g3⟩ | ⟨d, gr1, cur1, ls1, pre, g1, g2, g3, g4, g5, g6⟩
    · refine ⟨[], none, s1, rest_handles cur ls, rs, ?_, h1, List.prefix_refl _, g2, g3,
        fun _ => ⟨rfl, rfl⟩⟩
      rw [iter_drain, g1]
      simp
    · have hlen : (rest_handles cur ls).length = pre.length + 1 + (rest_handles cur1 ls1).length := by
        rw [g2]; simp; omega
      by_cases hd0 : d = 0
      · refine ⟨[], some ⟨gr1, cur1, f⟩, s1, pre ++ [d], rs, ?_, h1,
          ⟨rest_handles cur1 ls1, by rw [g2]; simp⟩, by simp [g3], g4, ?_⟩
        · rw [iter_drain, g1]
          simp [hd0]
        · intro hnn
          exact absurd hd0 (hnn d (by rw [g2]; simp))
      · obtain ⟨ys, it, s2, tested, rs2, e1, e2, e3, e4, e5, e6⟩ :=
          ih ls1 gr1 cur1 s1 (by rw [h1]; exact g5) (by omega) (by omega)
        refine ⟨d :: ys, it, s2, (pre ++ [d]) ++ tested, rs ++ rs2, ?_, by rw [e2, h1], ?_, ?_,
          ?_, ?_⟩
        · rw [iter_drain, g1]
          simp only [hd0, ne_eq, not_false_eq_true, if_true, e1]
        · obtain ⟨t, ht⟩ := e3
          exact ⟨t, by rw [g2, ← ht]; simp⟩
        · simp only [List.length_append, List.length_singleton, g3, e4]
        · rw [e5, g4, test_events_append f _ _ _ _ (by simp [g3])]
          simp
        · intro hnn
          obtain ⟨t1, t2⟩ := e6 (fun d1 hd1 => hnn d1 (by rw [g2]; simp [hd1]))
          exact ⟨by rw [t1, g2]; simp, t2⟩

theorem null_pool : Pool null_state 1
    [(1, { ptrs := [⟨0, 0⟩, ⟨5, 0⟩], num := 2, max := 2, next := 0, chain := 0 })] := by
  refine ⟨⟨rfl, by decide, rfl, rfl⟩, by simp, ?_⟩
  intro x hx
  simp only [List.mem_singleton] at hx
  subst hx
  exact ⟨by decide, by decide, rfl⟩

/-- C19, counterexample: the pool that `gr_init(2)`, `gr_track(pool, NULL, NULL)`
and `gr_track(pool, 5, NULL)` build tracks the handles `NULL` and 5.  Under a
predicate that accepts every handle the first `gr_iter_next` inspects the null
handle and returns it, which is the sentinel: the drive ends with the iterator
still allocated and the predicate was never invoked on the handle 5. -/
theorem gr_iter_stops_at_null_handle :
    ((track_all 2 (gr_init init_state 2).2 1 [⟨0, 0⟩, ⟨5, 0⟩]).bind (fun s => s.heap 1) =
        some { ptrs := [⟨0, 0⟩, ⟨5, 0⟩], num := 2, max := 2, next := 0, chain := 0 }) ∧
    null_state.heap 1 =
      some { ptrs := [⟨0, 0⟩, ⟨5, 0⟩], num := 2, max := 2, next := 0, chain := 0 } ∧
    (iter_drain yes_ext 4 3 null_state (gr_iter_start 1 9)).map
        (fun r => (r.1, r.2.1, r.2.2.trace)) =
      some ([], some ⟨1, 1, 9⟩, [Event.test 9 0 1]) := by
  refine ⟨by decide, by decide, by decide⟩

/-- C19, amended: on a well-formed pool, driving the iterator of
`gr_iter_start(pool, f)` with a non-null predicate `f`, whose answers may depend
on everything that happened before, until `gr_iter_next` returns `NULL`
returns; the predicate has been invoked, in insertion order across the chain
and once per position, on a prefix of the tracked handles, and on all of them,
with the iterator freed, when no tracked handle is null.  The heap, and so
every pool's count, capacity, entries and chain, is unchanged. -/
theorem gr_iter_inspects_in_order (ext : Oracle) (s : State) (gr : Nat)
    (ls : List (Nat × genresource)) (f n fuel : Nat) (hp : Pool s gr ls) (hf : f ≠ 0)
    (hn : (entries ls).length + ls.length + 1 ≤ n) (hfuel : (entries ls).length + 1 ≤ fuel) :
    ∃ ys it s1 tested rs, iter_drain ext n fuel s (gr_iter_start gr f) = some (ys, it, s1) ∧
      s1.heap = s.heap ∧ tested <+: (entries ls).map (fun e => e.data) ∧
      rs.length = tested.length ∧ s1.trace = s.trace ++ test_events f tested rs ∧
      ((∀ e ∈ entries ls, e.data ≠ 0) →
        tested = (entries ls).map (fun e => e.data) ∧ it = none) := by
  have hat : IterAt s.heap gr 0 ls :=
    ⟨hp.1, fun x hx => (hp.2.2 x hx).2, fun _ _ => Nat.zero_le _⟩
  have hlen : (rest_handles 0 ls).length = (entries ls).length := by
    rw [rest_handles_zero]; simp
  obtain ⟨ys, it, s1, tested, rs, h1, h2, h3, h4, h5, h6⟩ :=
    iter_drain_tests ext f hf n fuel ls gr 0 s hat (by omega) (by omega)
  rw [rest_handles_zero] at h3 h6
  refine ⟨ys, it, s1, tested, rs, h1, h2, h3, h4, h5, ?_⟩
  intro hnn
  apply h6
  intro d hd
  rw [List.mem_map] at hd
  obtain ⟨e, he, rfl⟩ := hd
  exact hnn e he

/-- C19 at the pool of `iter_state` (handles 1, 2, 3, 4, two of them in the
chain link) with a predicate whose answers change from call to call. -/
theorem gr_iter_inspects_in_order_witness :
    (∀ e ∈ entries iter_links, e.data ≠ 0) ∧
    (∃ ys it s1 tested rs,
      iter_drain turn_ext 7 5 iter_state (gr_iter_start 1 9) = some (ys, it, s1) ∧
      s1.heap = iter_state.heap ∧ tested <+: (entries iter_links).map (fun e => e.data) ∧
      rs.length = tested.length ∧ s1.trace = iter_state.trace ++ test_events 9 tested rs ∧
      ((∀ e ∈ entries iter_links, e.data ≠ 0) →
        tested = (entries iter_links).map (fun e => e.data) ∧ it = none)) ∧
    (iter_drain turn_ext 7 5 iter_state (gr_iter_start 1 9)).map
        (fun r => (r.1, r.2.1, r.2.2.trace)) =
      some ([2, 4], none,
        [Event.test 9 1 0, Event.test 9 2 1, Event.test 9 3 0, Event.test 9 4 1]) :=
  ⟨by decide,
    gr_iter_inspects_in_order turn_ext iter_state 1 iter_links 9 7 5 iter_pool (by decide)
      (by decide) (by decide),
    by decide⟩

/-! ## C8: `gr_destroy` and the chain -/

end Gr
